import Mathlib

/-!
Verification of the cpp_json library (tokenizer, recursive-descent parser,
tree model, builder, writer) against its specification.

The embedding models the byte-level behaviour of the C++ sources:

* input and output buffers are `List Nat` of byte values;
* `std::expected<T, Error>` becomes `Except Error T`;
* the arena is memory management only and is flattened away: a `Node*` tree
  becomes the inductive `Node α`, a `std::string_view` becomes the byte list
  it denotes, and a nullable `Node*` becomes `Option (Node α)`;
* the parser's one-token lookahead cache (`current_` / `has_current_`) is
  pure memoisation of the deterministic tokenizer, so the model recomputes
  the token instead of caching it;
* `double` together with `std::from_chars` / `std::format` is abstracted as
  a type parameter `α` with a conversion `numP : List Nat → Option α` and a
  formatter `numF : α → List Nat`; the platform guarantees assumed by the
  code are taken as explicit hypotheses where needed;
* `char` is signed on the build target, so a byte `b` read from a string
  compares as `sbyte b`.
-/

namespace JsonCpp

/-- Error codes of `include/json/error.hpp` (the message string is derived
purely from the code and is omitted). -/
inductive ErrorCode where
  | none_
  | unexpectedEOF
  | invalidToken
  | invalidNumber
  | invalidString
  | invalidEscape
  | unexpectedToken
  | expectedColon
  | expectedComma
  | expectedValue
  | tooDeep
  | outOfMemory
deriving DecidableEq, Repr

/-- The error envelope: code plus byte offset into the original input. -/
structure Error where
  code : ErrorCode
  offset : Nat
deriving DecidableEq, Repr

/-- Token types of `include/json/tokenizer.hpp`. -/
inductive TokenType where
  | end_
  | leftBrace
  | rightBrace
  | leftBracket
  | rightBracket
  | colon
  | comma
  | string
  | number
  | true_
  | false_
  | null_
deriving DecidableEq, Repr

/-- A token: type, text slice (as the byte list it denotes) and absolute
byte offset of the token start. -/
structure Token where
  ttype : TokenType
  text : List Nat
  offset : Nat
deriving DecidableEq, Repr

/-- Whitespace bytes skipped by `Tokenizer::skip_whitespace`:
space, tab, LF, CR. -/
def isWsB (b : Nat) : Bool := b = 32 || b = 9 || b = 10 || b = 13

/-- Number of leading whitespace bytes (the distance `skip_whitespace`
advances `pos_`). -/
def wsCount : List Nat → Nat
  | [] => 0
  | b :: r => if isWsB b then wsCount r + 1 else 0

/-- ASCII digit test (`std::isdigit` on the digit bytes). -/
def isDigitB (b : Nat) : Bool := 48 ≤ b && b ≤ 57

/-- Number of leading digit bytes. -/
def countDigits : List Nat → Nat
  | [] => 0
  | b :: r => if isDigitB b then countDigits r + 1 else 0

/-- Value of one hex digit byte, as in `hex_to_int` (the C++ returns -1 for a
non-hex byte; the model returns `none`). -/
def hexToInt (b : Nat) : Option Nat :=
  if 48 ≤ b ∧ b ≤ 57 then some (b - 48)
  else if 97 ≤ b ∧ b ≤ 102 then some (b - 97 + 10)
  else if 65 ≤ b ∧ b ≤ 70 then some (b - 65 + 10)
  else none

/-- Decode four hex digit bytes starting at index `i` of `s`, as in
`decode_unicode_escape`. -/
def decodeHex4 (s : List Nat) (i : Nat) : Option Nat := do
  let h0 ← hexToInt (s.getD i 0)
  let h1 ← hexToInt (s.getD (i + 1) 0)
  let h2 ← hexToInt (s.getD (i + 2) 0)
  let h3 ← hexToInt (s.getD (i + 3) 0)
  pure (((h0 * 16 + h1) * 16 + h2) * 16 + h3)

/-- UTF-8 encoding of a codepoint, as in `encode_utf8`; `[]` models the
`return 0` failure for codepoints ≥ 0x110000. -/
def encodeUtf8 (cp : Nat) : List Nat :=
  if cp < 0x80 then [cp]
  else if cp < 0x800 then [0xC0 + cp / 64, 0x80 + cp % 64]
  else if cp < 0x10000 then
    [0xE0 + cp / 4096, 0x80 + cp / 64 % 64, 0x80 + cp % 64]
  else if cp < 0x110000 then
    [0xF0 + cp / 262144, 0x80 + cp / 4096 % 64, 0x80 + cp / 64 % 64,
     0x80 + cp % 64]
  else []

/-- Result of the first scan of `Tokenizer::read_string`: position of the
closing quote plus the escape flag, or one of the two scan failures. -/
inductive StrScan where
  | closed (scanPos : Nat) (esc : Bool)
  | escEOF (at_ : Nat)
  | eof
deriving DecidableEq, Repr

/-- First pass of `read_string`: starting at index `i` of the suffix `s`
(whose index 0 is the opening quote), find the closing quote and record
whether any backslash occurs. A backslash as last byte of the input is the
`escEOF` failure (`InvalidEscape`), a missing closing quote is `eof`
(`InvalidString`). -/
def strScan (s : List Nat) (i : Nat) (esc : Bool) : StrScan :=
  match h : s.get? i with
  | none => .eof
  | some b =>
    if b = 34 then .closed i esc
    else if b = 92 then
      if i + 1 ≥ s.length then .escEOF (i + 1)
      else strScan s (i + 2) true
    else strScan s (i + 1) esc
termination_by s.length - i
decreasing_by
  all_goals
    have : i < s.length := List.get?_eq_some.mp h |>.1
    omega

/-- One iteration of the escape-processing loop of `read_string` (the slow
path): at index `i` (with the closing quote at `scanPos`), either fail with
the code and relative offset the C++ reports, or produce the decoded bytes
to append and the next read position. -/
def unescStep (s : List Nat) (scanPos i : Nat) :
    Except (ErrorCode × Nat) (List Nat × Nat) :=
  if s.getD i 0 = 92 then
    if i + 1 ≥ scanPos then .error (.invalidEscape, i + 1)
    else
      if s.getD (i + 1) 0 = 34 then .ok ([34], i + 2)
      else if s.getD (i + 1) 0 = 92 then .ok ([92], i + 2)
      else if s.getD (i + 1) 0 = 47 then .ok ([47], i + 2)
      else if s.getD (i + 1) 0 = 98 then .ok ([8], i + 2)
      else if s.getD (i + 1) 0 = 102 then .ok ([12], i + 2)
      else if s.getD (i + 1) 0 = 110 then .ok ([10], i + 2)
      else if s.getD (i + 1) 0 = 114 then .ok ([13], i + 2)
      else if s.getD (i + 1) 0 = 117 then
        if i + 5 ≥ s.length then .error (.invalidEscape, i + 2)
        else
          match decodeHex4 s (i + 2) with
          | none => .error (.invalidEscape, i + 2)
          | some cp =>
            if 0xD800 ≤ cp ∧ cp ≤ 0xDBFF then
              if i + 11 ≥ s.length ∨ s.getD (i + 6) 0 ≠ 92 ∨
                  s.getD (i + 7) 0 ≠ 117 then
                .error (.invalidEscape, i + 6)
              else
                match decodeHex4 s (i + 8) with
                | none => .error (.invalidEscape, i + 8)
                | some lo =>
                  if lo < 0xDC00 ∨ 0xDFFF < lo then
                    .error (.invalidEscape, i + 8)
                  else
                    if encodeUtf8 (0x10000 + (cp - 0xD800) * 1024 +
                        (lo - 0xDC00)) = [] then
                      .error (.invalidEscape, i + 11)
                    else
                      .ok (encodeUtf8 (0x10000 + (cp - 0xD800) * 1024 +
                        (lo - 0xDC00)), i + 12)
            else
              if encodeUtf8 cp = [] then .error (.invalidEscape, i + 5)
              else .ok (encodeUtf8 cp, i + 6)
      else if s.getD (i + 1) 0 = 116 then .ok ([9], i + 2)
      else .error (.invalidEscape, i + 1)
  else .ok ([s.getD i 0], i + 1)

/-- The escape-processing loop, iterated on explicit fuel (each iteration
advances the read position by at least one, so `scanPos - i + 1` units
suffice; `unescLoop_eq` below establishes the loop's exact recurrence). -/
def unescGo (s : List Nat) (scanPos : Nat) :
    Nat → Nat → List Nat → Except (ErrorCode × Nat) (List Nat)
  | 0, _, acc => .ok acc
  | f + 1, i, acc =>
    if scanPos ≤ i then .ok acc
    else
      match unescStep s scanPos i with
      | .error e => .error e
      | .ok (bs, i2) => unescGo s scanPos f i2 (acc ++ bs)

/-- Escape-processing pass of `read_string` (the slow path): rewrite the
bytes of `s` between index `i` and the closing quote at `scanPos` into
`acc`. Errors carry the code and the relative offset the C++ reports. -/
def unescLoop (s : List Nat) (scanPos : Nat) (i : Nat) (acc : List Nat) :
    Except (ErrorCode × Nat) (List Nat) :=
  unescGo s scanPos (scanPos - i + 1) i acc

/-- Each loop iteration strictly advances the read position. -/
theorem unescStep_progress (s : List Nat) (scanPos i : Nat) (bs : List Nat)
    (i2 : Nat) (h : unescStep s scanPos i = .ok (bs, i2)) : i < i2 := by
  unfold unescStep at h
  by_cases c0 : s.getD i 0 = 92
  · simp only [if_pos c0] at h
    by_cases c1 : i + 1 ≥ scanPos
    · simp only [if_pos c1] at h; cases h
    · simp only [if_neg c1] at h
      by_cases e1 : s.getD (i + 1) 0 = 34
      · simp only [if_pos e1] at h; cases h; omega
      · simp only [if_neg e1] at h
        by_cases e2 : s.getD (i + 1) 0 = 92
        · simp only [if_pos e2] at h; cases h; omega
        · simp only [if_neg e2] at h
          by_cases e3 : s.getD (i + 1) 0 = 47
          · simp only [if_pos e3] at h; cases h; omega
          · simp only [if_neg e3] at h
            by_cases e4 : s.getD (i + 1) 0 = 98
            · simp only [if_pos e4] at h; cases h; omega
            · simp only [if_neg e4] at h
              by_cases e5 : s.getD (i + 1) 0 = 102
              · simp only [if_pos e5] at h; cases h; omega
              · simp only [if_neg e5] at h
                by_cases e6 : s.getD (i + 1) 0 = 110
                · simp only [if_pos e6] at h; cases h; omega
                · simp only [if_neg e6] at h
                  by_cases e7 : s.getD (i + 1) 0 = 114
                  · simp only [if_pos e7] at h; cases h; omega
                  · simp only [if_neg e7] at h
                    by_cases e8 : s.getD (i + 1) 0 = 117
                    · simp only [if_pos e8] at h
                      by_cases c2 : i + 5 ≥ s.length
                      · simp only [if_pos c2] at h; cases h
                      · simp only [if_neg c2] at h
                        cases hdec : decodeHex4 s (i + 2) with
                        | none => simp only [hdec] at h; cases h
                        | some cp =>
                          simp only [hdec] at h
                          by_cases c3 : 0xD800 ≤ cp ∧ cp ≤ 0xDBFF
                          · simp only [if_pos c3] at h
                            by_cases c4 : i + 11 ≥ s.length ∨
                                s.getD (i + 6) 0 ≠ 92 ∨ s.getD (i + 7) 0 ≠ 117
                            · simp only [if_pos c4] at h; cases h
                            · simp only [if_neg c4] at h
                              cases hdec2 : decodeHex4 s (i + 8) with
                              | none => simp only [hdec2] at h; cases h
                              | some lo =>
                                simp only [hdec2] at h
                                by_cases c5 : lo < 0xDC00 ∨ 0xDFFF < lo
                                · simp only [if_pos c5] at h; cases h
                                · simp only [if_neg c5] at h
                                  split at h
                                  · cases h
                                  · injection h with h1
                                    injection h1 with h2 h3
                                    omega
                          · simp only [if_neg c3] at h
                            split at h
                            · cases h
                            · injection h with h1
                              injection h1 with h2 h3
                              omega
                    · simp only [if_neg e8] at h
                      by_cases e9 : s.getD (i + 1) 0 = 116
                      · simp only [if_pos e9] at h; cases h; omega
                      · simp only [if_neg e9] at h; cases h
  · simp only [if_neg c0] at h; cases h; omega

/-- The loop result does not depend on the fuel once the fuel exceeds the
remaining distance to the closing quote. -/
theorem unescGo_irrel (s : List Nat) (scanPos : Nat) : ∀ f1 f2 i acc,
    scanPos - i < f1 → scanPos - i < f2 →
    unescGo s scanPos f1 i acc = unescGo s scanPos f2 i acc := by
  intro f1
  induction f1 with
  | zero => intro f2 i acc h1 _; omega
  | succ g1 ih =>
    intro f2 i acc h1 h2
    match f2, h2 with
    | g2 + 1, _ =>
      show unescGo s scanPos (g1 + 1) i acc = unescGo s scanPos (g2 + 1) i acc
      rw [unescGo, unescGo]
      by_cases hle : scanPos ≤ i
      · simp [hle]
      · simp only [if_neg hle]
        cases hstep : unescStep s scanPos i with
        | error e => rfl
        | ok pr =>
          obtain ⟨bs, i2⟩ := pr
          have hprog := unescStep_progress s scanPos i bs i2 hstep
          exact ih g2 i2 (acc ++ bs) (by omega) (by omega)

/-- The exact recurrence of the C++ escape-processing loop. -/
theorem unescLoop_eq (s : List Nat) (scanPos i : Nat) (acc : List Nat) :
    unescLoop s scanPos i acc =
      if scanPos ≤ i then .ok acc
      else
        match unescStep s scanPos i with
        | .error e => .error e
        | .ok (bs, i2) => unescLoop s scanPos i2 (acc ++ bs) := by
  unfold unescLoop
  rw [show scanPos - i + 1 = (scanPos - i) + 1 from rfl, unescGo]
  by_cases hle : scanPos ≤ i
  · simp [hle]
  · simp only [if_neg hle]
    cases hstep : unescStep s scanPos i with
    | error e => rfl
    | ok pr =>
      obtain ⟨bs, i2⟩ := pr
      have hprog := unescStep_progress s scanPos i bs i2 hstep
      exact unescGo_irrel s scanPos (scanPos - i) (scanPos - i2 + 1) i2
        (acc ++ bs) (by omega) (by omega)

/-- Fractional-part scan of `Tokenizer::read_number`: bytes consumed from
the suffix `r` following the integer part (`none` is `InvalidNumber`). -/
def fracScan (r : List Nat) : Option Nat :=
  if r.head? = some 46 then
    match (r.drop 1).head? with
    | some b => if isDigitB b then some (1 + countDigits (r.drop 1)) else none
    | none => none
  else some 0

/-- Exponent-part scan of `Tokenizer::read_number`: bytes consumed from the
suffix `r` following the fractional part (`none` is `InvalidNumber`). -/
def expScan (r : List Nat) : Option Nat :=
  if r.head? = some 101 ∨ r.head? = some 69 then
    let sgn := if (r.drop 1).head? = some 43 ∨ (r.drop 1).head? = some 45
      then 1 else 0
    match (r.drop (1 + sgn)).head? with
    | some b =>
      if isDigitB b then some (1 + sgn + countDigits (r.drop (1 + sgn)))
      else none
    | none => none
  else some 0

/-- `Tokenizer::read_number` on the suffix `s` (whose index 0 is the first
byte of the number): number of bytes consumed, or `none` for the
`InvalidNumber` error (always reported at the token start). -/
def readNumber (s : List Nat) : Option Nat :=
  let i1 := if s.head? = some 45 then 1 else 0
  match (s.drop i1).head? with
  | none => none
  | some b =>
    if ¬ isDigitB b then none
    else
      let i2 := i1 + (if b = 48 then 1 else countDigits (s.drop i1))
      match fracScan (s.drop i2) with
      | none => none
      | some fr =>
        match expScan (s.drop (i2 + fr)) with
        | none => none
        | some ex => some (i2 + fr + ex)

/-- `Tokenizer::read_keyword` on the suffix `s`: match the keyword bytes or
fail with `InvalidToken` at the token start `o`. On success the consumed
length is the keyword length. -/
def readKeyword (o : Nat) (s : List Nat) (kw : List Nat) (tt : TokenType) :
    Except Error (Token × Nat) :=
  if kw.isPrefixOf s then .ok (⟨tt, kw, o⟩, kw.length)
  else .error ⟨.invalidToken, o⟩

/-- `Tokenizer::read_string` on the suffix `s` (index 0 holds the opening
quote), with `o` the absolute offset of that quote. Returns the token (whose
text is bracketed by quote bytes on both the zero-copy fast path and the
escape-processing slow path) and the number of bytes consumed from `s`. -/
def readString (o : Nat) (s : List Nat) : Except Error (Token × Nat) :=
  match strScan s 1 false with
  | .eof => .error ⟨.invalidString, o⟩
  | .escEOF j => .error ⟨.invalidEscape, o + j⟩
  | .closed scanPos esc =>
    if esc then
      match unescLoop s scanPos 1 [] with
      | .error (c, j) => .error ⟨c, o + j⟩
      | .ok content => .ok (⟨.string, 34 :: content ++ [34], o⟩, scanPos + 1)
    else .ok (⟨.string, s.take (scanPos + 1), o⟩, scanPos + 1)

/-- `Tokenizer::next` on the remaining input `s`, where `o` is the absolute
offset of `s` in the original buffer. Returns the token and the total number
of bytes consumed from `s` (leading whitespace included). -/
def nextTok (o : Nat) (s : List Nat) : Except Error (Token × Nat) :=
  let w := wsCount s
  let s2 := s.drop w
  match s2.head? with
  | none => .ok (⟨.end_, [], o + w⟩, w)
  | some b =>
    if b = 123 then .ok (⟨.leftBrace, [123], o + w⟩, w + 1)
    else if b = 125 then .ok (⟨.rightBrace, [125], o + w⟩, w + 1)
    else if b = 91 then .ok (⟨.leftBracket, [91], o + w⟩, w + 1)
    else if b = 93 then .ok (⟨.rightBracket, [93], o + w⟩, w + 1)
    else if b = 58 then .ok (⟨.colon, [58], o + w⟩, w + 1)
    else if b = 44 then .ok (⟨.comma, [44], o + w⟩, w + 1)
    else if b = 34 then
      match readString (o + w) s2 with
      | .ok (tok, c) => .ok (tok, w + c)
      | .error e => .error e
    else if b = 116 then
      match readKeyword (o + w) s2 [116, 114, 117, 101] .true_ with
      | .ok (tok, c) => .ok (tok, w + c)
      | .error e => .error e
    else if b = 102 then
      match readKeyword (o + w) s2 [102, 97, 108, 115, 101] .false_ with
      | .ok (tok, c) => .ok (tok, w + c)
      | .error e => .error e
    else if b = 110 then
      match readKeyword (o + w) s2 [110, 117, 108, 108] .null_ with
      | .ok (tok, c) => .ok (tok, w + c)
      | .error e => .error e
    else if b = 45 ∨ isDigitB b then
      match readNumber s2 with
      | some c => .ok (⟨.number, s2.take c, o + w⟩, w + c)
      | none => .error ⟨.invalidNumber, o + w⟩
    else .error ⟨.invalidToken, o + w⟩

/-- The tree of `include/json/ast.hpp`: a `Node` is a tagged union over the
six JSON value kinds. Arena indirection is flattened: the `Node**` payload
of an array becomes the list of child values, the `ObjectPair*` payload of
an object becomes the list of key/value pairs (keys as byte lists), and a
string's `StringView` becomes the byte list it denotes. The number payload
`double` is the abstract parameter `α`. -/
inductive Node (α : Type) where
  | null
  | bool (b : Bool)
  | num (x : α)
  | str (s : List Nat)
  | arr (elems : List (Node α))
  | obj (mems : List (List Nat × Node α))

mutual

/-- Structural (value) equality test on trees. -/
def nodeBeq [DecidableEq α] : Node α → Node α → Bool
  | .null, .null => true
  | .bool a, .bool b => a == b
  | .num a, .num b => decide (a = b)
  | .str a, .str b => a == b
  | .arr a, .arr b => elsBeq a b
  | .obj a, .obj b => memsBeq a b
  | _, _ => false

/-- Elementwise equality test on element lists. -/
def elsBeq [DecidableEq α] : List (Node α) → List (Node α) → Bool
  | [], [] => true
  | a :: as, b :: bs => nodeBeq a b && elsBeq as bs
  | _, _ => false

/-- Pairwise equality test on member lists. -/
def memsBeq [DecidableEq α] :
    List (List Nat × Node α) → List (List Nat × Node α) → Bool
  | [], [] => true
  | (k1, v1) :: as, (k2, v2) :: bs => k1 == k2 && nodeBeq v1 v2 && memsBeq as bs
  | _, _ => false

end

mutual

theorem nodeBeq_iff [DecidableEq α] :
    ∀ a b : Node α, nodeBeq a b = true ↔ a = b
  | .null, b => by cases b <;> simp [nodeBeq]
  | .bool x, b => by cases b <;> simp [nodeBeq]
  | .num x, b => by cases b <;> simp [nodeBeq]
  | .str s, b => by cases b <;> simp [nodeBeq]
  | .arr es, b => by
    cases b <;> simp [nodeBeq]
    exact elsBeq_iff es _
  | .obj ms, b => by
    cases b <;> simp [nodeBeq]
    exact memsBeq_iff ms _

theorem elsBeq_iff [DecidableEq α] :
    ∀ a b : List (Node α), elsBeq a b = true ↔ a = b
  | [], b => by cases b <;> simp [elsBeq]
  | x :: xs, b => by
    cases b with
    | nil => simp [elsBeq]
    | cons y ys =>
      simp only [elsBeq, Bool.and_eq_true, List.cons.injEq]
      exact and_congr (nodeBeq_iff x y) (elsBeq_iff xs ys)

theorem memsBeq_iff [DecidableEq α] :
    ∀ a b : List (List Nat × Node α), memsBeq a b = true ↔ a = b
  | [], b => by cases b <;> simp [memsBeq]
  | (k, v) :: xs, b => by
    cases b with
    | nil => simp [memsBeq]
    | cons y ys =>
      obtain ⟨k2, v2⟩ := y
      simp only [memsBeq, Bool.and_eq_true, List.cons.injEq, Prod.mk.injEq,
        beq_iff_eq, and_assoc]
      exact and_congr Iff.rfl
        (and_congr (nodeBeq_iff v v2) (memsBeq_iff xs ys))

end

instance [DecidableEq α] : DecidableEq (Node α) :=
  fun a b => decidable_of_iff _ (nodeBeq_iff a b)

instance [DecidableEq β] [DecidableEq γ] : DecidableEq (Except γ β) :=
  fun a b =>
    match a, b with
    | .ok x, .ok y => decidable_of_iff (x = y) (by simp)
    | .error x, .error y => decidable_of_iff (x = y) (by simp)
    | .ok _, .error _ => .isFalse (by simp)
    | .error _, .ok _ => .isFalse (by simp)

/-- Quote stripping performed by `Parser::parse_value` and
`Parser::parse_object` on a string token's text
(`text.substr(1, text.size() - 2)` guarded by `text.size() >= 2`). -/
def stripQuotes (t : List Nat) : List Nat :=
  if t.length ≥ 2 then (t.drop 1).dropLast else t

/-- Result of a parser routine: the parsed value with the remaining input,
the absolute offset reached and the final `depth_`, or an error with the
final `depth_`, or fuel exhaustion (which the fuel bound proved below rules
out for the top-level entry point). -/
inductive PRes (α : Type) where
  | ok (v : α) (s : List Nat) (o : Nat) (d : Nat)
  | err (e : Error) (d : Nat)
  | out

/-- `Parser::expect`: peek, fail with `UnexpectedToken` at the token's
offset on a type mismatch, otherwise consume. -/
def expectTok (tt : TokenType) (o : Nat) (s : List Nat) :
    Except Error (Token × List Nat × Nat) :=
  match nextTok o s with
  | .error e => .error e
  | .ok (tok, c) =>
    if tok.ttype = tt then .ok (tok, s.drop c, o + c)
    else .error ⟨.unexpectedToken, tok.offset⟩

/-- The tokenizer position `tok_.position()` observed by
`Parser::parse_array` / `parse_object` for the `TooDeep` error offset: the
lookahead token has always been lexed at that point, so the position is the
end of the current token. -/
def tokEndPos (o : Nat) (s : List Nat) : Nat :=
  match nextTok o s with
  | .ok (_, c) => o + c
  | .error _ => o

/-- Maximum recursion depth of `Parser` (`Parser::MaxDepth`). -/
def MaxDepth : Nat := 256

mutual

/-- `Parser::parse_value`, fuelled. `o`/`s` are the current offset and the
remaining input, `d` is the current `depth_`. -/
def parseValueF (numP : List Nat → Option α) (f o : Nat) (s : List Nat)
    (d : Nat) : PRes (Node α) :=
  match f with
  | 0 => .out
  | f1 + 1 =>
    match nextTok o s with
    | .error e => .err e d
    | .ok (tok, c) =>
      match tok.ttype with
      | .null_ => .ok .null (s.drop c) (o + c) d
      | .true_ => .ok (.bool true) (s.drop c) (o + c) d
      | .false_ => .ok (.bool false) (s.drop c) (o + c) d
      | .number =>
        match numP tok.text with
        | some x => .ok (.num x) (s.drop c) (o + c) d
        | none => .err ⟨.invalidNumber, tok.offset⟩ d
      | .string => .ok (.str (stripQuotes tok.text)) (s.drop c) (o + c) d
      | .leftBracket => parseArrayF numP f1 o s d
      | .leftBrace => parseObjectF numP f1 o s d
      | _ => .err ⟨.expectedValue, tok.offset⟩ d
termination_by (f, 2)

/-- `Parser::parse_array`: bump `depth_` (checking the bound), consume `[`,
handle the empty case, otherwise run the element loop. The `TooDeep` path
and every error path return without restoring `depth_`, exactly as the
source does. -/
def parseArrayF (numP : List Nat → Option α) (f o : Nat) (s : List Nat)
    (d : Nat) : PRes (Node α) :=
  if d + 1 > MaxDepth then .err ⟨.tooDeep, tokEndPos o s⟩ (d + 1)
  else
    match expectTok .leftBracket o s with
    | .error e => .err e (d + 1)
    | .ok (_, s1, o1) =>
      match nextTok o1 s1 with
      | .error e => .err e (d + 1)
      | .ok (tok, c) =>
        if tok.ttype = .rightBracket then
          .ok (.arr []) (s1.drop c) (o1 + c) d
        else parseArrElemsF numP f o1 s1 (d + 1) []
termination_by (f, 1)

/-- The element loop of `Parser::parse_array` (`while (true) { ... }`),
with `acc` the elements collected so far. On the closing bracket the loop
breaks and `parse_array` restores `depth_` and builds the node. -/
def parseArrElemsF (numP : List Nat → Option α) (f o : Nat) (s : List Nat)
    (d : Nat) (acc : List (Node α)) : PRes (Node α) :=
  match f with
  | 0 => .out
  | f1 + 1 =>
    match parseValueF numP f1 o s d with
    | .out => .out
    | .err e d2 => .err e d2
    | .ok v s2 o2 d2 =>
      match nextTok o2 s2 with
      | .error e => .err e d2
      | .ok (tok, c) =>
        if tok.ttype = .rightBracket then
          .ok (.arr (acc ++ [v])) (s2.drop c) (o2 + c) (d2 - 1)
        else if tok.ttype = .comma then
          parseArrElemsF numP f1 (o2 + c) (s2.drop c) d2 (acc ++ [v])
        else .err ⟨.expectedComma, tok.offset⟩ d2
termination_by (f, 0)

/-- `Parser::parse_object`: bump `depth_` (checking the bound), consume `{`,
handle the empty case, otherwise run the member loop. -/
def parseObjectF (numP : List Nat → Option α) (f o : Nat) (s : List Nat)
    (d : Nat) : PRes (Node α) :=
  if d + 1 > MaxDepth then .err ⟨.tooDeep, tokEndPos o s⟩ (d + 1)
  else
    match expectTok .leftBrace o s with
    | .error e => .err e (d + 1)
    | .ok (_, s1, o1) =>
      match nextTok o1 s1 with
      | .error e => .err e (d + 1)
      | .ok (tok, c) =>
        if tok.ttype = .rightBrace then
          .ok (.obj []) (s1.drop c) (o1 + c) d
        else parseObjMembersF numP f o1 s1 (d + 1) []
termination_by (f, 1)

/-- The member loop of `Parser::parse_object`: string key (via `expect`, so
a missing key or colon reports `UnexpectedToken`), colon, value, then comma
or closing brace. -/
def parseObjMembersF (numP : List Nat → Option α) (f o : Nat)
    (s : List Nat) (d : Nat) (acc : List (List Nat × Node α)) :
    PRes (Node α) :=
  match f with
  | 0 => .out
  | f1 + 1 =>
    match expectTok .string o s with
    | .error e => .err e d
    | .ok (key, s1, o1) =>
      match expectTok .colon o1 s1 with
      | .error e => .err e d
      | .ok (_, s2, o2) =>
        match parseValueF numP f1 o2 s2 d with
        | .out => .out
        | .err e d2 => .err e d2
        | .ok v s3 o3 d2 =>
          match nextTok o3 s3 with
          | .error e => .err e d2
          | .ok (tok, c) =>
            if tok.ttype = .rightBrace then
              .ok (.obj (acc ++ [(stripQuotes key.text, v)])) (s3.drop c)
                (o3 + c) (d2 - 1)
            else if tok.ttype = .comma then
              parseObjMembersF numP f1 (o3 + c) (s3.drop c) d2
                (acc ++ [(stripQuotes key.text, v)])
            else .err ⟨.expectedComma, tok.offset⟩ d2
termination_by (f, 0)

end

/-- `Parser::parse`: parse one value, then require the next token to be
end-of-input (trailing content is `UnexpectedToken`). The fuel
`2 * s.length + 2` is shown sufficient below. -/
def parseRaw (numP : List Nat → Option α) (s : List Nat) : PRes (Node α) :=
  match parseValueF numP (2 * s.length + 2) 0 s 0 with
  | .out => .out
  | .err e d => .err e d
  | .ok v s2 o2 d =>
    match nextTok o2 s2 with
    | .error e => .err e d
    | .ok (tok, _) =>
      if tok.ttype = .end_ then .ok v s2 o2 d
      else .err ⟨.unexpectedToken, tok.offset⟩ d

/-- `json::parse` of `src/api.cpp`: the caller-facing result. The `.out`
branch is unreachable (fuel sufficiency is proved below); it is mapped to a
dummy error value. -/
def parse (numP : List Nat → Option α) (s : List Nat) :
    Except Error (Node α) :=
  match parseRaw numP s with
  | .ok v _ _ _ => .ok v
  | .err e _ => .error e
  | .out => .error ⟨.none_, 0⟩

/-- Value of the signed `char` a byte is read back as on the build target
(`char` is signed there), used by `Writer::write_string`'s `c >= 0x20`
comparison. -/
def sbyte (b : Nat) : Int := if b < 128 then (b : Int) else (b : Int) - 256

/-- Lowercase hex digit byte, as produced by `std::format("\\u{:04x}", .)`. -/
def hexDigitL (n : Nat) : Nat := if n < 10 then 48 + n else 87 + n

/-- Bytes `Writer::write_string` emits for one byte of string content: the
seven single-character escapes, then the signed comparison `c >= 0x20`
deciding between a verbatim byte and a `\u00XX` escape of
`static_cast<unsigned char>(c)`. -/
def escByte (b : Nat) : List Nat :=
  if b = 34 then [92, 34]
  else if b = 92 then [92, 92]
  else if b = 8 then [92, 98]
  else if b = 12 then [92, 102]
  else if b = 10 then [92, 110]
  else if b = 13 then [92, 114]
  else if b = 9 then [92, 116]
  else if sbyte b ≥ 32 then [b]
  else [92, 117, 48, 48, hexDigitL (b % 256 / 16), hexDigitL (b % 256 % 16)]

/-- `Writer::write_string`: quote, escaped content, quote. -/
def writeString (s : List Nat) : List Nat :=
  34 :: s.flatMap escByte ++ [34]

/-- `Writer::write_indent`: `indent_ * indent_size_` spaces. -/
def indentBytes (isize ind : Nat) : List Nat := List.replicate (ind * isize) 32

mutual

/-- `Writer::write_node` with number formatter `numF`, pretty flag, indent
size and current `indent_`. -/
def writeNodeF (numF : α → List Nat) (pretty : Bool) (isize ind : Nat) :
    Node α → List Nat
  | .null => [110, 117, 108, 108]
  | .bool true => [116, 114, 117, 101]
  | .bool false => [102, 97, 108, 115, 101]
  | .num x => numF x
  | .str s => writeString s
  | .arr es =>
    [91] ++ (if pretty && !es.isEmpty then [10] else []) ++
      writeArrElemsF numF pretty isize (ind + 1) es ++
      (if pretty && !es.isEmpty then indentBytes isize ind else []) ++ [93]
  | .obj ms =>
    [123] ++ (if pretty && !ms.isEmpty then [10] else []) ++
      writeObjMembersF numF pretty isize (ind + 1) ms ++
      (if pretty && !ms.isEmpty then indentBytes isize ind else []) ++ [125]

/-- The element loop of the `Array` case of `write_node`: per element an
optional indent, the element, a comma unless last, an optional newline. -/
def writeArrElemsF (numF : α → List Nat) (pretty : Bool) (isize ind : Nat) :
    List (Node α) → List Nat
  | [] => []
  | [e] =>
    (if pretty then indentBytes isize ind else []) ++
      writeNodeF numF pretty isize ind e ++ (if pretty then [10] else [])
  | e :: e2 :: rest =>
    (if pretty then indentBytes isize ind else []) ++
      writeNodeF numF pretty isize ind e ++ [44] ++
      (if pretty then [10] else []) ++
      writeArrElemsF numF pretty isize ind (e2 :: rest)

/-- The member loop of the `Object` case of `write_node`: per pair an
optional indent, the escaped key, `": "` when pretty and `":"` when
compact, the value, a comma unless last, an optional newline. -/
def writeObjMembersF (numF : α → List Nat) (pretty : Bool)
    (isize ind : Nat) : List (List Nat × Node α) → List Nat
  | [] => []
  | [(k, v)] =>
    (if pretty then indentBytes isize ind else []) ++ writeString k ++
      (if pretty then [58, 32] else [58]) ++
      writeNodeF numF pretty isize ind v ++ (if pretty then [10] else [])
  | (k, v) :: m2 :: rest =>
    (if pretty then indentBytes isize ind else []) ++ writeString k ++
      (if pretty then [58, 32] else [58]) ++
      writeNodeF numF pretty isize ind v ++ [44] ++
      (if pretty then [10] else []) ++
      writeObjMembersF numF pretty isize ind (m2 :: rest)

end

/-- `json::write` of `src/api.cpp`: serialize from indent 0 with the
default indent size 2 of `Writer::Writer`. -/
def write (numF : α → List Nat) (pretty : Bool) (t : Node α) : List Nat :=
  writeNodeF numF pretty 2 0 t

/-- `ObjectView::find`: forward linear scan returning the first pair whose
key is byte-identical, or null (`none`). -/
def objFind (ms : List (List Nat × Node α)) (key : List Nat) :
    Option (Node α) :=
  match ms with
  | [] => none
  | (k, v) :: rest => if k = key then some v else objFind rest key

/-- Access error codes of `AccessError::Code` in `ast.hpp`. -/
inductive AccessErr where
  | typeMismatch
  | outOfBounds
  | keyNotFound
deriving DecidableEq, Repr

/-- `Node::operator[](size_t)`: checked array indexing. -/
def nodeGetIdx (t : Node α) (i : Nat) : Except AccessErr (Node α) :=
  match t with
  | .arr es =>
    if h : i < es.length then .ok (es.get ⟨i, h⟩) else .error .outOfBounds
  | _ => .error .typeMismatch

/-- `Node::operator[](std::string_view)`: keyed object lookup through
`ObjectView::find`, `KeyNotFound` when the scan returns null. -/
def nodeGetKey (t : Node α) (key : List Nat) : Except AccessErr (Node α) :=
  match t with
  | .obj ms =>
    match objFind ms key with
    | some v => .ok v
    | none => .error .keyNotFound
  | _ => .error .typeMismatch

/-- `ArrayView::operator[]`: unchecked-by-error-value indexing that returns
the element pointer in bounds and the null pointer (`none`) otherwise. -/
def arrayViewGet (elems : List (Node α)) (i : Nat) : Option (Node α) :=
  if h : i < elems.length then some (elems.get ⟨i, h⟩) else none

/-- `ArrayBuilder::add(Node*)`: a null pointer (`none`) is skipped, a
non-null node is appended to `elements_`. -/
def arrayBuilderAdd (st : List (Node α)) (n : Option (Node α)) :
    List (Node α) :=
  match n with
  | some v => st ++ [v]
  | none => st

/-- `ArrayBuilder::build()`: copy the accumulated elements into one
contiguous array node. -/
def arrayBuilderBuild (st : List (Node α)) : Node α := .arr st

/-- `ObjectBuilder::add(std::string_view, Node*)`: a null pointer (`none`)
is skipped, otherwise `add_pair` appends the pair. -/
def objectBuilderAdd (st : List (List Nat × Node α)) (key : List Nat)
    (n : Option (Node α)) : List (List Nat × Node α) :=
  match n with
  | some v => st ++ [(key, v)]
  | none => st

/-- `ObjectBuilder::build()`: copy the accumulated pairs into one
contiguous object node. -/
def objectBuilderBuild (st : List (List Nat × Node α)) : Node α := .obj st

mutual

/-- Structural container depth of a tree: number of nested array/object
levels (a leaf has depth 0, `[]` has depth 1). -/
def ndepth : Node α → Nat
  | .null => 0
  | .bool _ => 0
  | .num _ => 0
  | .str _ => 0
  | .arr es => 1 + elDepth es
  | .obj ms => 1 + memDepth ms

/-- Maximum depth of a list of elements. -/
def elDepth : List (Node α) → Nat
  | [] => 0
  | e :: r => max (ndepth e) (elDepth r)

/-- Maximum depth of a list of members. -/
def memDepth : List (List Nat × Node α) → Nat
  | [] => 0
  | (_, v) :: r => max (ndepth v) (memDepth r)

end

mutual

/-- Parser fuel needed to reparse a tree (one unit per descent and one per
loop iteration). -/
def nfuel : Node α → Nat
  | .null => 1
  | .bool _ => 1
  | .num _ => 1
  | .str _ => 1
  | .arr es => 1 + elFuel es
  | .obj ms => 1 + memFuel ms

/-- Fuel needed by the array element loop. -/
def elFuel : List (Node α) → Nat
  | [] => 0
  | e :: r => 1 + nfuel e + elFuel r

/-- Fuel needed by the object member loop. -/
def memFuel : List (List Nat × Node α) → Nat
  | [] => 0
  | (_, v) :: r => 1 + nfuel v + memFuel r

end

mutual

/-- Every string value and object key of the tree consists of bytes below
0x80 (7-bit ASCII). -/
def asciiNd : Node α → Bool
  | .null => true
  | .bool _ => true
  | .num _ => true
  | .str s => s.all (· < 128)
  | .arr es => elAscii es
  | .obj ms => memAscii ms

/-- ASCII check for a list of elements. -/
def elAscii : List (Node α) → Bool
  | [] => true
  | e :: r => asciiNd e && elAscii r

/-- ASCII check for a list of members. -/
def memAscii : List (List Nat × Node α) → Bool
  | [] => true
  | (k, v) :: r => k.all (· < 128) && asciiNd v && memAscii r

end

mutual

/-- No string value or object key of the tree contains a space byte. -/
def noSpNd : Node α → Bool
  | .null => true
  | .bool _ => true
  | .num _ => true
  | .str s => s.all (· ≠ 32)
  | .arr es => elNoSp es
  | .obj ms => memNoSp ms

/-- Space check for a list of elements. -/
def elNoSp : List (Node α) → Bool
  | [] => true
  | e :: r => noSpNd e && elNoSp r

/-- Space check for a list of members. -/
def memNoSp : List (List Nat × Node α) → Bool
  | [] => true
  | (k, v) :: r => k.all (· ≠ 32) && noSpNd v && memNoSp r

end

/-- The tree of `n` directly nested arrays: `nestArr 1` is `[]`,
`nestArr (n+1)` is `[nestArr n]`. -/
def nestArr (α : Type) : Nat → Node α
  | 0 => .arr []
  | n + 1 => .arr [nestArr α n]

/-- A byte the writer passes through verbatim: printable ASCII other than
the quote and the backslash. -/
def plainB (b : Nat) : Bool := 32 ≤ b && b < 128 && b ≠ 34 && b ≠ 92

/-- The escaping of one string byte as the specification describes it,
amended for the signed-`char` comparison: the seven named escapes, a
verbatim byte for printable ASCII, and a `\u00XX` escape both for bytes
below 0x20 and for bytes in 0x80–0xFF. -/
def escSpec (b : Nat) : List Nat :=
  if b = 34 then [92, 34]
  else if b = 92 then [92, 92]
  else if b = 8 then [92, 98]
  else if b = 12 then [92, 102]
  else if b = 10 then [92, 110]
  else if b = 13 then [92, 114]
  else if b = 9 then [92, 116]
  else if 32 ≤ b ∧ b < 128 then [b]
  else [92, 117, 48, 48, hexDigitL (b / 16), hexDigitL (b % 16)]

/-- A continuation on which a complete number literal terminates: empty, or
starting with one of the bytes the writer can place after a number
(comma, closing bracket, closing brace, newline). -/
def numTermB : List Nat → Bool
  | [] => true
  | b :: _ => b = 44 || b = 93 || b = 125 || b = 10

/-- First byte of a number literal as the tokenizer dispatch requires:
a minus sign or a digit. -/
def numHeadOk (s : List Nat) : Bool :=
  match s.head? with
  | some b => b = 45 || isDigitB b
  | none => false

/-- Concrete instance of the abstract number model used by witnesses: the
single literal `0`. `unitNumP` accepts exactly the byte `0` (as
`std::from_chars` does) and `unitNumF` formats to it. -/
def unitNumP : List Nat → Option Unit :=
  fun s => if s = [48] then some () else none

/-- Formatter of the concrete witness number model. -/
def unitNumF : Unit → List Nat := fun _ => [48]

/-- Uppercase hex digit byte (used to spell `\uXXXX` escapes in inputs). -/
def hexDigitU (n : Nat) : Nat := if n < 10 then 48 + n else 55 + n

/-- The four uppercase hex digit bytes of a 16-bit value, most significant
first (the `XXXX` of a `\uXXXX` escape). -/
def hex4 (n : Nat) : List Nat :=
  [hexDigitU (n / 4096 % 16), hexDigitU (n / 256 % 16),
   hexDigitU (n / 16 % 16), hexDigitU (n % 16)]

/-- Input spelling of a `\uXXXX` escape for codepoint `n`. -/
def uEsc (n : Nat) : List Nat := 92 :: 117 :: hex4 n

/-! ## Theorems -/

/-- C9: `ArrayView::operator[]` is total: it agrees with optional indexing
into the element list, returns the `i`-th element precisely in bounds, the
null pointer (`none`) out of bounds, and — unlike `Node::operator[]`, which
produces `OutOfBounds` — no error value exists at this layer. -/
theorem c9_arrayview_total (α : Type) (elems : List (Node α)) (i : Nat) :
    arrayViewGet elems i = elems.get? i ∧
    (∀ h : i < elems.length, arrayViewGet elems i = some (elems.get ⟨i, h⟩)) ∧
    (elems.length ≤ i → arrayViewGet elems i = none) ∧
    (nodeGetIdx (Node.arr elems) i =
      match elems.get? i with
      | some v => .ok v
      | none => .error .outOfBounds) := by
  unfold arrayViewGet nodeGetIdx
  by_cases h : i < elems.length
  · refine ⟨?_, fun _ => by simp [dif_pos h], fun hle => absurd h (not_lt.mpr hle), ?_⟩
    · simp [dif_pos h, List.get?_eq_get h]
    · simp [dif_pos h, List.getElem?_eq_getElem h]
  · have hle : elems.length ≤ i := not_lt.mp h
    have hn : elems.get? i = none := List.get?_eq_none.mpr hle
    refine ⟨?_, fun h2 => absurd h2 h, fun _ => by simp [dif_neg h], ?_⟩
    · simp only [dif_neg h, hn]
    · simp [dif_neg h, List.getElem?_eq_none hle]

/-- C9 witness: the bounded-index conjunct applied at a concrete view. -/
theorem c9_arrayview_total_witness :
    arrayViewGet [Node.null, (Node.bool true : Node Unit)] 1 =
      some ((Node.bool true : Node Unit)) ∧
    arrayViewGet [Node.null, (Node.bool true : Node Unit)] 5 = none :=
  ⟨(c9_arrayview_total Unit [Node.null, Node.bool true] 1).2.1 (by decide),
   (c9_arrayview_total Unit [Node.null, Node.bool true] 5).2.2.1 (by decide)⟩

/-- C10: adding a null `Node*` to either builder is a silent no-op: the
accumulated state is unchanged, `size()` is unchanged, and the node built
from it is the same array/object with no entry for the null. -/
theorem c10_builder_null_skip (α : Type) (st : List (Node α))
    (stO : List (List Nat × Node α)) (key : List Nat) :
    arrayBuilderAdd st none = st ∧
    (arrayBuilderAdd st none).length = st.length ∧
    arrayBuilderBuild (arrayBuilderAdd st none) = Node.arr st ∧
    objectBuilderAdd stO key none = stO ∧
    (objectBuilderAdd stO key none).length = stO.length ∧
    objectBuilderBuild (objectBuilderAdd stO key none) = Node.obj stO := by
  exact ⟨rfl, rfl, rfl, rfl, rfl, rfl⟩

/-- Forward-scan lookup is first-match lookup. -/
theorem objFind_eq_head_match (α : Type) (ms : List (List Nat × Node α))
    (key : List Nat) :
    objFind ms key =
      (ms.find? fun m => decide (m.1 = key)).map Prod.snd := by
  induction ms with
  | nil => rfl
  | cons m rest ih =>
    obtain ⟨k, v⟩ := m
    by_cases h : k = key
    · simp [objFind, List.find?, h]
    · simp [objFind, List.find?, h, ih]

/-- C4 (amended): keyed lookup on an object with duplicate keys returns the
value of the FIRST matching pair found by forward linear scan — not the
last — both at the `ObjectView::find` layer and through
`Node::operator[]`; every duplicate pair remains present in insertion
order, and serialization emits them all (shown on a two-duplicate object,
whose compact output contains both pairs and parses back to the same
duplicate-preserving pair list). -/
theorem c4_dup_first_match :
    (∀ (α : Type) (ms : List (List Nat × Node α)) (key : List Nat),
      objFind ms key = (ms.find? fun m => decide (m.1 = key)).map Prod.snd) ∧
    (∀ (α : Type) (key : List Nat) (v1 : Node α)
      (rest : List (List Nat × Node α)),
      objFind ((key, v1) :: rest) key = some v1) ∧
    (∀ (α : Type) (ms : List (List Nat × Node α)) (key : List Nat),
      nodeGetKey (Node.obj ms) key =
        match (ms.find? fun m => decide (m.1 = key)).map Prod.snd with
        | some v => .ok v
        | none => .error .keyNotFound) ∧
    write unitNumF false
        (.obj [([97], .bool true), ([97], .bool false)]) =
      [123, 34, 97, 34, 58, 116, 114, 117, 101, 44,
       34, 97, 34, 58, 102, 97, 108, 115, 101, 125] ∧
    parse unitNumP
        [123, 34, 97, 34, 58, 116, 114, 117, 101, 44,
         34, 97, 34, 58, 102, 97, 108, 115, 101, 125] =
      .ok (.obj [([97], .bool true), ([97], .bool false)]) := by
  refine ⟨objFind_eq_head_match, ?_, ?_, by decide, ?_⟩
  · intro α key v1 rest
    simp [objFind]
  · intro α ms key
    simp only [nodeGetKey]
    rw [objFind_eq_head_match]
  · simp +decide [parse, parseRaw, parseValueF, parseObjectF,
      parseObjMembersF, expectTok, nextTok, readString, strScan, readKeyword,
      wsCount, isWsB, stripQuotes, unitNumP, MaxDepth, tokEndPos]

/-- C4 counterexample: on `{"a": true, "a": false}` the keyed lookup
returns the FIRST pair's value, not the value of the last matching pair as
the claim states. -/
theorem c4_counterexample :
    objFind [([97], Node.bool true), ([97], (Node.bool false : Node Unit))]
      [97] = some (Node.bool true) ∧
    some (Node.bool true) ≠ some ((Node.bool false : Node Unit)) := by
  exact ⟨by decide, by simp⟩

/-- C5 (amended): parsing the two-byte input `01` fails, but with
`UnexpectedToken` at offset 1, not `InvalidNumber`: the tokenizer lexes a
complete number token `0` (the leading-zero rule stops after the zero),
`from_chars` accepts it (hypothesis `h`), and the end-of-input check of
`Parser::parse` then rejects the second number token `1`. -/
theorem c5_leading_zero (α : Type) (numP : List Nat → Option α) (x : α)
    (h : numP [48] = some x) :
    parse numP [48, 49] = .error ⟨.unexpectedToken, 1⟩ := by
  simp +decide [parse, parseRaw, parseValueF, nextTok, readNumber, wsCount,
    isWsB, isDigitB, countDigits, fracScan, expScan, stripQuotes, h]

/-- C5 witness: the amended theorem at the concrete witness number model. -/
theorem c5_leading_zero_witness :
    unitNumP [48] = some () ∧
    parse unitNumP [48, 49] = .error ⟨.unexpectedToken, 1⟩ :=
  ⟨by decide, c5_leading_zero Unit unitNumP () (by decide)⟩

/-- C5 counterexample: the error code for `01` is `UnexpectedToken`, which
is not the `InvalidNumber` the claim states. -/
theorem c5_counterexample :
    parse unitNumP [48, 49] = .error ⟨.unexpectedToken, 1⟩ ∧
    ErrorCode.unexpectedToken ≠ ErrorCode.invalidNumber := by
  constructor
  · simp +decide [parse, parseRaw, parseValueF, nextTok, readNumber, wsCount,
      isWsB, isDigitB, countDigits, fracScan, expScan, stripQuotes, unitNumP]
  · decide

/-- The source's per-byte escaping agrees with the amended description for
every byte value: the seven named escapes, verbatim printable ASCII, and a
`\u00XX` escape for bytes below 0x20 AND for bytes 0x80–0xFF (the signed
`char` comparison sends high bytes to the escape branch). -/
theorem escByte_eq_escSpec (b : Nat) (hb : b < 256) :
    escByte b = escSpec b := by
  have hm : b % 256 = b := Nat.mod_eq_of_lt hb
  unfold escByte escSpec sbyte
  rw [hm]
  split_ifs with h1 h2 h3 h4 h5 h6 h7 h8 h9 <;> first | rfl | omega

/-- C7 (amended): `Writer::write_string` escapes the special characters and
every byte below 0x20 as the spec says, and passes bytes 0x20–0x7F (other
than quote and backslash) through verbatim — but bytes 0x80–0xFF do NOT
pass through: because `char` is signed on the build target, they fail the
`c >= 0x20` comparison and are emitted as `\u00XX` of the byte value. -/
theorem c7_escape_amended :
    (∀ b : Nat, b < 256 → escByte b = escSpec b) ∧
    (∀ s : List Nat, (∀ b ∈ s, b < 256) →
      writeString s = 34 :: s.flatMap escSpec ++ [34]) := by
  refine ⟨escByte_eq_escSpec, fun s hs => ?_⟩
  unfold writeString
  congr 2
  induction s with
  | nil => rfl
  | cons b rest ih =>
    simp only [List.flatMap_cons]
    rw [escByte_eq_escSpec b (hs b (by simp)),
      ih (fun x hx => hs x (by simp [hx]))]

/-- C7 witness: the amended characterization applied at byte 163 and at the
one-byte string `[163]`. -/
theorem c7_escape_amended_witness :
    escByte 163 = escSpec 163 ∧
    writeString [163] = 34 :: [163].flatMap escSpec ++ [34] :=
  ⟨c7_escape_amended.1 163 (by decide), c7_escape_amended.2 [163] (by decide)⟩

/-- C7 counterexample: the byte 0xC3 does not pass through verbatim — the
writer emits `Ã` for it. -/
theorem c7_counterexample :
    writeString [195] = [34, 92, 117, 48, 48, 99, 51, 34] ∧
    writeString [195] ≠ [34, 195, 34] := by decide

/-- A hex digit byte is never whitespace. -/
theorem hexDigitL_no_ws (n : Nat) : isWsB (hexDigitL n) = false := by
  unfold hexDigitL
  split_ifs <;> simp [isWsB] <;> omega

/-- Escaping a non-space byte yields no whitespace byte: tab, CR and LF
become two-character escapes, high and control bytes become `\u00XX`, and
the remaining verbatim bytes are printable non-space. -/
theorem escByte_no_ws (b : Nat) (hb : b ≠ 32) :
    ∀ c ∈ escByte b, isWsB c = false := by
  unfold escByte
  split_ifs with h1 h2 h3 h4 h5 h6 h7 h8 <;> intro c hc <;> simp at hc
  · simp [isWsB]; omega
  · simp [isWsB]; omega
  · simp [isWsB]; omega
  · simp [isWsB]; omega
  · simp [isWsB]; omega
  · simp [isWsB]; omega
  · simp [isWsB]; omega
  · subst hc
    unfold sbyte at h8
    simp [isWsB]
    split_ifs at h8 <;> omega
  · rcases hc with hc | hc | hc | hc | hc <;> subst hc <;>
      first | rfl | exact hexDigitL_no_ws _

/-- A writer-rendered string with no space byte in its content contains no
whitespace byte. -/
theorem writeString_no_ws (s : List Nat) (h : ∀ b ∈ s, b ≠ 32) :
    ∀ c ∈ writeString s, isWsB c = false := by
  intro c hc
  unfold writeString at hc
  rcases List.mem_cons.mp hc with h1 | h1
  · subst h1; decide
  · rcases List.mem_append.mp h1 with h2 | h2
    · obtain ⟨b, hb, hcb⟩ := List.mem_flatMap.mp h2
      exact escByte_no_ws b (h b hb) c hcb
    · simp at h2; subst h2; decide

/-- Inversion for the space check on a nonempty element list. -/
theorem elNoSp_cons {α : Type} {e : Node α} {r : List (Node α)}
    (h : elNoSp (e :: r) = true) : noSpNd e = true ∧ elNoSp r = true := by
  simpa [elNoSp, Bool.and_eq_true] using h

/-- Inversion for the space check on a nonempty member list. -/
theorem memNoSp_cons {α : Type} {k : List Nat} {v : Node α}
    {r : List (List Nat × Node α)} (h : memNoSp ((k, v) :: r) = true) :
    (∀ b ∈ k, b ≠ 32) ∧ noSpNd v = true ∧ memNoSp r = true := by
  simpa [memNoSp, Bool.and_eq_true, List.all_eq_true, and_assoc] using h

mutual

/-- Compact serialization of a tree without space bytes in its strings and
with a whitespace-free number formatter contains no whitespace byte. -/
theorem writeNode_no_ws (numF : α → List Nat)
    (hnum : ∀ x c, c ∈ numF x → isWsB c = false) (isize ind : Nat) :
    ∀ t : Node α, noSpNd t = true →
      ∀ c ∈ writeNodeF numF false isize ind t, isWsB c = false
  | .null => by
    intro _ c hc
    simp [writeNodeF] at hc
    simp [isWsB]; omega
  | .bool b => by
    cases b <;> intro _ c hc <;> simp [writeNodeF] at hc <;>
      simp [isWsB] <;> omega
  | .num x => by
    intro _ c hc
    simp [writeNodeF] at hc
    exact hnum x c hc
  | .str s => by
    intro hs c hc
    simp only [writeNodeF] at hc
    simp only [noSpNd, List.all_eq_true, decide_eq_true_eq] at hs
    exact writeString_no_ws s hs c hc
  | .arr es => by
    intro hs c hc
    simp only [noSpNd] at hs
    simp only [writeNodeF, Bool.false_and, if_neg Bool.false_ne_true,
      List.nil_append, List.append_nil] at hc
    rcases List.mem_append.mp hc with h1 | h1
    · rcases List.mem_append.mp h1 with h2 | h2
      · simp at h2; subst h2; rfl
      · exact writeElems_no_ws numF hnum isize (ind + 1) es hs c h2
    · simp at h1; subst h1; rfl
  | .obj ms => by
    intro hs c hc
    simp only [noSpNd] at hs
    simp only [writeNodeF, Bool.false_and, if_neg Bool.false_ne_true,
      List.nil_append, List.append_nil] at hc
    rcases List.mem_append.mp hc with h1 | h1
    · rcases List.mem_append.mp h1 with h2 | h2
      · simp at h2; subst h2; rfl
      · exact writeMems_no_ws numF hnum isize (ind + 1) ms hs c h2
    · simp at h1; subst h1; rfl

/-- Element-loop output of the compact writer contains no whitespace. -/
theorem writeElems_no_ws (numF : α → List Nat)
    (hnum : ∀ x c, c ∈ numF x → isWsB c = false) (isize ind : Nat) :
    ∀ es : List (Node α), elNoSp es = true →
      ∀ c ∈ writeArrElemsF numF false isize ind es, isWsB c = false
  | [] => by intro _ c hc; simp [writeArrElemsF] at hc
  | [e] => by
    intro hs c hc
    simp only [writeArrElemsF, if_neg Bool.false_ne_true, List.nil_append,
      List.append_nil] at hc
    exact writeNode_no_ws numF hnum isize ind e (elNoSp_cons hs).1 c hc
  | e :: e2 :: rest => by
    intro hs c hc
    simp only [writeArrElemsF, if_neg Bool.false_ne_true, List.nil_append,
      List.append_nil] at hc
    rcases List.mem_append.mp hc with h1 | h1
    · rcases List.mem_append.mp h1 with h2 | h2
      · exact writeNode_no_ws numF hnum isize ind e (elNoSp_cons hs).1 c h2
      · simp at h2; subst h2; rfl
    · exact writeElems_no_ws numF hnum isize ind (e2 :: rest)
        (elNoSp_cons hs).2 c h1

/-- Member-loop output of the compact writer contains no whitespace; in
particular the compact key separator is the bare colon. -/
theorem writeMems_no_ws (numF : α → List Nat)
    (hnum : ∀ x c, c ∈ numF x → isWsB c = false) (isize ind : Nat) :
    ∀ ms : List (List Nat × Node α), memNoSp ms = true →
      ∀ c ∈ writeObjMembersF numF false isize ind ms, isWsB c = false
  | [] => by intro _ c hc; simp [writeObjMembersF] at hc
  | [(k, v)] => by
    intro hs c hc
    simp only [writeObjMembersF, if_neg Bool.false_ne_true, List.nil_append,
      List.append_nil] at hc
    rcases List.mem_append.mp hc with h1 | h1
    · rcases List.mem_append.mp h1 with h2 | h2
      · exact writeString_no_ws k (memNoSp_cons hs).1 c h2
      · simp at h2; subst h2; rfl
    · exact writeNode_no_ws numF hnum isize ind v (memNoSp_cons hs).2.1 c h1
  | (k, v) :: m2 :: rest => by
    intro hs c hc
    simp only [writeObjMembersF, if_neg Bool.false_ne_true, List.nil_append,
      List.append_nil] at hc
    rcases List.mem_append.mp hc with h1 | h1
    · rcases List.mem_append.mp h1 with h2 | h2
      · rcases List.mem_append.mp h2 with h3 | h3
        · rcases List.mem_append.mp h3 with h4 | h4
          · exact writeString_no_ws k (memNoSp_cons hs).1 c h4
          · simp at h4; subst h4; rfl
        · exact writeNode_no_ws numF hnum isize ind v (memNoSp_cons hs).2.1 c h3
      · simp at h2; subst h2; rfl
    · exact writeMems_no_ws numF hnum isize ind (m2 :: rest)
        (memNoSp_cons hs).2.2 c h1

end

/-- C6 (amended): compact-mode serialization emits NO whitespace at all —
including no space after the colon separating a key from its value (the
compact separator is the bare `:`): for every tree whose strings and keys
contain no space byte and whose number formatter emits no whitespace, the
compact output contains no whitespace byte whatsoever. -/
theorem c6_compact_no_ws (α : Type) (numF : α → List Nat)
    (hnum : ∀ x c, c ∈ numF x → isWsB c = false) (t : Node α)
    (ht : noSpNd t = true) :
    ∀ c ∈ write numF false t, isWsB c = false :=
  writeNode_no_ws numF hnum 2 0 t ht

/-- C6 witness: the byte following the colon of compact `{"a":null}` is the
`n` of `null` and is not whitespace, by the theorem applied there. -/
theorem c6_compact_no_ws_witness : isWsB 110 = false :=
  c6_compact_no_ws Unit unitNumF
    (fun x c hc => by
      simp [unitNumF] at hc
      subst hc
      rfl)
    (.obj [([97], Node.null)]) (by decide) 110 (by decide)

/-- C6 counterexample: compact output of `{"a": null}` is `{"a":null}` —
the byte after the colon (index 5) is `n`, not the single space the claim
requires after each colon, and no space occurs anywhere. -/
theorem c6_counterexample :
    write unitNumF false (.obj [([97], Node.null)]) =
      [123, 34, 97, 34, 58, 110, 117, 108, 108, 125] ∧
    (write unitNumF false (.obj [([97], Node.null)])).get? 5 ≠ some 32 ∧
    ¬ 32 ∈ write unitNumF false (.obj [([97], Node.null)]) := by
  refine ⟨by decide, by decide, by decide⟩

/-- Every error exit of `parse_array` leaves `depth_` strictly above its
entry value, successful exits restore it; stated via the element-loop facts
supplied as hypotheses (discharged by the fuel induction below). -/
theorem arrayDepthAux (numP : List Nat → Option α) (f : Nat)
    (hEok : ∀ o s d acc v s2 o2 d2,
      parseArrElemsF numP f o s d acc = .ok v s2 o2 d2 → d2 = d - 1)
    (hEerr : ∀ o s d acc e d2,
      parseArrElemsF numP f o s d acc = .err e d2 → d ≤ d2) :
    (∀ o s d v s2 o2 d2, parseArrayF numP f o s d = .ok v s2 o2 d2 → d2 = d) ∧
    (∀ o s d e d2, parseArrayF numP f o s d = .err e d2 → d + 1 ≤ d2) := by
  have main : ∀ o s d r, parseArrayF numP f o s d = r →
      (∀ v s2 o2 d2, r = .ok v s2 o2 d2 → d2 = d) ∧
      (∀ e d2, r = .err e d2 → d + 1 ≤ d2) := by
    intro o s d r h
    rw [parseArrayF] at h
    by_cases hd : d + 1 > MaxDepth
    · simp only [if_pos hd] at h
      subst h
      refine ⟨?_, ?_⟩
      · intro v s2 o2 d2 hh; cases hh
      · intro e d2 hh; cases hh; omega
    · simp only [if_neg hd] at h
      cases hE : expectTok TokenType.leftBracket o s with
      | error e1 =>
        simp only [hE] at h
        subst h
        refine ⟨?_, ?_⟩
        · intro v s2 o2 d2 hh; cases hh
        · intro e d2 hh; cases hh; omega
      | ok trip =>
        obtain ⟨tk, s1, o1⟩ := trip
        simp only [hE] at h
        cases hN : nextTok o1 s1 with
        | error e2 =>
          simp only [hN] at h
          subst h
          refine ⟨?_, ?_⟩
          · intro v s2 o2 d2 hh; cases hh
          · intro e d2 hh; cases hh; omega
        | ok pr =>
          obtain ⟨tok, c⟩ := pr
          simp only [hN] at h
          by_cases hb : tok.ttype = TokenType.rightBracket
          · simp only [if_pos hb] at h
            subst h
            refine ⟨?_, ?_⟩
            · intro v s2 o2 d2 hh; cases hh; rfl
            · intro e d2 hh; cases hh
          · simp only [if_neg hb] at h
            subst h
            refine ⟨?_, ?_⟩
            · intro v s2 o2 d2 hh
              have := hEok _ _ _ _ _ _ _ _ hh
              omega
            · intro e d2 hh
              exact hEerr _ _ _ _ _ _ hh
  refine ⟨?_, ?_⟩
  · intro o s d v s2 o2 d2 h
    exact (main o s d _ h).1 v s2 o2 d2 rfl
  · intro o s d e d2 h
    exact (main o s d _ h).2 e d2 rfl

theorem elemsDepthAux (numP : List Nat → Option α) (f1 : Nat)
    (hVok : ∀ o s d v s2 o2 d2,
      parseValueF numP f1 o s d = .ok v s2 o2 d2 → d2 = d)
    (hVerr : ∀ o s d e d2, parseValueF numP f1 o s d = .err e d2 → d ≤ d2)
    (hEok : ∀ o s d acc v s2 o2 d2,
      parseArrElemsF numP f1 o s d acc = .ok v s2 o2 d2 → d2 = d - 1)
    (hEerr : ∀ o s d acc e d2,
      parseArrElemsF numP f1 o s d acc = .err e d2 → d ≤ d2) :
    (∀ o s d acc v s2 o2 d2,
      parseArrElemsF numP (f1 + 1) o s d acc = .ok v s2 o2 d2 → d2 = d - 1) ∧
    (∀ o s d acc e d2,
      parseArrElemsF numP (f1 + 1) o s d acc = .err e d2 → d ≤ d2) := by
  have main : ∀ o s d acc r, parseArrElemsF numP (f1 + 1) o s d acc = r →
      (∀ v s2 o2 d2, r = .ok v s2 o2 d2 → d2 = d - 1) ∧
      (∀ e d2, r = .err e d2 → d ≤ d2) := by
    intro o s d acc r h
    rw [parseArrElemsF] at h
    cases hV : parseValueF numP f1 o s d with
    | out =>
      simp only [hV] at h
      subst h
      refine ⟨?_, ?_⟩
      · intro v s2 o2 d2 hh; cases hh
      · intro e d2 hh; cases hh
    | err e1 dE =>
      simp only [hV] at h
      subst h
      refine ⟨?_, ?_⟩
      · intro v s2 o2 d2 hh; cases hh
      · intro e d2 hh
        cases hh
        exact hVerr _ _ _ _ _ hV
    | ok v1 sV oV dV =>
      have hdV : dV = d := hVok _ _ _ _ _ _ _ hV
      simp only [hV] at h
      cases hN : nextTok oV sV with
      | error e2 =>
        simp only [hN] at h
        subst h
        refine ⟨?_, ?_⟩
        · intro v s2 o2 d2 hh; cases hh
        · intro e d2 hh; cases hh; omega
      | ok pr =>
        obtain ⟨tok, c⟩ := pr
        simp only [hN] at h
        by_cases hb : tok.ttype = TokenType.rightBracket
        · simp only [if_pos hb] at h
          subst h
          refine ⟨?_, ?_⟩
          · intro v s2 o2 d2 hh; cases hh; omega
          · intro e d2 hh; cases hh
        · by_cases hc : tok.ttype = TokenType.comma
          · simp only [if_neg hb, if_pos hc] at h
            subst h
            refine ⟨?_, ?_⟩
            · intro v s2 o2 d2 hh
              have := hEok _ _ _ _ _ _ _ _ hh
              omega
            · intro e d2 hh
              have := hEerr _ _ _ _ _ _ hh
              omega
          · simp only [if_neg hb, if_neg hc] at h
            subst h
            refine ⟨?_, ?_⟩
            · intro v s2 o2 d2 hh; cases hh
            · intro e d2 hh; cases hh; omega
  refine ⟨?_, ?_⟩
  · intro o s d acc v s2 o2 d2 h
    exact (main o s d acc _ h).1 v s2 o2 d2 rfl
  · intro o s d acc e d2 h
    exact (main o s d acc _ h).2 e d2 rfl

theorem objectDepthAux (numP : List Nat → Option α) (f : Nat)
    (hMok : ∀ o s d acc v s2 o2 d2,
      parseObjMembersF numP f o s d acc = .ok v s2 o2 d2 → d2 = d - 1)
    (hMerr : ∀ o s d acc e d2,
      parseObjMembersF numP f o s d acc = .err e d2 → d ≤ d2) :
    (∀ o s d v s2 o2 d2, parseObjectF numP f o s d = .ok v s2 o2 d2 → d2 = d) ∧
    (∀ o s d e d2, parseObjectF numP f o s d = .err e d2 → d + 1 ≤ d2) := by
  have main : ∀ o s d r, parseObjectF numP f o s d = r →
      (∀ v s2 o2 d2, r = .ok v s2 o2 d2 → d2 = d) ∧
      (∀ e d2, r = .err e d2 → d + 1 ≤ d2) := by
    intro o s d r h
    rw [parseObjectF] at h
    by_cases hd : d + 1 > MaxDepth
    · simp only [if_pos hd] at h
      subst h
      refine ⟨?_, ?_⟩
      · intro v s2 o2 d2 hh; cases hh
      · intro e d2 hh; cases hh; omega
    · simp only [if_neg hd] at h
      cases hE : expectTok TokenType.leftBrace o s with
      | error e1 =>
        simp only [hE] at h
        subst h
        refine ⟨?_, ?_⟩
        · intro v s2 o2 d2 hh; cases hh
        · intro e d2 hh; cases hh; omega
      | ok trip =>
        obtain ⟨tk, s1, o1⟩ := trip
        simp only [hE] at h
        cases hN : nextTok o1 s1 with
        | error e2 =>
          simp only [hN] at h
          subst h
          refine ⟨?_, ?_⟩
          · intro v s2 o2 d2 hh; cases hh
          · intro e d2 hh; cases hh; omega
        | ok pr =>
          obtain ⟨tok, c⟩ := pr
          simp only [hN] at h
          by_cases hb : tok.ttype = TokenType.rightBrace
          · simp only [if_pos hb] at h
            subst h
            refine ⟨?_, ?_⟩
            · intro v s2 o2 d2 hh; cases hh; rfl
            · intro e d2 hh; cases hh
          · simp only [if_neg hb] at h
            subst h
            refine ⟨?_, ?_⟩
            · intro v s2 o2 d2 hh
              have := hMok _ _ _ _ _ _ _ _ hh
              omega
            · intro e d2 hh
              exact hMerr _ _ _ _ _ _ hh
  refine ⟨?_, ?_⟩
  · intro o s d v s2 o2 d2 h
    exact (main o s d _ h).1 v s2 o2 d2 rfl
  · intro o s d e d2 h
    exact (main o s d _ h).2 e d2 rfl

theorem membersDepthAux (numP : List Nat → Option α) (f1 : Nat)
    (hVok : ∀ o s d v s2 o2 d2,
      parseValueF numP f1 o s d = .ok v s2 o2 d2 → d2 = d)
    (hVerr : ∀ o s d e d2, parseValueF numP f1 o s d = .err e d2 → d ≤ d2)
    (hMok : ∀ o s d acc v s2 o2 d2,
      parseObjMembersF numP f1 o s d acc = .ok v s2 o2 d2 → d2 = d - 1)
    (hMerr : ∀ o s d acc e d2,
      parseObjMembersF numP f1 o s d acc = .err e d2 → d ≤ d2) :
    (∀ o s d acc v s2 o2 d2,
      parseObjMembersF numP (f1 + 1) o s d acc = .ok v s2 o2 d2 → d2 = d - 1) ∧
    (∀ o s d acc e d2,
      parseObjMembersF numP (f1 + 1) o s d acc = .err e d2 → d ≤ d2) := by
  have main : ∀ o s d acc r, parseObjMembersF numP (f1 + 1) o s d acc = r →
      (∀ v s2 o2 d2, r = .ok v s2 o2 d2 → d2 = d - 1) ∧
      (∀ e d2, r = .err e d2 → d ≤ d2) := by
    intro o s d acc r h
    rw [parseObjMembersF] at h
    cases hK : expectTok TokenType.string o s with
    | error e1 =>
      simp only [hK] at h
      subst h
      refine ⟨?_, ?_⟩
      · intro v s2 o2 d2 hh; cases hh
      · intro e d2 hh; cases hh; omega
    | ok trip =>
      obtain ⟨key, s1, o1⟩ := trip
      simp only [hK] at h
      cases hC : expectTok TokenType.colon o1 s1 with
      | error e2 =>
        simp only [hC] at h
        subst h
        refine ⟨?_, ?_⟩
        · intro v s2 o2 d2 hh; cases hh
        · intro e d2 hh; cases hh; omega
      | ok trip2 =>
        obtain ⟨ctk, s2x, o2x⟩ := trip2
        simp only [hC] at h
        cases hV : parseValueF numP f1 o2x s2x d with
        | out =>
          simp only [hV] at h
          subst h
          refine ⟨?_, ?_⟩
          · intro v s2 o2 d2 hh; cases hh
          · intro e d2 hh; cases hh
        | err e1 dE =>
          simp only [hV] at h
          subst h
          refine ⟨?_, ?_⟩
          · intro v s2 o2 d2 hh; cases hh
          · intro e d2 hh
            cases hh
            exact hVerr _ _ _ _ _ hV
        | ok v1 sV oV dV =>
          have hdV : dV = d := hVok _ _ _ _ _ _ _ hV
          simp only [hV] at h
          cases hN : nextTok oV sV with
          | error e2 =>
            simp only [hN] at h
            subst h
            refine ⟨?_, ?_⟩
            · intro v s2 o2 d2 hh; cases hh
            · intro e d2 hh; cases hh; omega
          | ok pr =>
            obtain ⟨tok, c⟩ := pr
            simp only [hN] at h
            by_cases hb : tok.ttype = TokenType.rightBrace
            · simp only [if_pos hb] at h
              subst h
              refine ⟨?_, ?_⟩
              · intro v s2 o2 d2 hh; cases hh; omega
              · intro e d2 hh; cases hh
            · by_cases hc : tok.ttype = TokenType.comma
              · simp only [if_neg hb, if_pos hc] at h
                subst h
                refine ⟨?_, ?_⟩
                · intro v s2 o2 d2 hh
                  have := hMok _ _ _ _ _ _ _ _ hh
                  omega
                · intro e d2 hh
                  have := hMerr _ _ _ _ _ _ hh
                  omega
              · simp only [if_neg hb, if_neg hc] at h
                subst h
                refine ⟨?_, ?_⟩
                · intro v s2 o2 d2 hh; cases hh
                · intro e d2 hh; cases hh; omega
  refine ⟨?_, ?_⟩
  · intro o s d acc v s2 o2 d2 h
    exact (main o s d acc _ h).1 v s2 o2 d2 rfl
  · intro o s d acc e d2 h
    exact (main o s d acc _ h).2 e d2 rfl

theorem valueDepthAux (numP : List Nat → Option α) (f1 : Nat)
    (hAok : ∀ o s d v s2 o2 d2,
      parseArrayF numP f1 o s d = .ok v s2 o2 d2 → d2 = d)
    (hAerr : ∀ o s d e d2, parseArrayF numP f1 o s d = .err e d2 → d + 1 ≤ d2)
    (hOok : ∀ o s d v s2 o2 d2,
      parseObjectF numP f1 o s d = .ok v s2 o2 d2 → d2 = d)
    (hOerr : ∀ o s d e d2,
      parseObjectF numP f1 o s d = .err e d2 → d + 1 ≤ d2) :
    (∀ o s d v s2 o2 d2,
      parseValueF numP (f1 + 1) o s d = .ok v s2 o2 d2 → d2 = d) ∧
    (∀ o s d e d2, parseValueF numP (f1 + 1) o s d = .err e d2 → d ≤ d2) := by
  have main : ∀ o s d r, parseValueF numP (f1 + 1) o s d = r →
      (∀ v s2 o2 d2, r = .ok v s2 o2 d2 → d2 = d) ∧
      (∀ e d2, r = .err e d2 → d ≤ d2) := by
    intro o s d r h
    rw [parseValueF] at h
    cases hN : nextTok o s with
    | error e1 =>
      simp only [hN] at h
      subst h
      refine ⟨?_, ?_⟩
      · intro v s2 o2 d2 hh; cases hh
      · intro e d2 hh; cases hh; omega
    | ok pr =>
      obtain ⟨tok, c⟩ := pr
      simp only [hN] at h
      obtain ⟨tt, txt, off⟩ := tok
      cases tt <;> simp only at h
      case end_ | rightBrace | rightBracket | colon | comma =>
        subst h
        refine ⟨?_, ?_⟩
        · intro v s2 o2 d2 hh; cases hh
        · intro e d2 hh; cases hh; omega
      case leftBrace =>
        subst h
        exact ⟨fun v s2 o2 d2 hh => hOok _ _ _ _ _ _ _ hh,
          fun e d2 hh => le_trans (Nat.le_succ d) (hOerr _ _ _ _ _ hh)⟩
      case leftBracket =>
        subst h
        exact ⟨fun v s2 o2 d2 hh => hAok _ _ _ _ _ _ _ hh,
          fun e d2 hh => le_trans (Nat.le_succ d) (hAerr _ _ _ _ _ hh)⟩
      case string =>
        subst h
        refine ⟨?_, ?_⟩
        · intro v s2 o2 d2 hh; cases hh; rfl
        · intro e d2 hh; cases hh
      case number =>
        cases hX : numP txt with
        | some x =>
          simp only [hX] at h
          subst h
          refine ⟨?_, ?_⟩
          · intro v s2 o2 d2 hh; cases hh; rfl
          · intro e d2 hh; cases hh
        | none =>
          simp only [hX] at h
          subst h
          refine ⟨?_, ?_⟩
          · intro v s2 o2 d2 hh; cases hh
          · intro e d2 hh; cases hh; omega
      case null_ | true_ | false_ =>
        subst h
        refine ⟨?_, ?_⟩
        · intro v s2 o2 d2 hh; cases hh; rfl
        · intro e d2 hh; cases hh
  refine ⟨?_, ?_⟩
  · intro o s d v s2 o2 d2 h
    exact (main o s d _ h).1 v s2 o2 d2 rfl
  · intro o s d e d2 h
    exact (main o s d _ h).2 e d2 rfl

theorem parse_depth_all (numP : List Nat → Option α) : ∀ f : Nat,
    (∀ o s d v s2 o2 d2,
      parseValueF numP f o s d = .ok v s2 o2 d2 → d2 = d) ∧
    (∀ o s d e d2, parseValueF numP f o s d = .err e d2 → d ≤ d2) ∧
    (∀ o s d v s2 o2 d2,
      parseArrayF numP f o s d = .ok v s2 o2 d2 → d2 = d) ∧
    (∀ o s d e d2, parseArrayF numP f o s d = .err e d2 → d + 1 ≤ d2) ∧
    (∀ o s d acc v s2 o2 d2,
      parseArrElemsF numP f o s d acc = .ok v s2 o2 d2 → d2 = d - 1) ∧
    (∀ o s d acc e d2, parseArrElemsF numP f o s d acc = .err e d2 → d ≤ d2) ∧
    (∀ o s d v s2 o2 d2,
      parseObjectF numP f o s d = .ok v s2 o2 d2 → d2 = d) ∧
    (∀ o s d e d2, parseObjectF numP f o s d = .err e d2 → d + 1 ≤ d2) ∧
    (∀ o s d acc v s2 o2 d2,
      parseObjMembersF numP f o s d acc = .ok v s2 o2 d2 → d2 = d - 1) ∧
    (∀ o s d acc e d2,
      parseObjMembersF numP f o s d acc = .err e d2 → d ≤ d2) := by
  intro f
  induction f with
  | zero =>
    have hVok : ∀ o s d v s2 o2 d2,
        parseValueF numP 0 o s d = .ok v s2 o2 d2 → d2 = d := by
      intro o s d v s2 o2 d2 h
      simp [parseValueF] at h
    have hVerr : ∀ o s d e d2,
        parseValueF numP 0 o s d = .err e d2 → d ≤ d2 := by
      intro o s d e d2 h
      simp [parseValueF] at h
    have hEok : ∀ o s d acc v s2 o2 d2,
        parseArrElemsF numP 0 o s d acc = .ok v s2 o2 d2 → d2 = d - 1 := by
      intro o s d acc v s2 o2 d2 h
      simp [parseArrElemsF] at h
    have hEerr : ∀ o s d acc e d2,
        parseArrElemsF numP 0 o s d acc = .err e d2 → d ≤ d2 := by
      intro o s d acc e d2 h
      simp [parseArrElemsF] at h
    have hMok : ∀ o s d acc v s2 o2 d2,
        parseObjMembersF numP 0 o s d acc = .ok v s2 o2 d2 → d2 = d - 1 := by
      intro o s d acc v s2 o2 d2 h
      simp [parseObjMembersF] at h
    have hMerr : ∀ o s d acc e d2,
        parseObjMembersF numP 0 o s d acc = .err e d2 → d ≤ d2 := by
      intro o s d acc e d2 h
      simp [parseObjMembersF] at h
    obtain ⟨hAok, hAerr⟩ := arrayDepthAux numP 0 hEok hEerr
    obtain ⟨hOok, hOerr⟩ := objectDepthAux numP 0 hMok hMerr
    exact ⟨hVok, hVerr, hAok, hAerr, hEok, hEerr, hOok, hOerr, hMok, hMerr⟩
  | succ f1 ih =>
    obtain ⟨hVok, hVerr, hAok, hAerr, hEok, hEerr, hOok, hOerr, hMok, hMerr⟩ :=
      ih
    obtain ⟨hEok2, hEerr2⟩ := elemsDepthAux numP f1 hVok hVerr hEok hEerr
    obtain ⟨hMok2, hMerr2⟩ := membersDepthAux numP f1 hVok hVerr hMok hMerr
    obtain ⟨hAok2, hAerr2⟩ := arrayDepthAux numP (f1 + 1) hEok2 hEerr2
    obtain ⟨hOok2, hOerr2⟩ := objectDepthAux numP (f1 + 1) hMok2 hMerr2
    obtain ⟨hVok2, hVerr2⟩ := valueDepthAux numP f1 hAok hAerr hOok hOerr
    exact ⟨hVok2, hVerr2, hAok2, hAerr2, hEok2, hEerr2, hOok2, hOerr2,
      hMok2, hMerr2⟩

/-- C3 (amended): the recursion-depth counter is restored on every
SUCCESSFUL exit of `parse_array` / `parse_object`, but on every error exit
it is left strictly above its entry value — the early error returns skip
the decrement, so error results do NOT leave the depth counter unchanged. -/
theorem c3_depth_restore_amended (α : Type) (numP : List Nat → Option α)
    (f o : Nat) (s : List Nat) (d : Nat) :
    (∀ v s2 o2 d2, parseArrayF numP f o s d = .ok v s2 o2 d2 → d2 = d) ∧
    (∀ e d2, parseArrayF numP f o s d = .err e d2 → d < d2) ∧
    (∀ v s2 o2 d2, parseObjectF numP f o s d = .ok v s2 o2 d2 → d2 = d) ∧
    (∀ e d2, parseObjectF numP f o s d = .err e d2 → d < d2) := by
  obtain ⟨_, _, hAok, hAerr, _, _, hOok, hOerr, _, _⟩ := parse_depth_all numP f
  exact ⟨fun v s2 o2 d2 h => hAok o s d v s2 o2 d2 h,
    fun e d2 h => hAerr o s d e d2 h,
    fun v s2 o2 d2 h => hOok o s d v s2 o2 d2 h,
    fun e d2 h => hOerr o s d e d2 h⟩

/-- C3 witness: on the input `[` the array parser errs and exits with the
depth counter at 1 although it entered at 0. -/
theorem c3_depth_restore_amended_witness : (0 : Nat) < 1 :=
  (c3_depth_restore_amended Unit unitNumP 5 0 [91] 0).2.1
    ⟨.expectedValue, 1⟩ 1
    (by simp +decide [parseArrayF, parseArrElemsF, parseValueF, expectTok,
      nextTok, wsCount, isWsB, tokEndPos, MaxDepth])

/-- C3 counterexample: parsing the input `[` from depth 0 returns an error
(`ExpectedValue` at offset 1) with the depth counter left at 1, not
restored to its entry value 0: the claim fails on error exits. -/
theorem c3_counterexample :
    parseArrayF unitNumP 5 0 [91] 0 = .err ⟨.expectedValue, 1⟩ 1 ∧
    (1 : Nat) ≠ 0 := by
  constructor
  · simp +decide [parseArrayF, parseArrElemsF, parseValueF, expectTok,
      nextTok, wsCount, isWsB, tokEndPos, MaxDepth]
  · decide

theorem hexDigitU_bounds (n : Nat) (h : n < 16) :
    (48 ≤ hexDigitU n ∧ hexDigitU n ≤ 57) ∨
    (65 ≤ hexDigitU n ∧ hexDigitU n ≤ 70) := by
  unfold hexDigitU
  split_ifs <;> omega

theorem hexDigitU_ne_quote (n : Nat) (h : n < 16) :
    hexDigitU n ≠ 34 ∧ hexDigitU n ≠ 92 := by
  rcases hexDigitU_bounds n h with ⟨h1, h2⟩ | ⟨h1, h2⟩ <;> omega

theorem hexToInt_hexDigitU (n : Nat) (h : n < 16) :
    hexToInt (hexDigitU n) = some n := by
  unfold hexDigitU hexToInt
  split_ifs <;> first | (congr 1; omega) | omega

theorem decodeHex4_hex4 (n : Nat) (rest : List Nat) (h : n < 0x10000) :
    decodeHex4 (hex4 n ++ rest) 0 = some n := by
  have h0 : n / 4096 % 16 < 16 := Nat.mod_lt _ (by omega)
  have h1 : n / 256 % 16 < 16 := Nat.mod_lt _ (by omega)
  have h2 : n / 16 % 16 < 16 := Nat.mod_lt _ (by omega)
  have h3 : n % 16 < 16 := Nat.mod_lt _ (by omega)
  simp only [hex4, List.cons_append, List.nil_append, decodeHex4,
    List.getD_cons_zero, List.getD_cons_succ,
    hexToInt_hexDigitU _ h0, hexToInt_hexDigitU _ h1,
    hexToInt_hexDigitU _ h2, hexToInt_hexDigitU _ h3,
    Option.bind_some]
  have b1 : n / 4096 % 16 = n / 4096 := Nat.mod_eq_of_lt (by omega)
  have t1 : n / 16 / 16 = n / 256 := by rw [Nat.div_div_eq_div_mul]
  have t2 : n / 256 / 16 = n / 4096 := by rw [Nat.div_div_eq_div_mul]
  have m0 := Nat.mod_add_div n 16
  have m1 := Nat.mod_add_div (n / 16) 16
  have m2 := Nat.mod_add_div (n / 256) 16
  rw [t1] at m1
  rw [t2] at m2
  rw [b1]
  show some (((n / 4096 * 16 + n / 256 % 16) * 16 + n / 16 % 16) * 16 + n % 16)
    = some n
  congr 1
  omega

theorem decodeHex4_pos3 (x y z : Nat) (n : Nat) (rest : List Nat)
    (h : n < 0x10000) :
    decodeHex4 (x :: y :: z :: (hex4 n ++ rest)) 3 = some n := by
  have base := decodeHex4_hex4 n rest h
  simp only [decodeHex4, List.getD_cons_succ] at base ⊢
  convert base using 3 <;> rfl

theorem decodeHex4_pos9 (x0 x1 x2 x3 x4 x5 x6 x7 x8 : Nat) (n : Nat)
    (rest : List Nat) (h : n < 0x10000) :
    decodeHex4 (x0 :: x1 :: x2 :: x3 :: x4 :: x5 :: x6 :: x7 :: x8 ::
      (hex4 n ++ rest)) 9 = some n := by
  have base := decodeHex4_hex4 n rest h
  simp only [decodeHex4, List.getD_cons_succ] at base ⊢
  convert base using 3 <;> rfl

theorem encodeUtf8_four (cp : Nat) (h1 : 0x10000 ≤ cp) (h2 : cp < 0x110000) :
    encodeUtf8 cp = [0xF0 + cp / 262144, 0x80 + cp / 4096 % 64,
      0x80 + cp / 64 % 64, 0x80 + cp % 64] := by
  unfold encodeUtf8
  split_ifs <;> first | rfl | omega

theorem surrogate_scan (hi lo : Nat) (h1 : hi < 0x10000) (h2 : lo < 0x10000) :
    strScan (34 :: uEsc hi ++ uEsc lo ++ [34]) 1 false = .closed 13 true := by
  have q0 := hexDigitU_ne_quote (hi / 4096 % 16) (Nat.mod_lt _ (by omega))
  have q1 := hexDigitU_ne_quote (hi / 256 % 16) (Nat.mod_lt _ (by omega))
  have q2 := hexDigitU_ne_quote (hi / 16 % 16) (Nat.mod_lt _ (by omega))
  have q3 := hexDigitU_ne_quote (hi % 16) (Nat.mod_lt _ (by omega))
  have r0 := hexDigitU_ne_quote (lo / 4096 % 16) (Nat.mod_lt _ (by omega))
  have r1 := hexDigitU_ne_quote (lo / 256 % 16) (Nat.mod_lt _ (by omega))
  have r2 := hexDigitU_ne_quote (lo / 16 % 16) (Nat.mod_lt _ (by omega))
  have r3 := hexDigitU_ne_quote (lo % 16) (Nat.mod_lt _ (by omega))
  simp [uEsc, hex4, strScan, q0.1, q0.2, q1.1, q1.2, q2.1, q2.2, q3.1, q3.2,
    r0.1, r0.2, r1.1, r1.2, r2.1, r2.2, r3.1, r3.2]

theorem surrogate_unesc (hi lo : Nat)
    (hh1 : 0xD800 ≤ hi) (hh2 : hi ≤ 0xDBFF)
    (hl1 : 0xDC00 ≤ lo) (hl2 : lo ≤ 0xDFFF) :
    unescLoop (34 :: uEsc hi ++ uEsc lo ++ [34]) 13 1 [] =
      .ok (encodeUtf8 (0x10000 + (hi - 0xD800) * 1024 + (lo - 0xDC00))) := by
  have hd1 : decodeHex4 (34 :: uEsc hi ++ uEsc lo ++ [34]) 3 = some hi := by
    have := decodeHex4_pos3 34 92 117 hi (uEsc lo ++ [34]) (by omega)
    simpa [uEsc, hex4] using this
  have hd2 : decodeHex4 (34 :: uEsc hi ++ uEsc lo ++ [34]) 9 = some lo := by
    have := decodeHex4_pos9 34 92 117 (hexDigitU (hi / 4096 % 16))
      (hexDigitU (hi / 256 % 16)) (hexDigitU (hi / 16 % 16))
      (hexDigitU (hi % 16)) 92 117 lo [34] (by omega)
    simpa [uEsc, hex4] using this
  have henc : encodeUtf8 (0x10000 + (hi - 0xD800) * 1024 + (lo - 0xDC00)) ≠
      [] := by
    rw [encodeUtf8_four _ (by omega) (by omega)]
    simp
  have hstep : unescStep (34 :: uEsc hi ++ uEsc lo ++ [34]) 13 1 =
      .ok (encodeUtf8 (0x10000 + (hi - 0xD800) * 1024 + (lo - 0xDC00)), 13) := by
    have na : ¬ lo < 0xDC00 := by omega
    have nb : ¬ 0xDFFF < lo := by omega
    unfold unescStep
    simp only [uEsc, hex4, List.cons_append, List.nil_append] at hd1 hd2 ⊢
    simp +decide [hd1, hd2, henc, hh1, hh2, na, nb]
  rw [unescLoop_eq]
  simp only [uEsc, hex4, List.cons_append, List.nil_append] at hstep ⊢
  rw [if_neg (by omega)]
  rw [hstep]
  show unescLoop _ 13 13 _ = _
  rw [unescLoop_eq]
  simp

theorem single_uesc_scan (hi : Nat) (h1 : hi < 0x10000) :
    strScan (34 :: uEsc hi ++ [34]) 1 false = .closed 7 true := by
  have q0 := hexDigitU_ne_quote (hi / 4096 % 16) (Nat.mod_lt _ (by omega))
  have q1 := hexDigitU_ne_quote (hi / 256 % 16) (Nat.mod_lt _ (by omega))
  have q2 := hexDigitU_ne_quote (hi / 16 % 16) (Nat.mod_lt _ (by omega))
  have q3 := hexDigitU_ne_quote (hi % 16) (Nat.mod_lt _ (by omega))
  simp [uEsc, hex4, strScan, q0.1, q0.2, q1.1, q1.2, q2.1, q2.2, q3.1, q3.2]

theorem missing_low_readString (hi : Nat)
    (hh1 : 0xD800 ≤ hi) (hh2 : hi ≤ 0xDBFF) :
    readString 0 (34 :: uEsc hi ++ [34]) = .error ⟨.invalidEscape, 7⟩ := by
  have hd1 : decodeHex4 (34 :: uEsc hi ++ [34]) 3 = some hi := by
    have := decodeHex4_pos3 34 92 117 hi [34] (by omega)
    simpa [uEsc, hex4] using this
  have hstep : unescStep (34 :: uEsc hi ++ [34]) 7 1 =
      .error (.invalidEscape, 7) := by
    unfold unescStep
    simp only [uEsc, hex4, List.cons_append, List.nil_append] at hd1 ⊢
    simp +decide [hd1, hh1, hh2]
  unfold readString
  rw [single_uesc_scan hi (by omega)]
  show (match unescLoop (34 :: uEsc hi ++ [34]) 7 1 [] with
    | .error (c, j) => (.error ⟨c, 0 + j⟩ : Except Error (Token × Nat))
    | .ok content => .ok (⟨.string, 34 :: content ++ [34], 0⟩, 7 + 1)) = _
  rw [unescLoop_eq]
  simp only [uEsc, hex4, List.cons_append, List.nil_append] at hstep ⊢
  rw [if_neg (by omega)]
  rw [hstep]

theorem bad_low_readString (hi lo : Nat)
    (hh1 : 0xD800 ≤ hi) (hh2 : hi ≤ 0xDBFF) (hlo : lo < 0x10000)
    (hbad : lo < 0xDC00 ∨ 0xDFFF < lo) :
    readString 0 (34 :: uEsc hi ++ uEsc lo ++ [34]) =
      .error ⟨.invalidEscape, 9⟩ := by
  have hd1 : decodeHex4 (34 :: uEsc hi ++ uEsc lo ++ [34]) 3 = some hi := by
    have := decodeHex4_pos3 34 92 117 hi (uEsc lo ++ [34]) (by omega)
    simpa [uEsc, hex4] using this
  have hd2 : decodeHex4 (34 :: uEsc hi ++ uEsc lo ++ [34]) 9 = some lo := by
    have := decodeHex4_pos9 34 92 117 (hexDigitU (hi / 4096 % 16))
      (hexDigitU (hi / 256 % 16)) (hexDigitU (hi / 16 % 16))
      (hexDigitU (hi % 16)) 92 117 lo [34] (by omega)
    simpa [uEsc, hex4] using this
  have hstep : unescStep (34 :: uEsc hi ++ uEsc lo ++ [34]) 13 1 =
      .error (.invalidEscape, 9) := by
    unfold unescStep
    simp only [uEsc, hex4, List.cons_append, List.nil_append] at hd1 hd2 ⊢
    simp +decide [hd1, hd2, hh1, hh2, hbad]
  unfold readString
  rw [surrogate_scan hi lo (by omega) (by omega)]
  show (match unescLoop (34 :: uEsc hi ++ uEsc lo ++ [34]) 13 1 [] with
    | .error (c, j) => (.error ⟨c, 0 + j⟩ : Except Error (Token × Nat))
    | .ok content => .ok (⟨.string, 34 :: content ++ [34], 0⟩, 13 + 1)) = _
  rw [unescLoop_eq]
  simp only [uEsc, hex4, List.cons_append, List.nil_append] at hstep ⊢
  rw [if_neg (by omega)]
  rw [hstep]

theorem unknown_escape_readString (c : Nat)
    (h : ¬ c ∈ ([34, 92, 47, 98, 102, 110, 114, 116, 117] : List Nat)) :
    readString 0 [34, 92, c, 34] = .error ⟨.invalidEscape, 2⟩ := by
  simp only [List.mem_cons, List.not_mem_nil, or_false, not_or] at h
  obtain ⟨h34, h92, h47, h98, h102, h110, h114, h116, h117⟩ := h
  have hstep : unescStep [34, 92, c, 34] 3 1 =
      .error (.invalidEscape, 2) := by
    unfold unescStep
    simp +decide [h34, h92, h47, h98, h102, h110, h114, h116, h117]
  unfold readString
  rw [show strScan [34, 92, c, 34] 1 false = .closed 3 true by
    simp [strScan]]
  show (match unescLoop [34, 92, c, 34] 3 1 [] with
    | .error (cd, j) => (.error ⟨cd, 0 + j⟩ : Except Error (Token × Nat))
    | .ok content => .ok (⟨.string, 34 :: content ++ [34], 0⟩, 3 + 1)) = _
  rw [unescLoop_eq]
  rw [if_neg (by omega)]
  rw [hstep]

theorem surrogate_readString (hi lo : Nat)
    (hh1 : 0xD800 ≤ hi) (hh2 : hi ≤ 0xDBFF)
    (hl1 : 0xDC00 ≤ lo) (hl2 : lo ≤ 0xDFFF) :
    readString 0 (34 :: uEsc hi ++ uEsc lo ++ [34]) =
      .ok (⟨.string,
        34 :: encodeUtf8 (0x10000 + (hi - 0xD800) * 1024 + (lo - 0xDC00)) ++
          [34], 0⟩, 14) := by
  unfold readString
  rw [surrogate_scan hi lo (by omega) (by omega)]
  show (match unescLoop (34 :: uEsc hi ++ uEsc lo ++ [34]) 13 1 [] with
    | .error (cd, j) => (.error ⟨cd, 0 + j⟩ : Except Error (Token × Nat))
    | .ok content => .ok (⟨.string, 34 :: content ++ [34], 0⟩, 13 + 1)) = _
  rw [surrogate_unesc hi lo hh1 hh2 hl1 hl2]

/-- C8: surrogate-pair decoding in string lexing. A `\uXXXX` escape whose
codepoint is a high surrogate combined with an immediately following low
surrogate yields the standard-formula codepoint, which is at least 0x10000
and is UTF-8 encoded into four bytes; `\uD83D\uDE00` produces exactly the
four-byte UTF-8 encoding of U+1F600 (F0 9F 98 80); a high surrogate not
followed by a low surrogate escape fails with `InvalidEscape`, as does a
high surrogate followed by a `\uXXXX` whose value is outside the low range,
and any unrecognized escape character. -/
theorem c8_surrogate_pairs :
    (∀ hi lo : Nat, 0xD800 ≤ hi → hi ≤ 0xDBFF → 0xDC00 ≤ lo → lo ≤ 0xDFFF →
      readString 0 (34 :: uEsc hi ++ uEsc lo ++ [34]) =
        .ok (⟨.string,
          34 :: encodeUtf8 (0x10000 + (hi - 0xD800) * 1024 + (lo - 0xDC00)) ++
            [34], 0⟩, 14) ∧
      0x10000 ≤ 0x10000 + (hi - 0xD800) * 1024 + (lo - 0xDC00) ∧
      (encodeUtf8 (0x10000 + (hi - 0xD800) * 1024 + (lo - 0xDC00))).length =
        4) ∧
    (∀ hi : Nat, 0xD800 ≤ hi → hi ≤ 0xDBFF →
      readString 0 (34 :: uEsc hi ++ [34]) = .error ⟨.invalidEscape, 7⟩) ∧
    (∀ hi lo : Nat, 0xD800 ≤ hi → hi ≤ 0xDBFF → lo < 0x10000 →
      (lo < 0xDC00 ∨ 0xDFFF < lo) →
      readString 0 (34 :: uEsc hi ++ uEsc lo ++ [34]) =
        .error ⟨.invalidEscape, 9⟩) ∧
    (∀ c : Nat, ¬ c ∈ ([34, 92, 47, 98, 102, 110, 114, 116, 117] : List Nat) →
      readString 0 [34, 92, c, 34] = .error ⟨.invalidEscape, 2⟩) ∧
    parse unitNumP [34, 92, 117, 68, 56, 51, 68, 92, 117, 68, 69, 48, 48, 34] =
      .ok (.str [240, 159, 152, 128]) := by
  refine ⟨?_, missing_low_readString, bad_low_readString,
    unknown_escape_readString, ?_⟩
  · intro hi lo hh1 hh2 hl1 hl2
    refine ⟨surrogate_readString hi lo hh1 hh2 hl1 hl2, by omega, ?_⟩
    rw [encodeUtf8_four _ (by omega) (by omega)]
    rfl
  · simp +decide [parse, parseRaw, parseValueF, nextTok, readString, strScan,
      unescLoop, unescGo, unescStep, decodeHex4, hexToInt, encodeUtf8,
      wsCount, isWsB, stripQuotes]

/-- C8 witness: the theorem applied at `\uD83D\uDE00` (combining to
U+1F600), at a lone high surrogate `\uD800`, at `\uD800\u0041` (low out
of range) and at the unknown escape `\x`. -/
theorem c8_surrogate_pairs_witness :
    readString 0 (34 :: uEsc 0xD83D ++ uEsc 0xDE00 ++ [34]) =
      .ok (⟨.string, [34, 240, 159, 152, 128, 34], 0⟩, 14) ∧
    readString 0 (34 :: uEsc 0xD800 ++ [34]) = .error ⟨.invalidEscape, 7⟩ ∧
    readString 0 (34 :: uEsc 0xD800 ++ uEsc 0x41 ++ [34]) =
      .error ⟨.invalidEscape, 9⟩ ∧
    readString 0 [34, 92, 120, 34] = .error ⟨.invalidEscape, 2⟩ := by
  refine ⟨?_, ?_, ?_, ?_⟩
  · have h := (c8_surrogate_pairs.1 0xD83D 0xDE00 (by decide) (by decide)
      (by decide) (by decide)).1
    rw [h]
    rfl
  · exact c8_surrogate_pairs.2.1 0xD800 (by decide) (by decide)
  · exact c8_surrogate_pairs.2.2.1 0xD800 0x41 (by decide) (by decide)
      (by decide) (by decide)
  · exact c8_surrogate_pairs.2.2.2.1 120 (by decide)

theorem wsCount_append (w r : List Nat) (hw : ∀ b ∈ w, isWsB b = true) :
    wsCount (w ++ r) = w.length + wsCount r := by
  induction w with
  | nil => simp [wsCount]
  | cons b w2 ih =>
    have h1 : isWsB b = true := hw b (by simp)
    have h2 := ih (fun x hx => hw x (by simp [hx]))
    simp only [List.cons_append, wsCount, h1, if_true, List.length_cons,
      List.append_eq]
    omega

theorem drop_len_append (a u : List Nat) : (a ++ u).drop a.length = u := by
  simp

theorem nextTok_ws (o : Nat) (w r : List Nat)
    (hw : ∀ b ∈ w, isWsB b = true) :
    nextTok o (w ++ r) =
      match nextTok (o + w.length) r with
      | .ok (t, c) => .ok (t, w.length + c)
      | .error e => .error e := by
  have hdrop : (w ++ r).drop (w.length + wsCount r) = r.drop (wsCount r) := by
    rw [← List.drop_drop, drop_len_append]
  simp only [nextTok, wsCount_append w r hw, hdrop]
  have hoff : o + (w.length + wsCount r) = o + w.length + wsCount r := by omega
  cases hh : (r.drop (wsCount r)).head? with
  | none => simp [hoff]
  | some b =>
    simp only [hoff]
    by_cases h123 : b = 123
    · simp [h123, Nat.add_assoc]
    · by_cases h125 : b = 125
      · simp [h123, h125, Nat.add_assoc]
      · by_cases h91 : b = 91
        · simp [h123, h125, h91, Nat.add_assoc]
        · by_cases h93 : b = 93
          · simp [h123, h125, h91, h93, Nat.add_assoc]
          · by_cases h58 : b = 58
            · simp [h123, h125, h91, h93, h58, Nat.add_assoc]
            · by_cases h44 : b = 44
              · simp [h123, h125, h91, h93, h58, h44, Nat.add_assoc]
              · by_cases h34 : b = 34
                · simp only [h123, h125, h91, h93, h58, h44, h34,
                    if_true, if_false]
                  cases readString (o + w.length + wsCount r)
                      ((r.drop (wsCount r))) with
                  | ok p => cases p; simp [Nat.add_assoc]
                  | error e => simp
                · by_cases h116 : b = 116
                  · simp only [h123, h125, h91, h93, h58, h44, h34, h116,
                      if_true, if_false]
                    cases readKeyword (o + w.length + wsCount r)
                        (r.drop (wsCount r)) [116, 114, 117, 101]
                        TokenType.true_ with
                    | ok p => cases p; simp [Nat.add_assoc]
                    | error e => simp
                  · by_cases h102 : b = 102
                    · simp only [h123, h125, h91, h93, h58, h44, h34, h116,
                        h102, if_true, if_false]
                      cases readKeyword (o + w.length + wsCount r)
                          (r.drop (wsCount r)) [102, 97, 108, 115, 101]
                          TokenType.false_ with
                      | ok p => cases p; simp [Nat.add_assoc]
                      | error e => simp
                    · by_cases h110 : b = 110
                      · simp only [h123, h125, h91, h93, h58, h44, h34, h116,
                          h102, h110, if_true, if_false]
                        cases readKeyword (o + w.length + wsCount r)
                            (r.drop (wsCount r)) [110, 117, 108, 108]
                            TokenType.null_ with
                        | ok p => cases p; simp [Nat.add_assoc]
                        | error e => simp
                      · by_cases hnum : b = 45 ∨ isDigitB b
                        · simp only [h123, h125, h91, h93, h58, h44, h34,
                            h116, h102, h110, hnum, if_true, if_false]
                          cases readNumber (r.drop (wsCount r)) with
                          | some c => simp [Nat.add_assoc]
                          | none => simp
                        · simp [h123, h125, h91, h93, h58, h44, h34, h116,
                            h102, h110, hnum]

theorem nextTok_end (o : Nat) : nextTok o [] = .ok (⟨.end_, [], o⟩, 0) := by
  simp [nextTok, wsCount]

theorem nextTok_lbracket (o : Nat) (rest : List Nat) :
    nextTok o (91 :: rest) = .ok (⟨.leftBracket, [91], o⟩, 1) := by
  simp [nextTok, wsCount, isWsB]

theorem nextTok_rbracket (o : Nat) (rest : List Nat) :
    nextTok o (93 :: rest) = .ok (⟨.rightBracket, [93], o⟩, 1) := by
  simp [nextTok, wsCount, isWsB]

theorem nextTok_lbrace (o : Nat) (rest : List Nat) :
    nextTok o (123 :: rest) = .ok (⟨.leftBrace, [123], o⟩, 1) := by
  simp [nextTok, wsCount, isWsB]

theorem nextTok_rbrace (o : Nat) (rest : List Nat) :
    nextTok o (125 :: rest) = .ok (⟨.rightBrace, [125], o⟩, 1) := by
  simp [nextTok, wsCount, isWsB]

theorem nextTok_colon (o : Nat) (rest : List Nat) :
    nextTok o (58 :: rest) = .ok (⟨.colon, [58], o⟩, 1) := by
  simp [nextTok, wsCount, isWsB]

theorem nextTok_comma (o : Nat) (rest : List Nat) :
    nextTok o (44 :: rest) = .ok (⟨.comma, [44], o⟩, 1) := by
  simp [nextTok, wsCount, isWsB]

theorem nextTok_true (o : Nat) (rest : List Nat) :
    nextTok o (116 :: 114 :: 117 :: 101 :: rest) =
      .ok (⟨.true_, [116, 114, 117, 101], o⟩, 4) := by
  simp [nextTok, wsCount, isWsB, readKeyword, List.isPrefixOf]

theorem nextTok_false (o : Nat) (rest : List Nat) :
    nextTok o (102 :: 97 :: 108 :: 115 :: 101 :: rest) =
      .ok (⟨.false_, [102, 97, 108, 115, 101], o⟩, 5) := by
  simp [nextTok, wsCount, isWsB, readKeyword, List.isPrefixOf]

theorem nextTok_null (o : Nat) (rest : List Nat) :
    nextTok o (110 :: 117 :: 108 :: 108 :: rest) =
      .ok (⟨.null_, [110, 117, 108, 108], o⟩, 4) := by
  simp [nextTok, wsCount, isWsB, readKeyword, List.isPrefixOf]

theorem nextTok_number (o : Nat) (lit rest : List Nat) (b : Nat)
    (hb : lit.head? = some b) (hok : b = 45 ∨ isDigitB b = true)
    (hread : readNumber (lit ++ rest) = some lit.length) :
    nextTok o (lit ++ rest) = .ok (⟨.number, lit, o⟩, lit.length) := by
  cases lit with
  | nil => simp at hb
  | cons b0 t =>
    simp only [List.head?] at hb
    injection hb with hbe
    subst hbe
    have hbv : (b0 = 45 ∨ (48 ≤ b0 ∧ b0 ≤ 57)) := by
      rcases hok with h | h
      · exact Or.inl h
      · simp [isDigitB] at h; omega
    have hws : isWsB b0 = false := by simp [isWsB]; omega
    have hne : ¬(b0 = 123) ∧ ¬(b0 = 125) ∧ ¬(b0 = 91) ∧ ¬(b0 = 93) ∧
        ¬(b0 = 58) ∧ ¬(b0 = 44) ∧ ¬(b0 = 34) ∧ ¬(b0 = 116) ∧ ¬(b0 = 102) ∧
        ¬(b0 = 110) := by omega
    simp only [nextTok, List.cons_append, wsCount, hws, Bool.false_eq_true,
      if_false, List.drop_zero, List.head?, hne.1, hne.2.1, hne.2.2.1,
      hne.2.2.2.1, hne.2.2.2.2.1, hne.2.2.2.2.2.1, hne.2.2.2.2.2.2.1,
      hne.2.2.2.2.2.2.2.1, hne.2.2.2.2.2.2.2.2.1, hne.2.2.2.2.2.2.2.2.2,
      if_false, hok, if_true]
    simp only [List.cons_append] at hread
    rw [hread]
    simp only [Nat.zero_add]
    rw [← List.cons_append, List.take_left]
    simp

/-- Indexing past an append prefix. -/
theorem getD_append_add (pre t : List Nat) (j d : Nat) :
    (pre ++ t).getD (pre.length + j) d = t.getD j d := by
  induction pre with
  | nil => simp
  | cons x p ih =>
    simp only [List.cons_append, List.length_cons]
    rw [show p.length + 1 + j = (p.length + j) + 1 from by omega]
    simpa using ih

/-- `get?` past an append prefix. -/
theorem get?_append_add (pre t : List Nat) (j : Nat) :
    (pre ++ t).get? (pre.length + j) = t.get? j := by
  induction pre with
  | nil => simp
  | cons x p ih =>
    simp only [List.cons_append, List.length_cons]
    rw [show p.length + 1 + j = (p.length + j) + 1 from by omega]
    simpa using ih

/-- The lowercase hex digits are neither quote nor backslash. -/
theorem hexDigitL_ne (n : Nat) : hexDigitL n ≠ 34 ∧ hexDigitL n ≠ 92 := by
  unfold hexDigitL
  by_cases h : n < 10 <;> simp [h] <;> omega

/-- `hexToInt` inverts the lowercase hex digit formatter. -/
theorem hexToInt_hexDigitL (n : Nat) (h : n < 16) :
    hexToInt (hexDigitL n) = some n := by
  unfold hexToInt hexDigitL
  by_cases h10 : n < 10
  · rw [if_pos h10, if_pos (by omega)]
    simp
  · rw [if_neg h10, if_neg (by omega), if_pos (by omega)]
    simp
    omega

/-- A printable non-special byte is emitted verbatim. -/
theorem escByte_plain (b : Nat) (h : plainB b = true) : escByte b = [b] := by
  simp only [plainB, Bool.and_eq_true, decide_eq_true_eq, bne_iff_ne,
    ne_eq] at h
  unfold escByte sbyte
  rw [if_neg h.1.2, if_neg h.2, if_neg (by omega), if_neg (by omega),
    if_neg (by omega), if_neg (by omega), if_neg (by omega),
    if_pos (by rw [if_pos (by omega)]; omega)]

/-- Shape of an escaped byte: a backslash, one byte the scanner skips, and
a tail free of quotes and backslashes. -/
theorem escByte_shape (b : Nat) (hb : b < 128) (hnp : plainB b = false) :
    ∃ xb tb, escByte b = 92 :: xb :: tb ∧
      (∀ y ∈ tb, y ≠ 34 ∧ y ≠ 92) := by
  unfold escByte
  by_cases h34 : b = 34
  · exact ⟨34, [], by simp [h34]⟩
  · by_cases h92 : b = 92
    · exact ⟨92, [], by simp [h34, h92]⟩
    · by_cases h8 : b = 8
      · exact ⟨98, [], by simp [h34, h92, h8]⟩
      · by_cases h12 : b = 12
        · exact ⟨102, [], by simp [h34, h92, h8, h12]⟩
        · by_cases h10 : b = 10
          · exact ⟨110, [], by simp [h34, h92, h8, h12, h10]⟩
          · by_cases h13 : b = 13
            · exact ⟨114, [], by simp [h34, h92, h8, h12, h10, h13]⟩
            · by_cases h9 : b = 9
              · exact ⟨116, [], by simp [h34, h92, h8, h12, h10, h13, h9]⟩
              · have hlt : b < 32 := by
                  by_cases h32 : 32 ≤ b
                  · exfalso
                    have hp : plainB b = true := by
                      simp only [plainB, Bool.and_eq_true, decide_eq_true_eq]
                      exact ⟨⟨⟨h32, hb⟩, h34⟩, h92⟩
                    rw [hp] at hnp
                    cases hnp
                  · omega
                refine ⟨117, [48, 48, hexDigitL (b % 256 / 16),
                  hexDigitL (b % 256 % 16)], ?_, ?_⟩
                · rw [if_neg h34, if_neg h92, if_neg h8, if_neg h12,
                    if_neg h10, if_neg h13, if_neg h9,
                    if_neg (by unfold sbyte; rw [if_pos (by omega)]; omega)]
                · intro y hy
                  simp only [List.mem_cons, List.not_mem_nil, or_false] at hy
                  rcases hy with h | h | h | h <;> subst h
                  · omega
                  · omega
                  · exact hexDigitL_ne _
                  · exact hexDigitL_ne _

/-- When every byte is plain, escaping is the identity. -/
theorem flatMap_plain (str : List Nat) (h : str.all plainB = true) :
    str.flatMap escByte = str := by
  induction str with
  | nil => rfl
  | cons b r ih =>
    simp only [List.all_cons, Bool.and_eq_true] at h
    simp [List.flatMap_cons, escByte_plain b h.1, ih h.2]

/-- One-step unfolding of the string scanner. -/
theorem strScan_unfold (s : List Nat) (i : Nat) (esc : Bool) :
    strScan s i esc =
      match s.get? i with
      | none => .eof
      | some b =>
        if b = 34 then .closed i esc
        else if b = 92 then
          if i + 1 ≥ s.length then .escEOF (i + 1)
          else strScan s (i + 2) true
        else strScan s (i + 1) esc := by
  cases h : s.get? i with
  | none => rw [strScan, h]
  | some b => rw [strScan, h]

/-- Unpacking the verbatim-byte predicate. -/
theorem plainB_facts (b : Nat) (h : plainB b = true) :
    32 ≤ b ∧ b < 128 ∧ b ≠ 34 ∧ b ≠ 92 := by
  simp only [plainB, Bool.and_eq_true, decide_eq_true_eq] at h
  exact ⟨h.1.1.1, h.1.1.2, h.1.2, h.2⟩

/-- The scanner walks over a run of bytes containing neither a quote nor a
backslash without stopping. -/
theorem strScan_plainRun (t : List Nat) : ∀ (pre rest : List Nat) (e : Bool),
    (∀ y ∈ t, y ≠ 34 ∧ y ≠ 92) →
    strScan (pre ++ (t ++ rest)) pre.length e =
      strScan (pre ++ (t ++ rest)) (pre.length + t.length) e := by
  induction t with
  | nil => intro pre rest e _; simp
  | cons y t2 ih =>
    intro pre rest e ht
    have hy := ht y (by simp)
    have hg : (pre ++ (y :: t2 ++ rest)).get? pre.length = some y := by
      have := get?_append_add pre (y :: (t2 ++ rest)) 0
      simpa using this
    rw [strScan_unfold]
    simp only [hg, if_neg hy.1, if_neg hy.2]
    have hl : pre ++ (y :: t2 ++ rest) = (pre ++ [y]) ++ (t2 ++ rest) := by
      simp
    rw [hl]
    have hp1 : pre.length + 1 = (pre ++ [y]).length := by simp
    have hp2 : pre.length + (y :: t2).length =
        (pre ++ [y]).length + t2.length := by simp; omega
    rw [hp1, hp2]
    exact ih (pre ++ [y]) rest e (fun x hx => ht x (by simp [hx]))

/-- The first scanning pass of `read_string`, run over writer-escaped
content: it stops exactly at the closing quote and reports an escape iff
some byte was not emitted verbatim. -/
theorem strScan_flatMap : ∀ (str pre rest : List Nat) (e : Bool),
    (∀ b ∈ str, b < 128) →
    strScan (pre ++ (str.flatMap escByte ++ (34 :: rest))) pre.length e =
      .closed (pre.length + (str.flatMap escByte).length)
        (e || !(str.all plainB)) := by
  intro str
  induction str with
  | nil =>
    intro pre rest e _
    simp only [List.flatMap_nil, List.nil_append, List.length_nil,
      List.all_nil, Bool.not_true, Bool.or_false, Nat.add_zero]
    have hg : (pre ++ (34 :: rest)).get? pre.length = some 34 := by
      have := get?_append_add pre (34 :: rest) 0
      simpa using this
    rw [strScan_unfold]
    simp only [hg, if_pos rfl]
    simp
  | cons b r ih =>
    intro pre rest e hascii
    have hbe : b < 128 := hascii b (by simp)
    by_cases hp : plainB b = true
    · have hpb := plainB_facts b hp
      have hl : pre ++ ((b :: r).flatMap escByte ++ (34 :: rest)) =
          (pre ++ [b]) ++ (r.flatMap escByte ++ (34 :: rest)) := by
        simp [List.flatMap_cons, escByte_plain b hp]
      have hg : (pre ++ ((b :: r).flatMap escByte ++ (34 :: rest))).get?
          pre.length = some b := by
        rw [hl]
        have h0 : (pre ++ [b]) ++ (r.flatMap escByte ++ (34 :: rest)) =
            pre ++ (b :: (r.flatMap escByte ++ (34 :: rest))) := by simp
        rw [h0]
        have := get?_append_add pre (b :: (r.flatMap escByte ++ (34 :: rest))) 0
        simpa using this
      rw [strScan_unfold]
      simp only [hg, if_neg hpb.2.2.1, if_neg hpb.2.2.2]
      rw [hl]
      have hp1 : pre.length + 1 = (pre ++ [b]).length := by simp
      rw [hp1, ih (pre ++ [b]) rest e (fun x hx => hascii x (by simp [hx]))]
      have hall : (b :: r).all plainB = r.all plainB := by simp [hp]
      have hlen : (pre ++ [b]).length + (r.flatMap escByte).length =
          pre.length + ((b :: r).flatMap escByte).length := by
        simp [List.flatMap_cons, escByte_plain b hp]
        try omega
      rw [hall, hlen]
    · obtain ⟨xb, tb, heq, htb⟩ :=
        escByte_shape b hbe (by simpa using hp)
      have hl : pre ++ ((b :: r).flatMap escByte ++ (34 :: rest)) =
          pre ++ (92 :: xb :: (tb ++ (r.flatMap escByte ++ (34 :: rest)))) := by
        simp [List.flatMap_cons, heq]
      have hg : (pre ++ ((b :: r).flatMap escByte ++ (34 :: rest))).get?
          pre.length = some 92 := by
        rw [hl]
        have := get?_append_add pre
          (92 :: xb :: (tb ++ (r.flatMap escByte ++ (34 :: rest)))) 0
        simpa using this
      have hlenS : pre.length + 1 <
          (pre ++ ((b :: r).flatMap escByte ++ (34 :: rest))).length := by
        rw [hl]
        simp
        try omega
      rw [strScan_unfold]
      simp only [hg, if_neg (by omega : ¬(92 : Nat) = 34), if_pos rfl,
        if_neg (by omega : ¬pre.length + 1 ≥
          (pre ++ ((b :: r).flatMap escByte ++ (34 :: rest))).length)]
      have hl2 : pre ++ ((b :: r).flatMap escByte ++ (34 :: rest)) =
          (pre ++ [92, xb]) ++ (tb ++ ((r.flatMap escByte ++ (34 :: rest)))) := by
        simp [List.flatMap_cons, heq]
      rw [hl2]
      have hp2 : pre.length + 2 = (pre ++ [92, xb]).length := by simp
      rw [hp2, strScan_plainRun tb (pre ++ [92, xb]) _ true htb]
      have hl3 : (pre ++ [92, xb]) ++ (tb ++ (r.flatMap escByte ++ (34 :: rest))) =
          ((pre ++ [92, xb]) ++ tb) ++ (r.flatMap escByte ++ (34 :: rest)) := by
        simp
      have hp3 : (pre ++ [92, xb]).length + tb.length =
          ((pre ++ [92, xb]) ++ tb).length := by simp; omega
      rw [hl3, hp3, ih ((pre ++ [92, xb]) ++ tb) rest true
        (fun x hx => hascii x (by simp [hx]))]
      have hflag : (e || !(b :: r).all plainB) = true := by
        simp [hp]
      rw [hflag]
      have hlen2 : ((pre ++ [92, xb]) ++ tb).length +
          (r.flatMap escByte).length =
          pre.length + ((b :: r).flatMap escByte).length := by
        simp [List.flatMap_cons, heq]
        omega
      rw [hlen2]
      simp

/-- A verbatim byte is copied by one iteration of the escape loop. -/
theorem unescStep_plain (s : List Nat) (scanPos i b : Nat)
    (h0 : s.getD i 0 = b) (hb : b ≠ 92) :
    unescStep s scanPos i = .ok ([b], i + 1) := by
  unfold unescStep
  rw [h0, if_neg hb]

/-- A two-character escape is decoded by one iteration of the escape loop. -/
theorem unescStep_twoChar (s : List Nat) (scanPos i xb d : Nat)
    (h0 : s.getD i 0 = 92) (h1 : ¬ i + 1 ≥ scanPos)
    (h2 : s.getD (i + 1) 0 = xb)
    (hx : (xb, d) ∈ [(34, 34), (92, 92), (47, 47), (98, 8), (102, 12),
      (110, 10), (114, 13), (116, 9)]) :
    unescStep s scanPos i = .ok ([d], i + 2) := by
  unfold unescStep
  rw [h0, if_pos rfl, if_neg h1, h2]
  simp only [List.mem_cons, Prod.mk.injEq, List.not_mem_nil, or_false] at hx
  rcases hx with ⟨ha, hb⟩ | ⟨ha, hb⟩ | ⟨ha, hb⟩ | ⟨ha, hb⟩ | ⟨ha, hb⟩ |
    ⟨ha, hb⟩ | ⟨ha, hb⟩ | ⟨ha, hb⟩ <;> subst ha <;> subst hb <;> simp

/-- One successful iteration advances the escape loop. -/
theorem unescLoop_step (s : List Nat) (scanPos i i2 : Nat)
    (acc bs : List Nat) (hlt : i < scanPos)
    (hstep : unescStep s scanPos i = .ok (bs, i2)) :
    unescLoop s scanPos i acc = unescLoop s scanPos i2 (acc ++ bs) := by
  rw [unescLoop_eq, if_neg (by omega), hstep]

/-- Decoding four hex digits is insensitive to a prefix shift. -/
theorem decodeHex4_shift (pre t : List Nat) :
    decodeHex4 (pre ++ t) pre.length = decodeHex4 t 0 := by
  have g0 := getD_append_add pre t 0 0
  have g1 := getD_append_add pre t 1 0
  have g2 := getD_append_add pre t 2 0
  have g3 := getD_append_add pre t 3 0
  simp only [Nat.add_zero] at g0
  simp only [decodeHex4, g0, g1, g2, g3, Nat.zero_add]

/-- Decoding the `00XX` digits the writer produces for a byte. -/
theorem decodeHex4_lowpair (b : Nat) (hb : b < 256) (tail : List Nat) :
    decodeHex4 (48 :: 48 :: hexDigitL (b / 16) :: hexDigitL (b % 16) ::
      tail) 0 = some b := by
  have h48 : hexToInt 48 = some 0 := by simp [hexToInt]
  have hd : b / 16 < 16 := by omega
  have hm : b % 16 < 16 := Nat.mod_lt _ (by omega)
  simp only [decodeHex4, List.getD_cons_zero, List.getD_cons_succ,
    Nat.zero_add, h48, hexToInt_hexDigitL _ hd, hexToInt_hexDigitL _ hm,
    Option.bind_some]
  show some (((0 * 16 + 0) * 16 + b / 16) * 16 + b % 16) = some b
  have := Nat.div_add_mod b 16
  congr 1
  omega

/-- Shape of the writer escape of a control byte. -/
theorem escByte_u (b : Nat) (hlt : b < 32)
    (hnm : ¬(b = 8 ∨ b = 12 ∨ b = 10 ∨ b = 13 ∨ b = 9)) :
    escByte b = [92, 117, 48, 48, hexDigitL (b / 16), hexDigitL (b % 16)] := by
  have hm : b % 256 = b := Nat.mod_eq_of_lt (by omega)
  unfold escByte
  rw [if_neg (by omega), if_neg (by omega), if_neg (by tauto),
    if_neg (by tauto), if_neg (by tauto), if_neg (by tauto),
    if_neg (by tauto),
    if_neg (by unfold sbyte; rw [if_pos (by omega)]; omega), hm]

/-- The escape-processing loop of `read_string`, run over writer-escaped
content ending at the closing quote: it reconstructs the original bytes. -/
theorem unescLoop_flatMap : ∀ (str pre rest acc : List Nat),
    (∀ b ∈ str, b < 128) →
    unescLoop (pre ++ (str.flatMap escByte ++ (34 :: rest)))
      (pre.length + (str.flatMap escByte).length) pre.length acc =
      .ok (acc ++ str) := by
  intro str
  induction str with
  | nil =>
    intro pre rest acc _
    rw [unescLoop_eq, if_pos (by simp)]
    simp
  | cons b r ih =>
    intro pre rest acc hascii
    have hbe : b < 128 := hascii b (by simp)
    have hih := fun pre2 => ih pre2 rest (acc ++ [b])
      (fun x hx => hascii x (by simp [hx]))
    by_cases hp : plainB b = true
    · have hesc := escByte_plain b hp
      have hl : pre ++ ((b :: r).flatMap escByte ++ (34 :: rest)) =
          (pre ++ [b]) ++ (r.flatMap escByte ++ (34 :: rest)) := by
        simp [List.flatMap_cons, hesc]
      have hsp : pre.length + ((b :: r).flatMap escByte).length =
          (pre ++ [b]).length + (r.flatMap escByte).length := by
        simp [List.flatMap_cons, hesc]
        try omega
      rw [hl, hsp]
      have hg0 : ((pre ++ [b]) ++ (r.flatMap escByte ++ (34 :: rest))).getD
          pre.length 0 = b := by
        have h2 : (pre ++ [b]) ++ (r.flatMap escByte ++ (34 :: rest)) =
            pre ++ (b :: (r.flatMap escByte ++ (34 :: rest))) := by simp
        rw [h2]
        have := getD_append_add pre
          (b :: (r.flatMap escByte ++ (34 :: rest))) 0 0
        simpa using this
      have hstep := unescStep_plain _
        ((pre ++ [b]).length + (r.flatMap escByte).length) pre.length b hg0
        (plainB_facts b hp).2.2.2
      have hlt : pre.length <
          (pre ++ [b]).length + (r.flatMap escByte).length := by
        simp
        try omega
      rw [unescLoop_step _ _ _ _ acc [b] hlt hstep]
      have hp1 : pre.length + 1 = (pre ++ [b]).length := by simp
      rw [hp1]
      simpa using hih (pre ++ [b])
    · by_cases hnm : b = 34 ∨ b = 92 ∨ b = 8 ∨ b = 12 ∨ b = 10 ∨ b = 13 ∨
          b = 9
      · obtain ⟨xb, hesc, hx⟩ : ∃ xb, escByte b = [92, xb] ∧
            (xb, b) ∈ [(34, 34), (92, 92), (47, 47), (98, 8), (102, 12),
              (110, 10), (114, 13), (116, 9)] := by
          rcases hnm with h | h | h | h | h | h | h <;> subst h
          · exact ⟨34, by decide, by decide⟩
          · exact ⟨92, by decide, by decide⟩
          · exact ⟨98, by decide, by decide⟩
          · exact ⟨102, by decide, by decide⟩
          · exact ⟨110, by decide, by decide⟩
          · exact ⟨114, by decide, by decide⟩
          · exact ⟨116, by decide, by decide⟩
        have hl : pre ++ ((b :: r).flatMap escByte ++ (34 :: rest)) =
            (pre ++ [92, xb]) ++ (r.flatMap escByte ++ (34 :: rest)) := by
          simp [List.flatMap_cons, hesc]
        have hsp : pre.length + ((b :: r).flatMap escByte).length =
            (pre ++ [92, xb]).length + (r.flatMap escByte).length := by
          simp [List.flatMap_cons, hesc]
          try omega
        rw [hl, hsp]
        have h2 : (pre ++ [92, xb]) ++ (r.flatMap escByte ++ (34 :: rest)) =
            pre ++ (92 :: xb :: (r.flatMap escByte ++ (34 :: rest))) := by
          simp
        have hg0 : ((pre ++ [92, xb]) ++
            (r.flatMap escByte ++ (34 :: rest))).getD pre.length 0 = 92 := by
          rw [h2]
          have := getD_append_add pre
            (92 :: xb :: (r.flatMap escByte ++ (34 :: rest))) 0 0
          simpa using this
        have hg1 : ((pre ++ [92, xb]) ++
            (r.flatMap escByte ++ (34 :: rest))).getD (pre.length + 1) 0 =
            xb := by
          rw [h2]
          have := getD_append_add pre
            (92 :: xb :: (r.flatMap escByte ++ (34 :: rest))) 1 0
          simpa using this
        have hne : ¬ pre.length + 1 ≥
            (pre ++ [92, xb]).length + (r.flatMap escByte).length := by
          simp
          try omega
        have hstep := unescStep_twoChar _ _ _ xb b hg0 hne hg1 hx
        have hlt : pre.length <
            (pre ++ [92, xb]).length + (r.flatMap escByte).length := by
          simp
          try omega
        rw [unescLoop_step _ _ _ _ acc [b] hlt hstep]
        have hp2 : pre.length + 2 = (pre ++ [92, xb]).length := by
          simp
          try omega
        rw [hp2]
        simpa using hih (pre ++ [92, xb])
      · have hlt32 : b < 32 := by
          by_cases h32 : 32 ≤ b
          · exfalso
            have hpb : plainB b = true := by
              simp only [plainB, Bool.and_eq_true, decide_eq_true_eq]
              refine ⟨⟨⟨h32, hbe⟩, ?_⟩, ?_⟩ <;> tauto
            exact hp hpb
          · omega
        have hesc : escByte b =
            [92, 117, 48, 48, hexDigitL (b / 16), hexDigitL (b % 16)] :=
          escByte_u b hlt32 (by tauto)
        have hl : pre ++ ((b :: r).flatMap escByte ++ (34 :: rest)) =
            (pre ++ [92, 117, 48, 48, hexDigitL (b / 16),
              hexDigitL (b % 16)]) ++
              (r.flatMap escByte ++ (34 :: rest)) := by
          simp [List.flatMap_cons, hesc]
        have hsp : pre.length + ((b :: r).flatMap escByte).length =
            (pre ++ [92, 117, 48, 48, hexDigitL (b / 16),
              hexDigitL (b % 16)]).length + (r.flatMap escByte).length := by
          simp [List.flatMap_cons, hesc]
          try omega
        rw [hl, hsp]
        have h2 : (pre ++ [92, 117, 48, 48, hexDigitL (b / 16),
            hexDigitL (b % 16)]) ++ (r.flatMap escByte ++ (34 :: rest)) =
            pre ++ (92 :: 117 :: 48 :: 48 :: hexDigitL (b / 16) ::
              hexDigitL (b % 16) :: (r.flatMap escByte ++ (34 :: rest))) := by
          simp
        have hg0 : ((pre ++ [92, 117, 48, 48, hexDigitL (b / 16),
            hexDigitL (b % 16)]) ++
            (r.flatMap escByte ++ (34 :: rest))).getD pre.length 0 = 92 := by
          rw [h2]
          have := getD_append_add pre (92 :: 117 :: 48 :: 48 ::
            hexDigitL (b / 16) :: hexDigitL (b % 16) ::
            (r.flatMap escByte ++ (34 :: rest))) 0 0
          simpa using this
        have hg1 : ((pre ++ [92, 117, 48, 48, hexDigitL (b / 16),
            hexDigitL (b % 16)]) ++
            (r.flatMap escByte ++ (34 :: rest))).getD (pre.length + 1) 0 =
            117 := by
          rw [h2]
          have := getD_append_add pre (92 :: 117 :: 48 :: 48 ::
            hexDigitL (b / 16) :: hexDigitL (b % 16) ::
            (r.flatMap escByte ++ (34 :: rest))) 1 0
          simpa using this
        have hne1 : ¬ pre.length + 1 ≥
            (pre ++ [92, 117, 48, 48, hexDigitL (b / 16),
              hexDigitL (b % 16)]).length + (r.flatMap escByte).length := by
          simp
          try omega
        have hne5 : ¬ pre.length + 5 ≥
            ((pre ++ [92, 117, 48, 48, hexDigitL (b / 16),
              hexDigitL (b % 16)]) ++
              (r.flatMap escByte ++ (34 :: rest))).length := by
          simp
          try omega
        have hdec : decodeHex4 ((pre ++ [92, 117, 48, 48,
            hexDigitL (b / 16), hexDigitL (b % 16)]) ++
            (r.flatMap escByte ++ (34 :: rest))) (pre.length + 2) =
            some b := by
          have h3 : (pre ++ [92, 117, 48, 48, hexDigitL (b / 16),
              hexDigitL (b % 16)]) ++ (r.flatMap escByte ++ (34 :: rest)) =
              (pre ++ [92, 117]) ++ (48 :: 48 :: hexDigitL (b / 16) ::
                hexDigitL (b % 16) :: (r.flatMap escByte ++ (34 :: rest))) := by
            simp
          have h4 : pre.length + 2 = (pre ++ [92, 117]).length := by
            simp
            try omega
          rw [h3, h4, decodeHex4_shift]
          exact decodeHex4_lowpair b (by omega) _
        have hstep : unescStep ((pre ++ [92, 117, 48, 48,
            hexDigitL (b / 16), hexDigitL (b % 16)]) ++
            (r.flatMap escByte ++ (34 :: rest)))
            ((pre ++ [92, 117, 48, 48, hexDigitL (b / 16),
              hexDigitL (b % 16)]).length + (r.flatMap escByte).length)
            pre.length = .ok ([b], pre.length + 6) := by
          unfold unescStep
          rw [hg0, if_pos rfl, if_neg hne1, hg1,
            if_neg (by omega), if_neg (by omega), if_neg (by omega),
            if_neg (by omega), if_neg (by omega), if_neg (by omega),
            if_neg (by omega), if_pos rfl, if_neg hne5]
          simp only [hdec]
          rw [if_neg (by omega : ¬((0xD800 : Nat) ≤ b ∧ b ≤ 0xDBFF))]
          have henc : encodeUtf8 b = [b] := by
            unfold encodeUtf8
            rw [if_pos (by omega)]
          rw [henc, if_neg (by simp)]
        have hlt : pre.length <
            (pre ++ [92, 117, 48, 48, hexDigitL (b / 16),
              hexDigitL (b % 16)]).length + (r.flatMap escByte).length := by
          simp
          try omega
        rw [unescLoop_step _ _ _ _ acc [b] hlt hstep]
        have hp6 : pre.length + 6 = (pre ++ [92, 117, 48, 48,
            hexDigitL (b / 16), hexDigitL (b % 16)]).length := by
          simp
          try omega
        rw [hp6]
        simpa using hih (pre ++ [92, 117, 48, 48, hexDigitL (b / 16),
          hexDigitL (b % 16)])

/-- Taking past an append prefix. -/
theorem take_append_add (a t : List Nat) (j : Nat) :
    (a ++ t).take (a.length + j) = a ++ t.take j := by
  induction a with
  | nil => simp
  | cons x p ih =>
    simp only [List.cons_append, List.length_cons]
    rw [show p.length + 1 + j = (p.length + j) + 1 from by omega]
    simp [ih]

/-- `Tokenizer::read_string` applied to writer output: both the zero-copy
fast path and the escape-processing slow path return the token whose text
is the original content re-bracketed by quotes. -/
theorem readString_writeString (o : Nat) (str rest : List Nat)
    (hascii : ∀ b ∈ str, b < 128) :
    readString o (writeString str ++ rest) =
      .ok (⟨.string, 34 :: str ++ [34], o⟩,
        (str.flatMap escByte).length + 2) := by
  have hform : writeString str ++ rest =
      [34] ++ (str.flatMap escByte ++ (34 :: rest)) := by
    simp [writeString]
  have hscan := strScan_flatMap str [34] rest false hascii
  simp only [List.length_cons, List.length_nil, Nat.zero_add,
    Bool.false_or] at hscan
  rcases Bool.eq_false_or_eq_true (str.all plainB) with hall | hall
  · rw [hall] at hscan
    simp only [Bool.not_true] at hscan
    unfold readString
    rw [hform, hscan]
    have hE := flatMap_plain str hall
    show (Except.ok (Token.mk TokenType.string
        (List.take (1 + (str.flatMap escByte).length + 1)
          ([34] ++ (str.flatMap escByte ++ (34 :: rest)))) o,
        1 + (str.flatMap escByte).length + 1) : Except Error (Token × Nat)) =
      Except.ok (Token.mk TokenType.string (34 :: str ++ [34]) o,
        (str.flatMap escByte).length + 2)
    rw [hE]
    have htake : ([34] ++ (str ++ (34 :: rest))).take
        (1 + str.length + 1) = 34 :: str ++ [34] := by
      have h1 : ([34] ++ (str ++ (34 :: rest))).take (1 + str.length + 1) =
          (34 :: (str ++ (34 :: rest))).take (str.length + 2) := by
        rw [show 1 + str.length + 1 = str.length + 2 from by omega]
        rfl
      rw [h1, List.take_cons (by omega)]
      have h2 : (str ++ (34 :: rest)).take (str.length + 1) =
          str ++ (34 :: rest).take 1 := take_append_add str (34 :: rest) 1
      rw [show str.length + 2 - 1 = str.length + 1 from by omega, h2]
      simp
    rw [htake]
    have : 1 + str.length + 1 = str.length + 2 := by omega
    rw [this]
  · rw [hall] at hscan
    simp only [Bool.not_false] at hscan
    unfold readString
    rw [hform, hscan]
    have hun := unescLoop_flatMap str [34] rest [] hascii
    simp only [List.length_cons, List.length_nil, Nat.zero_add,
      List.nil_append] at hun
    show (match unescLoop ([34] ++ (str.flatMap escByte ++ (34 :: rest)))
        (1 + (str.flatMap escByte).length) 1 [] with
      | .error (c, j) => (.error ⟨c, o + j⟩ : Except Error (Token × Nat))
      | .ok content =>
        .ok (⟨.string, 34 :: content ++ [34], o⟩,
          1 + (str.flatMap escByte).length + 1)) = _
    rw [hun]
    have : 1 + (str.flatMap escByte).length + 1 =
        (str.flatMap escByte).length + 2 := by omega
    rw [this]

/-- `Tokenizer::next` applied to writer string output. -/
theorem nextTok_string (o : Nat) (str rest : List Nat)
    (hascii : ∀ b ∈ str, b < 128) :
    nextTok o (writeString str ++ rest) =
      .ok (⟨.string, 34 :: str ++ [34], o⟩,
        (str.flatMap escByte).length + 2) := by
  have hform : writeString str ++ rest =
      34 :: (str.flatMap escByte ++ (34 :: rest)) := by
    simp [writeString]
  have hrs := readString_writeString o str rest hascii
  rw [hform] at hrs ⊢
  have hws : wsCount (34 :: (str.flatMap escByte ++ (34 :: rest))) = 0 := by
    simp [wsCount, isWsB]
  simp only [nextTok, hws, List.drop_zero, List.head?,
    if_neg (by omega : ¬(34 : Nat) = 123),
    if_neg (by omega : ¬(34 : Nat) = 125),
    if_neg (by omega : ¬(34 : Nat) = 91),
    if_neg (by omega : ¬(34 : Nat) = 93),
    if_neg (by omega : ¬(34 : Nat) = 58),
    if_neg (by omega : ¬(34 : Nat) = 44), if_pos rfl, Nat.add_zero]
  rw [hrs]
  simp

/-- Dropping a whitespace prefix and one token chunk. -/
theorem drop_two (w c u : List Nat) :
    (w ++ (c ++ u)).drop (w.length + c.length) = u := by
  rw [show w ++ (c ++ u) = (w ++ c) ++ u from by simp,
    show w.length + c.length = (w ++ c).length from by simp]
  exact drop_len_append _ _

/-- Stripping the quotes the tokenizer brackets a string token with. -/
theorem stripQuotes_quotes (k : List Nat) :
    stripQuotes (34 :: k ++ [34]) = k := by
  unfold stripQuotes
  rw [if_pos (by simp)]
  simp

/-- Length of a serialized string. -/
theorem writeString_length (str : List Nat) :
    (writeString str).length = (str.flatMap escByte).length + 2 := by
  simp [writeString]

/-- Indentation consists of whitespace bytes. -/
theorem indentBytes_ws (isize ind : Nat) :
    ∀ b ∈ indentBytes isize ind, isWsB b = true := by
  intro b hb
  simp only [indentBytes, List.mem_replicate] at hb
  simp [hb.2, isWsB]

/-- Whitespace bytes concatenate. -/
theorem ws_append (w1 w2 : List Nat) (h1 : ∀ b ∈ w1, isWsB b = true)
    (h2 : ∀ b ∈ w2, isWsB b = true) :
    ∀ b ∈ w1 ++ w2, isWsB b = true := by
  intro b hb
  rcases List.mem_append.mp hb with h | h
  · exact h1 b h
  · exact h2 b h

/-- A successful `parse_value` call implies the lookahead token exists and
is a value-starting token. -/
theorem parseValueF_ok_nextTok (numP : List Nat → Option α) (f o : Nat)
    (s : List Nat) (d : Nat) (v : Node α) (s2 : List Nat) (o2 d2 : Nat)
    (h : parseValueF numP f o s d = .ok v s2 o2 d2) :
    ∃ tok c, nextTok o s = .ok (tok, c) ∧ tok.ttype ≠ .rightBracket ∧
      tok.ttype ≠ .rightBrace ∧ tok.ttype ≠ .comma ∧ tok.ttype ≠ .colon ∧
      tok.ttype ≠ .end_ := by
  cases f with
  | zero => rw [parseValueF] at h; cases h
  | succ f1 =>
    rw [parseValueF] at h
    cases hN : nextTok o s with
    | error e1 => simp only [hN] at h; cases h
    | ok pr =>
      obtain ⟨tok, c⟩ := pr
      simp only [hN] at h
      obtain ⟨tt, txt, off⟩ := tok
      refine ⟨⟨tt, txt, off⟩, c, rfl, ?_⟩
      cases tt <;> simp only at h
      case end_ | rightBrace | rightBracket | colon | comma => cases h
      case null_ | true_ | false_ | string | leftBracket | leftBrace =>
        simp
      case number =>
        simp

/-- Reparse induction predicate for `parse_value`: parsing serialized tree
`t` after any whitespace prefix, with a valid literal terminator following,
succeeds and consumes exactly the serialized bytes. -/
def PV (numP : List Nat → Option α) (numF : α → List Nat) (pretty : Bool)
    (isize F : Nat) : Prop :=
  ∀ t : Node α, asciiNd t = true →
    ∀ f o d w u ind, nfuel t ≤ f → f ≤ F →
      (∀ b ∈ w, isWsB b = true) → numTermB u = true →
      d + ndepth t ≤ MaxDepth →
      parseValueF numP f o
        (w ++ (writeNodeF numF pretty isize ind t ++ u)) d =
        .ok t u
          (o + (w.length + (writeNodeF numF pretty isize ind t).length)) d

/-- Reparse induction predicate for the array element loop. -/
def PE (numP : List Nat → Option α) (numF : α → List Nat) (pretty : Bool)
    (isize F : Nat) : Prop :=
  ∀ es : List (Node α), es ≠ [] → elAscii es = true →
    ∀ f o dL (acc : List (Node α)) w0 cw u ind, elFuel es ≤ f → f ≤ F →
      (∀ b ∈ w0, isWsB b = true) → (∀ b ∈ cw, isWsB b = true) →
      (pretty = false → cw = []) → numTermB u = true →
      dL + elDepth es ≤ MaxDepth →
      parseArrElemsF numP f o
        (w0 ++ (writeArrElemsF numF pretty isize ind es ++
          (cw ++ (93 :: u)))) dL acc =
        .ok (.arr (acc ++ es)) u
          (o + (w0.length + ((writeArrElemsF numF pretty isize ind es).length
            + (cw.length + 1)))) (dL - 1)

/-- Reparse induction predicate for the object member loop. -/
def PM (numP : List Nat → Option α) (numF : α → List Nat) (pretty : Bool)
    (isize F : Nat) : Prop :=
  ∀ ms : List (List Nat × Node α), ms ≠ [] → memAscii ms = true →
    ∀ f o dL (acc : List (List Nat × Node α)) w0 cw u ind,
      memFuel ms ≤ f → f ≤ F →
      (∀ b ∈ w0, isWsB b = true) → (∀ b ∈ cw, isWsB b = true) →
      (pretty = false → cw = []) → numTermB u = true →
      dL + memDepth ms ≤ MaxDepth →
      parseObjMembersF numP f o
        (w0 ++ (writeObjMembersF numF pretty isize ind ms ++
          (cw ++ (125 :: u)))) dL acc =
        .ok (.obj (acc ++ ms)) u
          (o + (w0.length +
            ((writeObjMembersF numF pretty isize ind ms).length
              + (cw.length + 1)))) (dL - 1)

/-- The first token of serialized node output (after a whitespace prefix)
exists and is never a closing bracket. -/
theorem writeNode_firstTok (numF : α → List Nat) (pretty : Bool)
    (isize : Nat)
    (hlit : ∀ x u, numTermB u = true →
      readNumber (numF x ++ u) = some (numF x).length)
    (hhead : ∀ x, numHeadOk (numF x) = true)
    (t : Node α) (hA : asciiNd t = true) (o ind : Nat) (w u : List Nat)
    (hw : ∀ b ∈ w, isWsB b = true) (hu : numTermB u = true) :
    ∃ tok c, nextTok o (w ++ (writeNodeF numF pretty isize ind t ++ u)) =
      .ok (tok, c) ∧ tok.ttype ≠ .rightBracket := by
  rw [nextTok_ws o w _ hw]
  cases t with
  | null =>
    simp only [writeNodeF, List.cons_append, List.nil_append]
    rw [nextTok_null]
    exact ⟨_, _, rfl, by simp⟩
  | bool b =>
    cases b
    · simp only [writeNodeF, List.cons_append, List.nil_append]
      rw [nextTok_false]
      exact ⟨_, _, rfl, by simp⟩
    · simp only [writeNodeF, List.cons_append, List.nil_append]
      rw [nextTok_true]
      exact ⟨_, _, rfl, by simp⟩
  | num x =>
    cases hh : (numF x).head? with
    | none =>
      exfalso
      have := hhead x
      simp [numHeadOk, hh] at this
    | some b =>
      have hok : b = 45 ∨ isDigitB b = true := by
        have := hhead x
        simp only [numHeadOk, hh, Bool.or_eq_true, decide_eq_true_eq]
          at this
        exact this
      simp only [writeNodeF]
      rw [nextTok_number (o + w.length) (numF x) u b hh hok (hlit x u hu)]
      exact ⟨_, _, rfl, by simp⟩
  | str s0 =>
    have hascii : ∀ b ∈ s0, b < 128 := by
      have := hA
      simp only [asciiNd, List.all_eq_true, decide_eq_true_eq] at this
      exact this
    simp only [writeNodeF]
    rw [show writeString s0 ++ u = writeString s0 ++ u from rfl]
    rw [nextTok_string (o + w.length) s0 u hascii]
    exact ⟨_, _, rfl, by simp⟩
  | arr es =>
    simp only [writeNodeF, List.cons_append, List.nil_append,
      List.append_assoc]
    rw [nextTok_lbracket]
    exact ⟨_, _, rfl, by simp⟩
  | obj ms =>
    simp only [writeNodeF, List.cons_append, List.nil_append,
      List.append_assoc]
    rw [nextTok_lbrace]
    exact ⟨_, _, rfl, by simp⟩

theorem nfuel_pos (t : Node α) : 1 ≤ nfuel t := by
  cases t <;> simp [nfuel]

theorem reparseValueAux (numP : List Nat → Option α) (numF : α → List Nat)
    (pretty : Bool) (isize F : Nat)
    (hrt : ∀ x, numP (numF x) = some x)
    (hlit : ∀ x u, numTermB u = true →
      readNumber (numF x ++ u) = some (numF x).length)
    (hhead : ∀ x, numHeadOk (numF x) = true)
    (hE : PE numP numF pretty isize F) (hM : PM numP numF pretty isize F) :
    PV numP numF pretty isize (F + 1) := by
  intro t hA f o d w u ind hnf hfF hw hu hd
  cases f with
  | zero => exfalso; have := nfuel_pos t; omega
  | succ f1 =>
  cases t with
  | null =>
    have htok : nextTok o
        (w ++ (writeNodeF numF pretty isize ind (Node.null (α := α)) ++ u)) =
        .ok (⟨.null_, [110, 117, 108, 108], o + w.length⟩, w.length + 4) := by
      rw [nextTok_ws o w _ hw]
      simp only [writeNodeF, List.cons_append, List.nil_append]
      rw [nextTok_null]
    rw [parseValueF]
    simp only [htok]
    have hdrop : (w ++ (writeNodeF numF pretty isize ind
        (Node.null (α := α)) ++ u)).drop (w.length + 4) = u := by
      simp only [writeNodeF]
      exact drop_two w [110, 117, 108, 108] u
    rw [hdrop]
    have hlen : (writeNodeF numF pretty isize ind
        (Node.null (α := α))).length = 4 := by simp [writeNodeF]
    rw [hlen]
  | bool b =>
    cases b
    · have htok : nextTok o (w ++ (writeNodeF numF pretty isize ind
          (Node.bool (α := α) false) ++ u)) =
          .ok (⟨.false_, [102, 97, 108, 115, 101], o + w.length⟩,
            w.length + 5) := by
        rw [nextTok_ws o w _ hw]
        simp only [writeNodeF, List.cons_append, List.nil_append]
        rw [nextTok_false]
      rw [parseValueF]
      simp only [htok]
      have hdrop : (w ++ (writeNodeF numF pretty isize ind
          (Node.bool (α := α) false) ++ u)).drop (w.length + 5) = u := by
        simp only [writeNodeF]
        exact drop_two w [102, 97, 108, 115, 101] u
      rw [hdrop]
      have hlen : (writeNodeF numF pretty isize ind
          (Node.bool (α := α) false)).length = 5 := by simp [writeNodeF]
      rw [hlen]
    · have htok : nextTok o (w ++ (writeNodeF numF pretty isize ind
          (Node.bool (α := α) true) ++ u)) =
          .ok (⟨.true_, [116, 114, 117, 101], o + w.length⟩,
            w.length + 4) := by
        rw [nextTok_ws o w _ hw]
        simp only [writeNodeF, List.cons_append, List.nil_append]
        rw [nextTok_true]
      rw [parseValueF]
      simp only [htok]
      have hdrop : (w ++ (writeNodeF numF pretty isize ind
          (Node.bool (α := α) true) ++ u)).drop (w.length + 4) = u := by
        simp only [writeNodeF]
        exact drop_two w [116, 114, 117, 101] u
      rw [hdrop]
      have hlen : (writeNodeF numF pretty isize ind
          (Node.bool (α := α) true)).length = 4 := by simp [writeNodeF]
      rw [hlen]
  | num x =>
    cases hh : (numF x).head? with
    | none =>
      exfalso
      have := hhead x
      simp [numHeadOk, hh] at this
    | some b =>
      have hok : b = 45 ∨ isDigitB b = true := by
        have := hhead x
        simp only [numHeadOk, hh, Bool.or_eq_true, decide_eq_true_eq] at this
        exact this
      have htok : nextTok o (w ++ (writeNodeF numF pretty isize ind
          (Node.num x) ++ u)) =
          .ok (⟨.number, numF x, o + w.length⟩,
            w.length + (numF x).length) := by
        rw [nextTok_ws o w _ hw]
        simp only [writeNodeF]
        rw [nextTok_number (o + w.length) (numF x) u b hh hok
          (hlit x u hu)]
      rw [parseValueF]
      simp only [htok, hrt x]
      have hdrop : (w ++ (writeNodeF numF pretty isize ind
          (Node.num x) ++ u)).drop (w.length + (numF x).length) = u := by
        simp only [writeNodeF]
        exact drop_two w (numF x) u
      rw [hdrop]
      have hlen : (writeNodeF numF pretty isize ind (Node.num x)).length =
          (numF x).length := by simp [writeNodeF]
      rw [hlen]
  | str s0 =>
    have hascii : ∀ c ∈ s0, c < 128 := by
      have := hA
      simp only [asciiNd, List.all_eq_true, decide_eq_true_eq] at this
      exact this
    have htok : nextTok o (w ++ (writeNodeF numF pretty isize ind
        (Node.str (α := α) s0) ++ u)) =
        .ok (⟨.string, 34 :: s0 ++ [34], o + w.length⟩,
          w.length + ((s0.flatMap escByte).length + 2)) := by
      rw [nextTok_ws o w _ hw]
      simp only [writeNodeF]
      rw [nextTok_string (o + w.length) s0 u hascii]
    rw [parseValueF]
    simp only [htok]
    have hdrop : (w ++ (writeNodeF numF pretty isize ind
        (Node.str (α := α) s0) ++ u)).drop
        (w.length + ((s0.flatMap escByte).length + 2)) = u := by
      simp only [writeNodeF]
      have h2 : (s0.flatMap escByte).length + 2 =
          (writeString s0).length := by
        rw [writeString_length]
      rw [h2]
      exact drop_two w (writeString s0) u
    rw [hdrop, stripQuotes_quotes]
    have hlen : (writeNodeF numF pretty isize ind
        (Node.str (α := α) s0)).length =
        (s0.flatMap escByte).length + 2 := by
      simp [writeNodeF, writeString_length]
    rw [hlen]
  | arr es =>
    have hd2 : d + 1 + elDepth es ≤ MaxDepth := by
      simp only [ndepth] at hd
      omega
    cases es with
    | nil =>
      have hch : writeNodeF numF pretty isize ind (Node.arr (α := α) []) =
          [91, 93] := by
        simp [writeNodeF, writeArrElemsF]
      rw [hch]
      have htok : nextTok o (w ++ ([91, 93] ++ u)) =
          .ok (⟨.leftBracket, [91], o + w.length⟩, w.length + 1) := by
        rw [nextTok_ws o w _ hw]
        rw [show ([91, 93] : List Nat) ++ u = 91 :: (93 :: u) from rfl]
        rw [nextTok_lbracket]
      rw [parseValueF]
      simp only [htok]
      rw [parseArrayF, if_neg (by omega : ¬ d + 1 > MaxDepth)]
      have hexp : expectTok .leftBracket o (w ++ ([91, 93] ++ u)) =
          .ok (⟨.leftBracket, [91], o + w.length⟩,
            (w ++ ([91, 93] ++ u)).drop (w.length + 1),
            o + (w.length + 1)) := by
        unfold expectTok
        rw [htok]
        simp
      simp only [hexp]
      have hdrop : (w ++ ([91, 93] ++ u)).drop (w.length + 1) = 93 :: u :=
        drop_two w [91] (93 :: u)
      rw [hdrop, nextTok_rbracket]
      simp
      omega
    | cons e0 r =>
      have hA0 : asciiNd e0 = true := by
        simp only [asciiNd, elAscii, Bool.and_eq_true] at hA
        exact hA.1
      have hAes : elAscii (e0 :: r) = true := by
        simp only [asciiNd] at hA
        exact hA
      have hch : writeNodeF numF pretty isize ind (Node.arr (e0 :: r)) =
          [91] ++ ((if pretty = true then [10] else []) ++
            (writeArrElemsF numF pretty isize (ind + 1) (e0 :: r) ++
              ((if pretty = true then indentBytes isize ind else []) ++
                [93]))) := by
        simp [writeNodeF]
      rw [hch]
      have htok : nextTok o (w ++ (([91] ++
          ((if pretty = true then [10] else []) ++
            (writeArrElemsF numF pretty isize (ind + 1) (e0 :: r) ++
              ((if pretty = true then indentBytes isize ind else []) ++
                [93])))) ++ u)) =
          .ok (⟨.leftBracket, [91], o + w.length⟩, w.length + 1) := by
        rw [nextTok_ws o w _ hw]
        rw [show ([91] ++ ((if pretty = true then [10] else []) ++
            (writeArrElemsF numF pretty isize (ind + 1) (e0 :: r) ++
              ((if pretty = true then indentBytes isize ind else []) ++
                [93])))) ++ u =
            91 :: (((if pretty = true then [10] else []) ++
            (writeArrElemsF numF pretty isize (ind + 1) (e0 :: r) ++
              ((if pretty = true then indentBytes isize ind else []) ++
                [93]))) ++ u) from by simp]
        rw [nextTok_lbracket]
      rw [parseValueF]
      simp only [htok]
      rw [parseArrayF, if_neg (by omega : ¬ d + 1 > MaxDepth)]
      have hexp : expectTok .leftBracket o (w ++ (([91] ++
          ((if pretty = true then [10] else []) ++
            (writeArrElemsF numF pretty isize (ind + 1) (e0 :: r) ++
              ((if pretty = true then indentBytes isize ind else []) ++
                [93])))) ++ u)) =
          .ok (⟨.leftBracket, [91], o + w.length⟩,
            (w ++ (([91] ++ ((if pretty = true then [10] else []) ++
              (writeArrElemsF numF pretty isize (ind + 1) (e0 :: r) ++
                ((if pretty = true then indentBytes isize ind else []) ++
                  [93])))) ++ u)).drop (w.length + 1),
            o + (w.length + 1)) := by
        unfold expectTok
        rw [htok]
        simp
      simp only [hexp]
      have hdrop : (w ++ (([91] ++ ((if pretty = true then [10] else []) ++
          (writeArrElemsF numF pretty isize (ind + 1) (e0 :: r) ++
            ((if pretty = true then indentBytes isize ind else []) ++
              [93])))) ++ u)).drop (w.length + 1) =
          (if pretty = true then [10] else []) ++
            (writeArrElemsF numF pretty isize (ind + 1) (e0 :: r) ++
              ((if pretty = true then indentBytes isize ind else []) ++
                (93 :: u))) := by
        have h0 : (w ++ ([91] ++ ((((if pretty = true then [10] else []) ++
            (writeArrElemsF numF pretty isize (ind + 1) (e0 :: r) ++
              ((if pretty = true then indentBytes isize ind else []) ++
                [93])))) ++ u))).drop (w.length + 1) =
            (((if pretty = true then [10] else []) ++
            (writeArrElemsF numF pretty isize (ind + 1) (e0 :: r) ++
              ((if pretty = true then indentBytes isize ind else []) ++
                [93]))) ++ u) :=
          drop_two w [91]
            ((((if pretty = true then [10] else []) ++
              (writeArrElemsF numF pretty isize (ind + 1) (e0 :: r) ++
                ((if pretty = true then indentBytes isize ind else []) ++
                  [93])))) ++ u)
        rw [show (w ++ (([91] ++ ((if pretty = true then [10] else []) ++
            (writeArrElemsF numF pretty isize (ind + 1) (e0 :: r) ++
              ((if pretty = true then indentBytes isize ind else []) ++
                [93])))) ++ u)) =
            (w ++ ([91] ++ ((((if pretty = true then [10] else []) ++
            (writeArrElemsF numF pretty isize (ind + 1) (e0 :: r) ++
              ((if pretty = true then indentBytes isize ind else []) ++
                [93])))) ++ u))) from by simp]
        rw [h0]
        simp
      rw [hdrop]
      have hws10 : ∀ b ∈ (if pretty = true then [10] else ([] : List Nat)),
          isWsB b = true := by
        intro b hb
        rcases Bool.eq_false_or_eq_true pretty with hp | hp <;>
          simp [hp] at hb
        simp [hb, isWsB]
      have hwsC : ∀ b ∈ (if pretty = true then indentBytes isize ind
          else ([] : List Nat)), isWsB b = true := by
        intro b hb
        rcases Bool.eq_false_or_eq_true pretty with hp | hp <;>
          simp [hp] at hb
        exact indentBytes_ws isize ind b hb
      have hshape : ∃ w1 u1, (if pretty = true then [10] else []) ++
          (writeArrElemsF numF pretty isize (ind + 1) (e0 :: r) ++
            ((if pretty = true then indentBytes isize ind else []) ++
              (93 :: u))) =
          w1 ++ (writeNodeF numF pretty isize (ind + 1) e0 ++ u1) ∧
          (∀ b ∈ w1, isWsB b = true) ∧ numTermB u1 = true := by
        cases r with
        | nil =>
          refine ⟨(if pretty = true then [10] else []) ++
            (if pretty = true then indentBytes isize (ind + 1) else []),
            (if pretty = true then [10] else []) ++
              ((if pretty = true then indentBytes isize ind else []) ++
                (93 :: u)), ?_, ?_, ?_⟩
          · simp [writeArrElemsF]
          · exact ws_append _ _ hws10 (by
              intro b hb
              rcases Bool.eq_false_or_eq_true pretty with hp | hp <;>
                simp [hp] at hb
              exact indentBytes_ws isize (ind + 1) b hb)
          · rcases Bool.eq_false_or_eq_true pretty with hp | hp <;>
              simp [hp, numTermB]
        | cons e1 r1 =>
          refine ⟨(if pretty = true then [10] else []) ++
            (if pretty = true then indentBytes isize (ind + 1) else []),
            [44] ++ ((if pretty = true then [10] else []) ++
              (writeArrElemsF numF pretty isize (ind + 1) (e1 :: r1) ++
                ((if pretty = true then indentBytes isize ind else []) ++
                  (93 :: u)))), ?_, ?_, ?_⟩
          · simp [writeArrElemsF]
          · exact ws_append _ _ hws10 (by
              intro b hb
              rcases Bool.eq_false_or_eq_true pretty with hp | hp <;>
                simp [hp] at hb
              exact indentBytes_ws isize (ind + 1) b hb)
          · simp [numTermB]
      obtain ⟨w1, u1, hsh, hw1, hu1⟩ := hshape
      rw [hsh]
      obtain ⟨tok, c, hpk, hnrb⟩ := writeNode_firstTok numF pretty isize
        hlit hhead e0 hA0 (o + (w.length + 1)) (ind + 1) w1 u1 hw1 hu1
      simp only [hpk]
      rw [if_neg hnrb, ← hsh]
      have hloop := hE (e0 :: r) (by simp) hAes f1 (o + (w.length + 1))
        (d + 1) [] (if pretty = true then [10] else [])
        (if pretty = true then indentBytes isize ind else []) u (ind + 1)
        (by
          simp only [nfuel] at hnf
          omega)
        (by omega) hws10 hwsC
        (by intro hp; simp [hp]) hu hd2
      rw [hloop]
      simp [List.length_append]
      all_goals omega
  | obj ms =>
    have hd2 : d + 1 + memDepth ms ≤ MaxDepth := by
      simp only [ndepth] at hd
      omega
    cases ms with
    | nil =>
      have hch : writeNodeF numF pretty isize ind (Node.obj (α := α) []) =
          [123, 125] := by
        simp [writeNodeF, writeObjMembersF]
      rw [hch]
      have htok : nextTok o (w ++ ([123, 125] ++ u)) =
          .ok (⟨.leftBrace, [123], o + w.length⟩, w.length + 1) := by
        rw [nextTok_ws o w _ hw]
        rw [show ([123, 125] : List Nat) ++ u = 123 :: (125 :: u) from rfl]
        rw [nextTok_lbrace]
      rw [parseValueF]
      simp only [htok]
      rw [parseObjectF, if_neg (by omega : ¬ d + 1 > MaxDepth)]
      have hexp : expectTok .leftBrace o (w ++ ([123, 125] ++ u)) =
          .ok (⟨.leftBrace, [123], o + w.length⟩,
            (w ++ ([123, 125] ++ u)).drop (w.length + 1),
            o + (w.length + 1)) := by
        unfold expectTok
        rw [htok]
        simp
      simp only [hexp]
      have hdrop : (w ++ ([123, 125] ++ u)).drop (w.length + 1) =
          125 :: u := drop_two w [123] (125 :: u)
      rw [hdrop, nextTok_rbrace]
      simp
      omega
    | cons m0 r =>
      obtain ⟨k0, v0⟩ := m0
      have hAk : ∀ c ∈ k0, c < 128 := by
        simp only [asciiNd, memAscii, Bool.and_eq_true, List.all_eq_true,
          decide_eq_true_eq] at hA
        exact hA.1.1
      have hAms : memAscii ((k0, v0) :: r) = true := by
        simp only [asciiNd] at hA
        exact hA
      have hch : writeNodeF numF pretty isize ind
          (Node.obj ((k0, v0) :: r)) =
          [123] ++ ((if pretty = true then [10] else []) ++
            (writeObjMembersF numF pretty isize (ind + 1) ((k0, v0) :: r) ++
              ((if pretty = true then indentBytes isize ind else []) ++
                [125]))) := by
        simp [writeNodeF]
      rw [hch]
      have htok : nextTok o (w ++ (([123] ++
          ((if pretty = true then [10] else []) ++
            (writeObjMembersF numF pretty isize (ind + 1) ((k0, v0) :: r) ++
              ((if pretty = true then indentBytes isize ind else []) ++
                [125])))) ++ u)) =
          .ok (⟨.leftBrace, [123], o + w.length⟩, w.length + 1) := by
        rw [nextTok_ws o w _ hw]
        rw [show ([123] ++ ((if pretty = true then [10] else []) ++
            (writeObjMembersF numF pretty isize (ind + 1) ((k0, v0) :: r) ++
              ((if pretty = true then indentBytes isize ind else []) ++
                [125])))) ++ u =
            123 :: (((if pretty = true then [10] else []) ++
            (writeObjMembersF numF pretty isize (ind + 1) ((k0, v0) :: r) ++
              ((if pretty = true then indentBytes isize ind else []) ++
                [125]))) ++ u) from by simp]
        rw [nextTok_lbrace]
      rw [parseValueF]
      simp only [htok]
      rw [parseObjectF, if_neg (by omega : ¬ d + 1 > MaxDepth)]
      have hexp : expectTok .leftBrace o (w ++ (([123] ++
          ((if pretty = true then [10] else []) ++
            (writeObjMembersF numF pretty isize (ind + 1) ((k0, v0) :: r) ++
              ((if pretty = true then indentBytes isize ind else []) ++
                [125])))) ++ u)) =
          .ok (⟨.leftBrace, [123], o + w.length⟩,
            (w ++ (([123] ++ ((if pretty = true then [10] else []) ++
              (writeObjMembersF numF pretty isize (ind + 1)
                ((k0, v0) :: r) ++
                ((if pretty = true then indentBytes isize ind else []) ++
                  [125])))) ++ u)).drop (w.length + 1),
            o + (w.length + 1)) := by
        unfold expectTok
        rw [htok]
        simp
      simp only [hexp]
      have hdrop : (w ++ (([123] ++
          ((if pretty = true then [10] else []) ++
          (writeObjMembersF numF pretty isize (ind + 1) ((k0, v0) :: r) ++
            ((if pretty = true then indentBytes isize ind else []) ++
              [125])))) ++ u)).drop (w.length + 1) =
          (if pretty = true then [10] else []) ++
            (writeObjMembersF numF pretty isize (ind + 1) ((k0, v0) :: r) ++
              ((if pretty = true then indentBytes isize ind else []) ++
                (125 :: u))) := by
        have h0 : (w ++ ([123] ++
            ((((if pretty = true then [10] else []) ++
            (writeObjMembersF numF pretty isize (ind + 1)
              ((k0, v0) :: r) ++
              ((if pretty = true then indentBytes isize ind else []) ++
                [125])))) ++ u))).drop (w.length + 1) =
            (((if pretty = true then [10] else []) ++
            (writeObjMembersF numF pretty isize (ind + 1)
              ((k0, v0) :: r) ++
              ((if pretty = true then indentBytes isize ind else []) ++
                [125]))) ++ u) :=
          drop_two w [123]
            ((((if pretty = true then [10] else []) ++
              (writeObjMembersF numF pretty isize (ind + 1)
                ((k0, v0) :: r) ++
                ((if pretty = true then indentBytes isize ind else []) ++
                  [125])))) ++ u)
        rw [show (w ++ (([123] ++ ((if pretty = true then [10] else []) ++
            (writeObjMembersF numF pretty isize (ind + 1)
              ((k0, v0) :: r) ++
              ((if pretty = true then indentBytes isize ind else []) ++
                [125])))) ++ u)) =
            (w ++ ([123] ++ ((((if pretty = true then [10] else []) ++
            (writeObjMembersF numF pretty isize (ind + 1)
              ((k0, v0) :: r) ++
              ((if pretty = true then indentBytes isize ind else []) ++
                [125])))) ++ u))) from by simp]
        rw [h0]
        simp
      rw [hdrop]
      have hws10 : ∀ b ∈ (if pretty = true then [10] else ([] : List Nat)),
          isWsB b = true := by
        intro b hb
        rcases Bool.eq_false_or_eq_true pretty with hp | hp <;>
          simp [hp] at hb
        simp [hb, isWsB]
      have hwsC : ∀ b ∈ (if pretty = true then indentBytes isize ind
          else ([] : List Nat)), isWsB b = true := by
        intro b hb
        rcases Bool.eq_false_or_eq_true pretty with hp | hp <;>
          simp [hp] at hb
        exact indentBytes_ws isize ind b hb
      have hshape : ∃ u1, (if pretty = true then [10] else []) ++
          (writeObjMembersF numF pretty isize (ind + 1) ((k0, v0) :: r) ++
            ((if pretty = true then indentBytes isize ind else []) ++
              (125 :: u))) =
          ((if pretty = true then [10] else []) ++
            (if pretty = true then indentBytes isize (ind + 1) else [])) ++
            (writeString k0 ++ u1) := by
        cases r with
        | nil =>
          exact ⟨(if pretty = true then [58, 32] else [58]) ++
            (writeNodeF numF pretty isize (ind + 1) v0 ++
              ((if pretty = true then [10] else []) ++
                ((if pretty = true then indentBytes isize ind else []) ++
                  125 :: u))), by simp [writeObjMembersF]⟩
        | cons m1 r1 =>
          obtain ⟨k1, v1⟩ := m1
          exact ⟨(if pretty = true then [58, 32] else [58]) ++
            (writeNodeF numF pretty isize (ind + 1) v0 ++
              ([44] ++ ((if pretty = true then [10] else []) ++
                (writeObjMembersF numF pretty isize (ind + 1)
                  ((k1, v1) :: r1) ++
                  ((if pretty = true then indentBytes isize ind else []) ++
                    125 :: u))))), by simp [writeObjMembersF]⟩
      obtain ⟨u1, hsh⟩ := hshape
      rw [hsh]
      have hw1 : ∀ b ∈ ((if pretty = true then [10] else ([] : List Nat)) ++
          (if pretty = true then indentBytes isize (ind + 1)
            else ([] : List Nat))), isWsB b = true := by
        refine ws_append _ _ hws10 ?_
        intro b hb
        rcases Bool.eq_false_or_eq_true pretty with hp | hp <;>
          simp [hp] at hb
        exact indentBytes_ws isize (ind + 1) b hb
      have hpk : nextTok (o + (w.length + 1))
          (((if pretty = true then [10] else []) ++
            (if pretty = true then indentBytes isize (ind + 1) else [])) ++
            (writeString k0 ++ u1)) =
          .ok (⟨.string, 34 :: k0 ++ [34],
            o + (w.length + 1) +
              ((if pretty = true then [10] else ([] : List Nat)) ++
                (if pretty = true then indentBytes isize (ind + 1)
                  else ([] : List Nat))).length⟩,
            ((if pretty = true then [10] else ([] : List Nat)) ++
              (if pretty = true then indentBytes isize (ind + 1)
                else ([] : List Nat))).length +
              ((k0.flatMap escByte).length + 2)) := by
        rw [nextTok_ws _ _ _ hw1, nextTok_string _ _ _ hAk]
      simp only [hpk]
      rw [if_neg (by simp), ← hsh]
      have hloop := hM ((k0, v0) :: r) (by simp) hAms f1
        (o + (w.length + 1)) (d + 1) []
        (if pretty = true then [10] else [])
        (if pretty = true then indentBytes isize ind else []) u (ind + 1)
        (by
          simp only [nfuel] at hnf
          omega)
        (by omega) hws10 hwsC
        (by intro hp; simp [hp]) hu hd2
      rw [hloop]
      simp [List.length_append]
      all_goals omega

theorem reparseElemsAux (numP : List Nat → Option α) (numF : α → List Nat)
    (pretty : Bool) (isize F : Nat)
    (hV : PV numP numF pretty isize F) (hE : PE numP numF pretty isize F) :
    PE numP numF pretty isize (F + 1) := by
  intro es hne hA f o dL acc w0 cw u ind hfe hfF hw0 hcw hpc hu hdep
  cases es with
  | nil => exact absurd rfl hne
  | cons e0 r =>
  cases f with
  | zero =>
    exfalso
    have := nfuel_pos e0
    simp only [elFuel] at hfe
    omega
  | succ f1 =>
  have hA0 : asciiNd e0 = true := by
    simp only [elAscii, Bool.and_eq_true] at hA
    exact hA.1
  have hwsE : ∀ b ∈ (if pretty = true then indentBytes isize ind
      else ([] : List Nat)), isWsB b = true := by
    intro b hb
    rcases Bool.eq_false_or_eq_true pretty with hp | hp <;> simp [hp] at hb
    exact indentBytes_ws isize ind b hb
  have hws10 : ∀ b ∈ (if pretty = true then [10] else ([] : List Nat)),
      isWsB b = true := by
    intro b hb
    rcases Bool.eq_false_or_eq_true pretty with hp | hp <;> simp [hp] at hb
    simp [hb, isWsB]
  rw [parseArrElemsF]
  cases r with
  | nil =>
    have hsh : w0 ++ (writeArrElemsF numF pretty isize ind [e0] ++
        (cw ++ (93 :: u))) =
        (w0 ++ (if pretty = true then indentBytes isize ind else [])) ++
          (writeNodeF numF pretty isize ind e0 ++
            ((if pretty = true then [10] else []) ++ (cw ++ (93 :: u)))) := by
      simp [writeArrElemsF]
    have hu1 : numTermB ((if pretty = true then [10] else []) ++
        (cw ++ (93 :: u))) = true := by
      rcases Bool.eq_false_or_eq_true pretty with hp | hp
      · simp [hp, numTermB]
      · rw [hpc hp]
        simp [hp, numTermB]
    have hdep0 : dL + ndepth e0 ≤ MaxDepth := by
      have hmx := Nat.le_max_left (ndepth e0) (elDepth ([] : List (Node α)))
      simp only [elDepth] at hdep
      omega
    have hval := hV e0 hA0 f1 o dL
      (w0 ++ (if pretty = true then indentBytes isize ind else []))
      ((if pretty = true then [10] else []) ++ (cw ++ (93 :: u))) ind
      (by
        have := nfuel_pos e0
        simp only [elFuel] at hfe
        omega)
      (by omega)
      (ws_append _ _ hw0 hwsE) hu1 hdep0
    rw [hsh]
    simp only [hval]
    have hpk : nextTok
        (o + ((w0 ++ (if pretty = true then indentBytes isize ind
          else [])).length +
          (writeNodeF numF pretty isize ind e0).length))
        ((if pretty = true then [10] else []) ++ (cw ++ (93 :: u))) =
        .ok (⟨.rightBracket, [93],
          o + ((w0 ++ (if pretty = true then indentBytes isize ind
            else [])).length +
            (writeNodeF numF pretty isize ind e0).length) +
            ((if pretty = true then [10] else ([] : List Nat)) ++
              cw).length⟩,
          ((if pretty = true then [10] else ([] : List Nat)) ++ cw).length +
            1) := by
      rw [show (if pretty = true then [10] else []) ++ (cw ++ (93 :: u)) =
          ((if pretty = true then [10] else []) ++ cw) ++ (93 :: u) from
          by simp]
      rw [nextTok_ws _ _ _ (ws_append _ _ hws10 hcw), nextTok_rbracket]
    simp only [hpk]
    have hdropF : (((if pretty = true then [10] else ([] : List Nat)) ++
        (cw ++ (93 :: u)))).drop
        (((if pretty = true then [10] else ([] : List Nat)) ++ cw).length +
          1) = u := by
      rw [show (if pretty = true then [10] else ([] : List Nat)) ++
          (cw ++ (93 :: u)) =
          ((if pretty = true then [10] else []) ++ cw) ++ ([93] ++ u) from
          by simp]
      exact drop_two _ [93] u
    rw [hdropF]
    simp [writeArrElemsF, List.length_append]
    all_goals omega
  | cons e1 r1 =>
    have hAr : elAscii (e1 :: r1) = true := by
      simp only [elAscii, Bool.and_eq_true] at hA
      simp only [elAscii, Bool.and_eq_true]
      exact hA.2
    have hsh : w0 ++ (writeArrElemsF numF pretty isize ind
        (e0 :: e1 :: r1) ++ (cw ++ (93 :: u))) =
        (w0 ++ (if pretty = true then indentBytes isize ind else [])) ++
          (writeNodeF numF pretty isize ind e0 ++
            ([44] ++ ((if pretty = true then [10] else []) ++
              (writeArrElemsF numF pretty isize ind (e1 :: r1) ++
                (cw ++ (93 :: u)))))) := by
      simp [writeArrElemsF]
    have hdep0 : dL + ndepth e0 ≤ MaxDepth := by
      have hmx := Nat.le_max_left (ndepth e0) (elDepth (e1 :: r1))
      simp only [elDepth] at hdep
      omega
    have hval := hV e0 hA0 f1 o dL
      (w0 ++ (if pretty = true then indentBytes isize ind else []))
      ([44] ++ ((if pretty = true then [10] else []) ++
        (writeArrElemsF numF pretty isize ind (e1 :: r1) ++
          (cw ++ (93 :: u))))) ind
      (by
        have := nfuel_pos e0
        simp only [elFuel] at hfe
        omega)
      (by omega)
      (ws_append _ _ hw0 hwsE) (by simp [numTermB]) hdep0
    rw [hsh]
    simp only [hval]
    have hpk : nextTok
        (o + ((w0 ++ (if pretty = true then indentBytes isize ind
          else [])).length +
          (writeNodeF numF pretty isize ind e0).length))
        ([44] ++ ((if pretty = true then [10] else []) ++
          (writeArrElemsF numF pretty isize ind (e1 :: r1) ++
            (cw ++ (93 :: u))))) =
        .ok (⟨.comma, [44],
          o + ((w0 ++ (if pretty = true then indentBytes isize ind
            else [])).length +
            (writeNodeF numF pretty isize ind e0).length)⟩, 1) := by
      rw [show ([44] : List Nat) ++ ((if pretty = true then [10] else []) ++
          (writeArrElemsF numF pretty isize ind (e1 :: r1) ++
            (cw ++ (93 :: u)))) =
          44 :: ((if pretty = true then [10] else []) ++
          (writeArrElemsF numF pretty isize ind (e1 :: r1) ++
            (cw ++ (93 :: u)))) from rfl]
      rw [nextTok_comma]
    simp only [hpk]
    have hdropC : (([44] : List Nat) ++
        ((if pretty = true then [10] else []) ++
          (writeArrElemsF numF pretty isize ind (e1 :: r1) ++
            (cw ++ (93 :: u))))).drop 1 =
        (if pretty = true then [10] else []) ++
          (writeArrElemsF numF pretty isize ind (e1 :: r1) ++
            (cw ++ (93 :: u))) := by
      rfl
    rw [hdropC]
    have hrec := hE (e1 :: r1) (by simp) hAr f1
      (o + ((w0 ++ (if pretty = true then indentBytes isize ind
        else [])).length +
        (writeNodeF numF pretty isize ind e0).length) + 1) dL
      (acc ++ [e0]) (if pretty = true then [10] else []) cw u ind
      (by
        simp only [elFuel] at hfe ⊢
        omega)
      (by omega) hws10 hcw hpc hu
      (by
        have hmx := Nat.le_max_right (ndepth e0) (elDepth (e1 :: r1))
        rw [show elDepth (e0 :: e1 :: r1) =
          max (ndepth e0) (elDepth (e1 :: r1)) from rfl] at hdep
        omega)
    rw [hrec]
    simp [writeArrElemsF, List.length_append]
    all_goals omega

theorem reparseMemsAux (numP : List Nat → Option α) (numF : α → List Nat)
    (pretty : Bool) (isize F : Nat)
    (hV : PV numP numF pretty isize F) (hM : PM numP numF pretty isize F) :
    PM numP numF pretty isize (F + 1) := by
  intro ms hne hA f o dL acc w0 cw u ind hfe hfF hw0 hcw hpc hu hdep
  cases ms with
  | nil => exact absurd rfl hne
  | cons m0 r =>
  obtain ⟨k0, v0⟩ := m0
  cases f with
  | zero =>
    exfalso
    have := nfuel_pos v0
    simp only [memFuel] at hfe
    omega
  | succ f1 =>
  have hAk : ∀ c ∈ k0, c < 128 := by
    simp only [memAscii, Bool.and_eq_true, List.all_eq_true,
      decide_eq_true_eq] at hA
    exact hA.1.1
  have hA0 : asciiNd v0 = true := by
    simp only [memAscii, Bool.and_eq_true] at hA
    exact hA.1.2
  have hwsK : ∀ b ∈ (if pretty = true then indentBytes isize ind
      else ([] : List Nat)), isWsB b = true := by
    intro b hb
    rcases Bool.eq_false_or_eq_true pretty with hp | hp <;> simp [hp] at hb
    exact indentBytes_ws isize ind b hb
  have hws10 : ∀ b ∈ (if pretty = true then [10] else ([] : List Nat)),
      isWsB b = true := by
    intro b hb
    rcases Bool.eq_false_or_eq_true pretty with hp | hp <;> simp [hp] at hb
    simp [hb, isWsB]
  have hws32 : ∀ b ∈ (if pretty = true then [32] else ([] : List Nat)),
      isWsB b = true := by
    intro b hb
    rcases Bool.eq_false_or_eq_true pretty with hp | hp <;> simp [hp] at hb
    simp [hb, isWsB]
  rw [parseObjMembersF]
  cases r with
  | nil =>
    have hsh : w0 ++ (writeObjMembersF numF pretty isize ind [(k0, v0)] ++
        (cw ++ (125 :: u))) =
        (w0 ++ (if pretty = true then indentBytes isize ind else [])) ++
          (writeString k0 ++
            ((if pretty = true then [58, 32] else [58]) ++
              (writeNodeF numF pretty isize ind v0 ++
                ((if pretty = true then [10] else []) ++
                  (cw ++ (125 :: u)))))) := by
      simp [writeObjMembersF]
    rw [hsh]
    have htok1 : nextTok o ((w0 ++ (if pretty = true then
        indentBytes isize ind else [])) ++
        (writeString k0 ++
          ((if pretty = true then [58, 32] else [58]) ++
            (writeNodeF numF pretty isize ind v0 ++
              ((if pretty = true then [10] else []) ++
                (cw ++ (125 :: u))))))) =
        .ok (⟨.string, 34 :: k0 ++ [34],
          o + (w0 ++ (if pretty = true then indentBytes isize ind
            else [])).length⟩,
          (w0 ++ (if pretty = true then indentBytes isize ind
            else [])).length + ((k0.flatMap escByte).length + 2)) := by
      rw [nextTok_ws _ _ _ (ws_append _ _ hw0 hwsK),
        nextTok_string _ _ _ hAk]
    have hexp1 : expectTok .string o ((w0 ++ (if pretty = true then
        indentBytes isize ind else [])) ++
        (writeString k0 ++
          ((if pretty = true then [58, 32] else [58]) ++
            (writeNodeF numF pretty isize ind v0 ++
              ((if pretty = true then [10] else []) ++
                (cw ++ (125 :: u))))))) =
        .ok (⟨.string, 34 :: k0 ++ [34],
          o + (w0 ++ (if pretty = true then indentBytes isize ind
            else [])).length⟩,
          ((w0 ++ (if pretty = true then indentBytes isize ind
            else [])) ++
            (writeString k0 ++
              ((if pretty = true then [58, 32] else [58]) ++
                (writeNodeF numF pretty isize ind v0 ++
                  ((if pretty = true then [10] else []) ++
                    (cw ++ (125 :: u))))))).drop
            ((w0 ++ (if pretty = true then indentBytes isize ind
              else [])).length + ((k0.flatMap escByte).length + 2)),
          o + ((w0 ++ (if pretty = true then indentBytes isize ind
            else [])).length + ((k0.flatMap escByte).length + 2))) := by
      unfold expectTok
      rw [htok1]
      simp
    simp only [hexp1]
    have hdrop1 : ((w0 ++ (if pretty = true then indentBytes isize ind
        else [])) ++
        (writeString k0 ++
          ((if pretty = true then [58, 32] else [58]) ++
            (writeNodeF numF pretty isize ind v0 ++
              ((if pretty = true then [10] else []) ++
                (cw ++ (125 :: u))))))).drop
        ((w0 ++ (if pretty = true then indentBytes isize ind
          else [])).length + ((k0.flatMap escByte).length + 2)) =
        (if pretty = true then [58, 32] else [58]) ++
          (writeNodeF numF pretty isize ind v0 ++
            ((if pretty = true then [10] else []) ++
              (cw ++ (125 :: u)))) := by
      rw [show (k0.flatMap escByte).length + 2 = (writeString k0).length
        from (writeString_length k0).symm]
      exact drop_two _ _ _
    rw [hdrop1]
    have hcol : (if pretty = true then [58, 32] else [58]) ++
        (writeNodeF numF pretty isize ind v0 ++
          ((if pretty = true then [10] else []) ++ (cw ++ (125 :: u)))) =
        58 :: ((if pretty = true then [32] else []) ++
          (writeNodeF numF pretty isize ind v0 ++
            ((if pretty = true then [10] else []) ++
              (cw ++ (125 :: u))))) := by
      rcases Bool.eq_false_or_eq_true pretty with hp | hp <;> simp [hp]
    rw [hcol]
    have hexp2 : expectTok .colon
        (o + ((w0 ++ (if pretty = true then indentBytes isize ind
          else [])).length + ((k0.flatMap escByte).length + 2)))
        (58 :: ((if pretty = true then [32] else []) ++
          (writeNodeF numF pretty isize ind v0 ++
            ((if pretty = true then [10] else []) ++
              (cw ++ (125 :: u)))))) =
        .ok (⟨.colon, [58],
          o + ((w0 ++ (if pretty = true then indentBytes isize ind
            else [])).length + ((k0.flatMap escByte).length + 2))⟩,
          (if pretty = true then [32] else []) ++
            (writeNodeF numF pretty isize ind v0 ++
              ((if pretty = true then [10] else []) ++
                (cw ++ (125 :: u)))),
          o + ((w0 ++ (if pretty = true then indentBytes isize ind
            else [])).length + ((k0.flatMap escByte).length + 2)) + 1) := by
      unfold expectTok
      rw [nextTok_colon]
      simp
    simp only [hexp2]
    have hu1 : numTermB ((if pretty = true then [10] else []) ++
        (cw ++ (125 :: u))) = true := by
      rcases Bool.eq_false_or_eq_true pretty with hp | hp
      · simp [hp, numTermB]
      · rw [hpc hp]
        simp [hp, numTermB]
    have hdep0 : dL + ndepth v0 ≤ MaxDepth := by
      have hmx := Nat.le_max_left (ndepth v0)
        (memDepth ([] : List (List Nat × Node α)))
      simp only [memDepth] at hdep
      omega
    have hval := hV v0 hA0 f1
      (o + ((w0 ++ (if pretty = true then indentBytes isize ind
        else [])).length + ((k0.flatMap escByte).length + 2)) + 1) dL
      (if pretty = true then [32] else [])
      ((if pretty = true then [10] else []) ++ (cw ++ (125 :: u))) ind
      (by
        simp only [memFuel] at hfe
        omega)
      (by omega) hws32 hu1 hdep0
    simp only [hval]
    have hpk : nextTok
        (o + ((w0 ++ (if pretty = true then indentBytes isize ind
          else [])).length + ((k0.flatMap escByte).length + 2)) + 1 +
          ((if pretty = true then [32] else ([] : List Nat)).length +
            (writeNodeF numF pretty isize ind v0).length))
        ((if pretty = true then [10] else []) ++ (cw ++ (125 :: u))) =
        .ok (⟨.rightBrace, [125],
          o + ((w0 ++ (if pretty = true then indentBytes isize ind
            else [])).length + ((k0.flatMap escByte).length + 2)) + 1 +
            ((if pretty = true then [32] else ([] : List Nat)).length +
              (writeNodeF numF pretty isize ind v0).length) +
            ((if pretty = true then [10] else ([] : List Nat)) ++
              cw).length⟩,
          ((if pretty = true then [10] else ([] : List Nat)) ++
            cw).length + 1) := by
      rw [show (if pretty = true then [10] else []) ++
          (cw ++ (125 :: u)) =
          ((if pretty = true then [10] else []) ++ cw) ++ (125 :: u) from
          by simp]
      rw [nextTok_ws _ _ _ (ws_append _ _ hws10 hcw), nextTok_rbrace]
    simp only [hpk]
    have hdropF : (((if pretty = true then [10] else ([] : List Nat)) ++
        (cw ++ (125 :: u)))).drop
        (((if pretty = true then [10] else ([] : List Nat)) ++ cw).length +
          1) = u := by
      rw [show (if pretty = true then [10] else ([] : List Nat)) ++
          (cw ++ (125 :: u)) =
          ((if pretty = true then [10] else []) ++ cw) ++ ([125] ++ u) from
          by simp]
      exact drop_two _ [125] u
    rw [hdropF, stripQuotes_quotes]
    have hclen : ((if pretty = true then [58, 32] else [58]) :
        List Nat).length =
        1 + ((if pretty = true then [32] else ([] : List Nat))).length := by
      rcases Bool.eq_false_or_eq_true pretty with hp | hp <;> simp [hp]
    simp [writeObjMembersF, List.length_append, writeString_length]
    all_goals omega
  | cons m1 r1 =>
    obtain ⟨k1, v1⟩ := m1
    have hAr : memAscii ((k1, v1) :: r1) = true := by
      simp only [memAscii, Bool.and_eq_true] at hA
      simp only [memAscii, Bool.and_eq_true]
      exact hA.2
    have hsh : w0 ++ (writeObjMembersF numF pretty isize ind
        ((k0, v0) :: (k1, v1) :: r1) ++ (cw ++ (125 :: u))) =
        (w0 ++ (if pretty = true then indentBytes isize ind else [])) ++
          (writeString k0 ++
            ((if pretty = true then [58, 32] else [58]) ++
              (writeNodeF numF pretty isize ind v0 ++
                ([44] ++ ((if pretty = true then [10] else []) ++
                  (writeObjMembersF numF pretty isize ind
                    ((k1, v1) :: r1) ++ (cw ++ (125 :: u)))))))) := by
      simp [writeObjMembersF]
    rw [hsh]
    have htok1 : nextTok o ((w0 ++ (if pretty = true then
        indentBytes isize ind else [])) ++
        (writeString k0 ++
          ((if pretty = true then [58, 32] else [58]) ++
            (writeNodeF numF pretty isize ind v0 ++
              ([44] ++ ((if pretty = true then [10] else []) ++
                (writeObjMembersF numF pretty isize ind
                  ((k1, v1) :: r1) ++ (cw ++ (125 :: u))))))))) =
        .ok (⟨.string, 34 :: k0 ++ [34],
          o + (w0 ++ (if pretty = true then indentBytes isize ind
            else [])).length⟩,
          (w0 ++ (if pretty = true then indentBytes isize ind
            else [])).length + ((k0.flatMap escByte).length + 2)) := by
      rw [nextTok_ws _ _ _ (ws_append _ _ hw0 hwsK),
        nextTok_string _ _ _ hAk]
    have hexp1 : expectTok .string o ((w0 ++ (if pretty = true then
        indentBytes isize ind else [])) ++
        (writeString k0 ++
          ((if pretty = true then [58, 32] else [58]) ++
            (writeNodeF numF pretty isize ind v0 ++
              ([44] ++ ((if pretty = true then [10] else []) ++
                (writeObjMembersF numF pretty isize ind
                  ((k1, v1) :: r1) ++ (cw ++ (125 :: u))))))))) =
        .ok (⟨.string, 34 :: k0 ++ [34],
          o + (w0 ++ (if pretty = true then indentBytes isize ind
            else [])).length⟩,
          ((w0 ++ (if pretty = true then indentBytes isize ind
            else [])) ++
            (writeString k0 ++
              ((if pretty = true then [58, 32] else [58]) ++
                (writeNodeF numF pretty isize ind v0 ++
                  ([44] ++ ((if pretty = true then [10] else []) ++
                    (writeObjMembersF numF pretty isize ind
                      ((k1, v1) :: r1) ++
                      (cw ++ (125 :: u))))))))).drop
            ((w0 ++ (if pretty = true then indentBytes isize ind
              else [])).length + ((k0.flatMap escByte).length + 2)),
          o + ((w0 ++ (if pretty = true then indentBytes isize ind
            else [])).length + ((k0.flatMap escByte).length + 2))) := by
      unfold expectTok
      rw [htok1]
      simp
    simp only [hexp1]
    have hdrop1 : ((w0 ++ (if pretty = true then indentBytes isize ind
        else [])) ++
        (writeString k0 ++
          ((if pretty = true then [58, 32] else [58]) ++
            (writeNodeF numF pretty isize ind v0 ++
              ([44] ++ ((if pretty = true then [10] else []) ++
                (writeObjMembersF numF pretty isize ind
                  ((k1, v1) :: r1) ++ (cw ++ (125 :: u))))))))).drop
        ((w0 ++ (if pretty = true then indentBytes isize ind
          else [])).length + ((k0.flatMap escByte).length + 2)) =
        (if pretty = true then [58, 32] else [58]) ++
          (writeNodeF numF pretty isize ind v0 ++
            ([44] ++ ((if pretty = true then [10] else []) ++
              (writeObjMembersF numF pretty isize ind ((k1, v1) :: r1) ++
                (cw ++ (125 :: u)))))) := by
      rw [show (k0.flatMap escByte).length + 2 = (writeString k0).length
        from (writeString_length k0).symm]
      exact drop_two _ _ _
    rw [hdrop1]
    have hcol : (if pretty = true then [58, 32] else [58]) ++
        (writeNodeF numF pretty isize ind v0 ++
          ([44] ++ ((if pretty = true then [10] else []) ++
            (writeObjMembersF numF pretty isize ind ((k1, v1) :: r1) ++
              (cw ++ (125 :: u)))))) =
        58 :: ((if pretty = true then [32] else []) ++
          (writeNodeF numF pretty isize ind v0 ++
            ([44] ++ ((if pretty = true then [10] else []) ++
              (writeObjMembersF numF pretty isize ind ((k1, v1) :: r1) ++
                (cw ++ (125 :: u))))))) := by
      rcases Bool.eq_false_or_eq_true pretty with hp | hp <;> simp [hp]
    rw [hcol]
    have hexp2 : expectTok .colon
        (o + ((w0 ++ (if pretty = true then indentBytes isize ind
          else [])).length + ((k0.flatMap escByte).length + 2)))
        (58 :: ((if pretty = true then [32] else []) ++
          (writeNodeF numF pretty isize ind v0 ++
            ([44] ++ ((if pretty = true then [10] else []) ++
              (writeObjMembersF numF pretty isize ind ((k1, v1) :: r1) ++
                (cw ++ (125 :: u)))))))) =
        .ok (⟨.colon, [58],
          o + ((w0 ++ (if pretty = true then indentBytes isize ind
            else [])).length + ((k0.flatMap escByte).length + 2))⟩,
          (if pretty = true then [32] else []) ++
            (writeNodeF numF pretty isize ind v0 ++
              ([44] ++ ((if pretty = true then [10] else []) ++
                (writeObjMembersF numF pretty isize ind
                  ((k1, v1) :: r1) ++ (cw ++ (125 :: u)))))),
          o + ((w0 ++ (if pretty = true then indentBytes isize ind
            else [])).length + ((k0.flatMap escByte).length + 2)) + 1) := by
      unfold expectTok
      rw [nextTok_colon]
      simp
    simp only [hexp2]
    have hdep0 : dL + ndepth v0 ≤ MaxDepth := by
      have hmx := Nat.le_max_left (ndepth v0)
        (memDepth ((k1, v1) :: r1))
      rw [show memDepth ((k0, v0) :: (k1, v1) :: r1) =
        max (ndepth v0) (memDepth ((k1, v1) :: r1)) from rfl] at hdep
      omega
    have hval := hV v0 hA0 f1
      (o + ((w0 ++ (if pretty = true then indentBytes isize ind
        else [])).length + ((k0.flatMap escByte).length + 2)) + 1) dL
      (if pretty = true then [32] else [])
      ([44] ++ ((if pretty = true then [10] else []) ++
        (writeObjMembersF numF pretty isize ind ((k1, v1) :: r1) ++
          (cw ++ (125 :: u))))) ind
      (by
        simp only [memFuel] at hfe
        omega)
      (by omega) hws32 (by simp [numTermB]) hdep0
    simp only [hval]
    have hpk : nextTok
        (o + ((w0 ++ (if pretty = true then indentBytes isize ind
          else [])).length + ((k0.flatMap escByte).length + 2)) + 1 +
          ((if pretty = true then [32] else ([] : List Nat)).length +
            (writeNodeF numF pretty isize ind v0).length))
        ([44] ++ ((if pretty = true then [10] else []) ++
          (writeObjMembersF numF pretty isize ind ((k1, v1) :: r1) ++
            (cw ++ (125 :: u))))) =
        .ok (⟨.comma, [44],
          o + ((w0 ++ (if pretty = true then indentBytes isize ind
            else [])).length + ((k0.flatMap escByte).length + 2)) + 1 +
            ((if pretty = true then [32] else ([] : List Nat)).length +
              (writeNodeF numF pretty isize ind v0).length)⟩, 1) := by
      rw [show ([44] : List Nat) ++
          ((if pretty = true then [10] else []) ++
          (writeObjMembersF numF pretty isize ind ((k1, v1) :: r1) ++
            (cw ++ (125 :: u)))) =
          44 :: ((if pretty = true then [10] else []) ++
          (writeObjMembersF numF pretty isize ind ((k1, v1) :: r1) ++
            (cw ++ (125 :: u)))) from rfl]
      rw [nextTok_comma]
    simp only [hpk]
    have hdropC : (([44] : List Nat) ++
        ((if pretty = true then [10] else []) ++
          (writeObjMembersF numF pretty isize ind ((k1, v1) :: r1) ++
            (cw ++ (125 :: u))))).drop 1 =
        (if pretty = true then [10] else []) ++
          (writeObjMembersF numF pretty isize ind ((k1, v1) :: r1) ++
            (cw ++ (125 :: u))) := by
      rfl
    rw [hdropC, stripQuotes_quotes]
    have hrec := hM ((k1, v1) :: r1) (by simp) hAr f1
      (o + ((w0 ++ (if pretty = true then indentBytes isize ind
        else [])).length + ((k0.flatMap escByte).length + 2)) + 1 +
        ((if pretty = true then [32] else ([] : List Nat)).length +
          (writeNodeF numF pretty isize ind v0).length) + 1) dL
      (acc ++ [(k0, v0)]) (if pretty = true then [10] else []) cw u ind
      (by
        simp only [memFuel] at hfe ⊢
        omega)
      (by omega) hws10 hcw hpc hu
      (by
        have hmx := Nat.le_max_right (ndepth v0)
          (memDepth ((k1, v1) :: r1))
        rw [show memDepth ((k0, v0) :: (k1, v1) :: r1) =
          max (ndepth v0) (memDepth ((k1, v1) :: r1)) from rfl] at hdep
        omega)
    rw [hrec]
    have hclen : ((if pretty = true then [58, 32] else [58]) :
        List Nat).length =
        1 + ((if pretty = true then [32] else ([] : List Nat))).length := by
      rcases Bool.eq_false_or_eq_true pretty with hp | hp <;> simp [hp]
    simp [writeObjMembersF, List.length_append, writeString_length]
    all_goals omega

mutual

/-- The parser fuel a tree needs is bounded by its serialized length. -/
theorem nfuel_le_len (numF : α → List Nat) (pretty : Bool)
    (hnum : ∀ x, 1 ≤ (numF x).length) (isize : Nat) :
    ∀ (ind : Nat) (t : Node α),
      nfuel t ≤ (writeNodeF numF pretty isize ind t).length
  | _, .null => by simp [nfuel, writeNodeF]
  | _, .bool b => by cases b <;> simp [nfuel, writeNodeF]
  | _, .num x => by simpa [nfuel, writeNodeF] using hnum x
  | _, .str s0 => by
    simp [nfuel, writeNodeF, writeString]
  | ind, .arr es => by
    cases es with
    | nil => simp [nfuel, elFuel, writeNodeF, writeArrElemsF]
    | cons e r =>
      have h := elFuel_le_len numF pretty hnum isize (ind + 1) (e :: r)
        (by simp)
      simp only [nfuel, writeNodeF, List.length_append]
      simp
      omega
  | ind, .obj ms => by
    cases ms with
    | nil => simp [nfuel, memFuel, writeNodeF, writeObjMembersF]
    | cons m r =>
      have h := memFuel_le_len numF pretty hnum isize (ind + 1) (m :: r)
        (by simp)
      simp only [nfuel, writeNodeF, List.length_append]
      simp
      omega

/-- Fuel bound for the array element loop. -/
theorem elFuel_le_len (numF : α → List Nat) (pretty : Bool)
    (hnum : ∀ x, 1 ≤ (numF x).length) (isize : Nat) :
    ∀ (ind : Nat) (es : List (Node α)), es ≠ [] →
      elFuel es ≤ (writeArrElemsF numF pretty isize ind es).length + 1
  | _, [], h => absurd rfl h
  | ind, [e], _ => by
    have h := nfuel_le_len numF pretty hnum isize ind e
    simp only [elFuel, writeArrElemsF, List.length_append]
    simp
    omega
  | ind, e :: e2 :: r, _ => by
    have h1 := nfuel_le_len numF pretty hnum isize ind e
    have h2 := elFuel_le_len numF pretty hnum isize ind (e2 :: r) (by simp)
    simp only [elFuel] at h2 ⊢
    simp only [writeArrElemsF, List.length_append]
    simp
    omega

/-- Fuel bound for the object member loop. -/
theorem memFuel_le_len (numF : α → List Nat) (pretty : Bool)
    (hnum : ∀ x, 1 ≤ (numF x).length) (isize : Nat) :
    ∀ (ind : Nat) (ms : List (List Nat × Node α)), ms ≠ [] →
      memFuel ms ≤ (writeObjMembersF numF pretty isize ind ms).length + 1
  | _, [], h => absurd rfl h
  | ind, [(k, v)], _ => by
    have h := nfuel_le_len numF pretty hnum isize ind v
    simp only [memFuel, writeObjMembersF, List.length_append]
    simp
    omega
  | ind, (k, v) :: m2 :: r, _ => by
    have h1 := nfuel_le_len numF pretty hnum isize ind v
    have h2 := memFuel_le_len numF pretty hnum isize ind (m2 :: r) (by simp)
    simp only [memFuel] at h2 ⊢
    simp only [writeObjMembersF, List.length_append]
    simp
    omega

end

/-- Reparse soundness at every fuel bound: the conjunction of the three
loop predicates, by induction on the bound. -/
theorem reparse_master (numP : List Nat → Option α) (numF : α → List Nat)
    (pretty : Bool) (isize : Nat)
    (hrt : ∀ x, numP (numF x) = some x)
    (hlit : ∀ x u, numTermB u = true →
      readNumber (numF x ++ u) = some (numF x).length)
    (hhead : ∀ x, numHeadOk (numF x) = true) :
    ∀ N, PV numP numF pretty isize N ∧ PE numP numF pretty isize N ∧
      PM numP numF pretty isize N := by
  intro N
  induction N with
  | zero =>
    refine ⟨?_, ?_, ?_⟩
    · intro t hA f o d w u ind hnf hfF hw hu hd
      exfalso
      have := nfuel_pos t
      omega
    · intro es hne hA f o dL acc w0 cw u ind hfe hfF hw0 hcw hpc hu hdep
      exfalso
      cases es with
      | nil => exact hne rfl
      | cons e r =>
        have := nfuel_pos e
        simp only [elFuel] at hfe
        omega
    · intro ms hne hA f o dL acc w0 cw u ind hfe hfF hw0 hcw hpc hu hdep
      exfalso
      cases ms with
      | nil => exact hne rfl
      | cons m r =>
        obtain ⟨k, v⟩ := m
        have := nfuel_pos v
        simp only [memFuel] at hfe
        omega
  | succ n ih =>
    exact ⟨reparseValueAux numP numF pretty isize n hrt hlit hhead
        ih.2.1 ih.2.2,
      reparseElemsAux numP numF pretty isize n ih.1 ih.2.1,
      reparseMemsAux numP numF pretty isize n ih.1 ih.2.2⟩

/-- Round trip: `parse` inverts `write` on every tree whose strings and
keys are ASCII and whose nesting depth fits the parser bound, for both
pretty and compact serialization, given a faithful number model. -/
theorem parse_write_roundtrip (numP : List Nat → Option α)
    (numF : α → List Nat) (pretty : Bool)
    (hrt : ∀ x, numP (numF x) = some x)
    (hlit : ∀ x u, numTermB u = true →
      readNumber (numF x ++ u) = some (numF x).length)
    (hhead : ∀ x, numHeadOk (numF x) = true)
    (t : Node α) (hA : asciiNd t = true) (hd : ndepth t ≤ MaxDepth) :
    parse numP (write numF pretty t) = .ok t := by
  have hnum : ∀ x, 1 ≤ (numF x).length := by
    intro x
    have := hhead x
    unfold numHeadOk at this
    cases hh : (numF x).head? with
    | none => rw [hh] at this; cases this
    | some b =>
      cases hx : numF x with
      | nil => rw [hx] at hh; cases hh
      | cons c cs => simp
  have hfuel : nfuel t ≤
      2 * (writeNodeF numF pretty 2 0 t).length + 2 := by
    have := nfuel_le_len numF pretty hnum 2 0 t
    omega
  have hPV := (reparse_master numP numF pretty 2 hrt hlit hhead
    (2 * (writeNodeF numF pretty 2 0 t).length + 2)).1
  have h := hPV t hA (2 * (writeNodeF numF pretty 2 0 t).length + 2)
    0 0 [] [] 0 hfuel (le_refl _) (by simp) (by simp [numTermB])
    (by omega)
  simp only [List.nil_append, List.append_nil, List.length_nil,
    Nat.zero_add] at h
  unfold parse parseRaw write
  simp only [h]
  rw [nextTok_end]
  simp

/-- Parsing a run of `k` opening brackets at depth `d` with
`d + k > MaxDepth` descends `MaxDepth - d` levels and then fails with
`TooDeep` at the offset just past the bracket that overflows, leaving the
depth counter at `MaxDepth + 1`. -/
theorem tooDeepChain (numP : List Nat → Option α) :
    ∀ m d k u o f, d + m = MaxDepth → MaxDepth < d + k →
      2 * m + 2 ≤ f →
      parseValueF numP f o (List.replicate k 91 ++ u) d =
        .err ⟨.tooDeep, o + m + 1⟩ (MaxDepth + 1) := by
  intro m
  induction m with
  | zero =>
    intro d k u o f hdm hk hf
    cases f with
    | zero => omega
    | succ f1 =>
      obtain ⟨k1, rfl⟩ : ∃ k1, k = k1 + 1 := ⟨k - 1, by omega⟩
      rw [show List.replicate (k1 + 1) 91 ++ u =
        91 :: (List.replicate k1 91 ++ u) from by
        rw [List.replicate_succ]; rfl]
      rw [parseValueF]
      simp only [nextTok_lbracket]
      rw [parseArrayF, if_pos (by omega : d + 1 > MaxDepth)]
      have htep : tokEndPos o (91 :: (List.replicate k1 91 ++ u)) =
          o + 1 := by
        unfold tokEndPos
        rw [nextTok_lbracket]
      rw [htep]
      simp
      omega
  | succ m ih =>
    intro d k u o f hdm hk hf
    cases f with
    | zero => omega
    | succ f1 =>
      obtain ⟨k1, rfl⟩ : ∃ k1, k = k1 + 1 := ⟨k - 1, by omega⟩
      rw [show List.replicate (k1 + 1) 91 ++ u =
        91 :: (List.replicate k1 91 ++ u) from by
        rw [List.replicate_succ]; rfl]
      rw [parseValueF]
      simp only [nextTok_lbracket]
      rw [parseArrayF, if_neg (by omega : ¬ d + 1 > MaxDepth)]
      have hexp : expectTok .leftBracket o
          (91 :: (List.replicate k1 91 ++ u)) =
          .ok (⟨.leftBracket, [91], o⟩,
            (91 :: (List.replicate k1 91 ++ u)).drop 1, o + 1) := by
        unfold expectTok
        rw [nextTok_lbracket]
        simp
      simp only [hexp]
      have hdrop : (91 :: (List.replicate k1 91 ++ u)).drop 1 =
          List.replicate k1 91 ++ u := rfl
      rw [hdrop]
      obtain ⟨k2, rfl⟩ : ∃ k2, k1 = k2 + 1 := ⟨k1 - 1, by omega⟩
      rw [show List.replicate (k2 + 1) 91 ++ u =
        91 :: (List.replicate k2 91 ++ u) from by
        rw [List.replicate_succ]; rfl]
      simp only [nextTok_lbracket]
      rw [if_neg (by simp)]
      cases f1 with
      | zero => omega
      | succ f2 =>
        rw [parseArrElemsF]
        have hih := ih (d + 1) (k2 + 1) u (o + 1) f2
          (by omega) (by omega) (by omega)
        rw [show (91 : Nat) :: (List.replicate k2 91 ++ u) =
          List.replicate (k2 + 1) 91 ++ u from by
          rw [List.replicate_succ]; rfl]
        simp only [hih]
        simp
        omega

/-- `json::parse` on any input opening more than `MaxDepth` brackets fails
with `TooDeep` at offset `MaxDepth + 1`. -/
theorem tooDeep_parse (numP : List Nat → Option α) (k : Nat)
    (u : List Nat) (hk : MaxDepth < k) :
    parse numP (List.replicate k 91 ++ u) =
      .error ⟨.tooDeep, MaxDepth + 1⟩ := by
  unfold parse parseRaw
  have h := tooDeepChain numP MaxDepth 0 k u 0
    (2 * (List.replicate k 91 ++ u).length + 2)
    (by omega) (by omega)
    (by
      simp [List.length_append, List.length_replicate]
      unfold MaxDepth at hk ⊢
      omega)
  simp only [h]
  simp

/-- Nested arrays have ASCII content trivially. -/
theorem asciiNd_nestArr (n : Nat) :
    asciiNd (nestArr α n) = true := by
  induction n with
  | zero => simp [nestArr, asciiNd, elAscii]
  | succ n ih => simp [nestArr, asciiNd, elAscii, ih]

/-- Depth of the nested-array tower. -/
theorem ndepth_nestArr (n : Nat) :
    ndepth (nestArr α n) = n + 1 := by
  induction n with
  | zero => simp [nestArr, ndepth, elDepth]
  | succ n ih =>
    simp [nestArr, ndepth, elDepth, ih]
    omega

/-- Compact serialization of the nested-array tower is a bracket run. -/
theorem writeNode_nestArr (numF : α → List Nat) (isize : Nat) :
    ∀ n ind, writeNodeF numF false isize ind (nestArr α n) =
      List.replicate (n + 1) 91 ++ List.replicate (n + 1) 93 := by
  intro n
  induction n with
  | zero =>
    intro ind
    simp [nestArr, writeNodeF, writeArrElemsF, List.replicate]
  | succ n ih =>
    intro ind
    rw [show nestArr α (n + 1) = .arr [nestArr α n] from rfl]
    rw [show writeNodeF numF false isize ind (.arr [nestArr α n]) =
      [91] ++ ((writeNodeF numF false isize (ind + 1) (nestArr α n)) ++
        [93]) from by simp [writeNodeF, writeArrElemsF]]
    rw [ih (ind + 1)]
    rw [show List.replicate (n + 1 + 1) 91 =
      91 :: List.replicate (n + 1) 91 from rfl]
    rw [show List.replicate (n + 1 + 1) 93 =
      List.replicate (n + 1) 93 ++ [93] from List.replicate_succ' _ _]
    simp

/-- The witness number model round-trips. -/
theorem unit_hrt : ∀ x : Unit, unitNumP (unitNumF x) = some x := by
  intro x
  cases x
  simp [unitNumP, unitNumF]

/-- The witness number literal is lexed whole before any terminator. -/
theorem unit_hlit : ∀ (x : Unit) (u : List Nat), numTermB u = true →
    readNumber (unitNumF x ++ u) = some (unitNumF x).length := by
  intro x u hu
  cases x
  cases u with
  | nil => decide
  | cons b r =>
    have hb : b = 44 ∨ b = 93 ∨ b = 125 ∨ b = 10 := by
      simp only [numTermB, Bool.or_eq_true, decide_eq_true_eq] at hu
      tauto
    rcases hb with h | h | h | h <;> subst h <;>
      simp [unitNumF, readNumber, fracScan, expScan, isDigitB, countDigits]

/-- The witness number literal starts with a digit. -/
theorem unit_hhead : ∀ x : Unit, numHeadOk (unitNumF x) = true := by
  intro x
  cases x
  decide

/-- C2: parsing 256 directly nested arrays (`[[[...]]]`) succeeds and
yields the 256-level tower; parsing 257 nested arrays fails with `TooDeep`
at offset 257; and in general every input opening more than 256 brackets,
whatever follows, fails with `TooDeep`. -/
theorem c2_nesting_depth :
    parse unitNumP (List.replicate 256 91 ++ List.replicate 256 93) =
      .ok (nestArr Unit 255) ∧
    ndepth (nestArr Unit 255) = 256 ∧
    parse unitNumP (List.replicate 257 91 ++ List.replicate 257 93) =
      .error ⟨.tooDeep, 257⟩ ∧
    (∀ (k : Nat) (u : List Nat), 256 < k →
      parse unitNumP (List.replicate k 91 ++ u) =
        .error ⟨.tooDeep, 257⟩) := by
  refine ⟨?_, ?_, ?_, ?_⟩
  · have h := parse_write_roundtrip unitNumP unitNumF false unit_hrt
      unit_hlit unit_hhead (nestArr Unit 255) (asciiNd_nestArr 255)
      (by rw [ndepth_nestArr]; unfold MaxDepth; omega)
    rw [show write unitNumF false (nestArr Unit 255) =
      List.replicate 256 91 ++ List.replicate 256 93 from by
      unfold write
      rw [writeNode_nestArr]] at h
    exact h
  · rw [ndepth_nestArr]
  · exact tooDeep_parse unitNumP 257 (List.replicate 257 93)
      (by unfold MaxDepth; omega)
  · intro k u hk
    exact tooDeep_parse unitNumP k u (by unfold MaxDepth; omega)

/-- Concrete instance of the general `TooDeep` clause of C2. -/
theorem c2_nesting_depth_witness :
    parse unitNumP (List.replicate 300 91 ++ [48]) =
      .error ⟨.tooDeep, 257⟩ :=
  c2_nesting_depth.2.2.2 300 [48] (by decide)

/-- C1: round-trip idempotence, amended: for every tree whose strings and
object keys are 7-bit ASCII and whose nesting depth is at most 256, with a
number model in which formatting then re-reading a number is the identity,
re-parsing the serialized output (pretty or compact) yields the identical
tree. (For non-ASCII string bytes the round trip fails: the writer escapes
each byte 0x80-0xFF as a separate \u00XX sequence, which re-parsing
expands into the multi-byte UTF-8 encoding of U+00XX.) -/
theorem c1_roundtrip_amended (numP : List Nat → Option α)
    (numF : α → List Nat) (pretty : Bool)
    (hrt : ∀ x, numP (numF x) = some x)
    (hlit : ∀ x u, numTermB u = true →
      readNumber (numF x ++ u) = some (numF x).length)
    (hhead : ∀ x, numHeadOk (numF x) = true)
    (t : Node α) (hA : asciiNd t = true) (hd : ndepth t ≤ MaxDepth) :
    parse numP (write numF pretty t) = .ok t :=
  parse_write_roundtrip numP numF pretty hrt hlit hhead t hA hd

/-- Concrete round trips through the amended C1 theorem: a pretty-printed
and a compact object containing every node kind, with an escape-needing
string byte. -/
theorem c1_roundtrip_amended_witness :
    parse unitNumP (write unitNumF true
      (.obj [([97], .arr [.null, .bool true, .num (), .str [104, 92, 105]])])) =
      .ok (.obj [([97],
        .arr [.null, .bool true, .num (), .str [104, 92, 105]])]) ∧
    parse unitNumP (write unitNumF false
      (.obj [([97], .arr [.null, .bool true, .num (), .str [104, 92, 105]])])) =
      .ok (.obj [([97],
        .arr [.null, .bool true, .num (), .str [104, 92, 105]])]) :=
  ⟨c1_roundtrip_amended unitNumP unitNumF true unit_hrt unit_hlit unit_hhead
      _ (by decide) (by decide),
    c1_roundtrip_amended unitNumP unitNumF false unit_hrt unit_hlit
      unit_hhead _ (by decide) (by decide)⟩

/-- The original C1 claim fails on non-ASCII content: the document
`"\u00e9"` parses to the two UTF-8 bytes C3 A9, the writer re-escapes each
byte separately as `"\u00c3\u00a9"`, and re-parsing that yields the four
bytes C3 83 C2 A9 - a different tree. -/
theorem c1_counterexample :
    parse unitNumP [34, 92, 117, 48, 48, 101, 57, 34] =
      .ok (.str [195, 169]) ∧
    write unitNumF false (.str [195, 169]) =
      [34, 92, 117, 48, 48, 99, 51, 92, 117, 48, 48, 97, 57, 34] ∧
    parse unitNumP
      [34, 92, 117, 48, 48, 99, 51, 92, 117, 48, 48, 97, 57, 34] =
      .ok (.str [195, 131, 194, 169]) ∧
    Node.str (α := Unit) [195, 131, 194, 169] ≠ .str [195, 169] := by
  refine ⟨?_, ?_, ?_, by decide⟩
  · simp +decide [parse, parseRaw, parseValueF, nextTok, readString,
      strScan, unescLoop, unescGo, unescStep, decodeHex4, hexToInt,
      encodeUtf8, wsCount, isWsB, stripQuotes]
  · simp +decide [write, writeNodeF, writeString, escByte, sbyte,
      hexDigitL]
  · simp +decide [parse, parseRaw, parseValueF, nextTok, readString,
      strScan, unescLoop, unescGo, unescStep, decodeHex4, hexToInt,
      encodeUtf8, wsCount, isWsB, stripQuotes]

end JsonCpp
